import Mathlib

/-!
Verification development for the `fdir` filesystem-entity library.

The Rust source is embedded shallowly:
* paths are lists of components (`Path := List String`), as produced by
  Rust's `Path::iter` (an absolute Unix path starts with the component "/",
  a Windows path with its drive prefix);
* the filesystem is a finite association list from paths to nodes
  (`FS := List (Path × Node)`), a node being a regular file (with its byte
  content and read-only flag) or a directory (with its read-only flag);
* effectful operations live in the monad `M α := FS → Except ErrKind α × FS
  × List Ev`: a computation returns a result or an error kind, the new
  filesystem, and the list of primitive filesystem events it performed.
  Rust's `?` propagation corresponds to the monad's error short-circuiting.
* `std::fs` primitives (`rename`, `copy`, `create_dir_all`, `remove_file`,
  `remove_dir_all`, `set_permissions`, `read_dir`, `try_exists`) are
  modelled on POSIX semantics over this state; whether an atomic rename
  that is otherwise legal succeeds (same device or not, platform quirks)
  is abstracted by an oracle `Os.renameOk`.
-/

namespace Fdir

/-- Paths are lists of components, in the order Rust's `Path::iter` yields
them; an absolute path starts with its root component (e.g. "/"). -/
abbrev Path := List String

/-- A filesystem object: a regular file with byte content and read-only
flag, or a directory with a read-only flag. -/
inductive Node where
  | file (content : List Nat) (ro : Bool)
  | dir (ro : Bool)
deriving DecidableEq, Repr

/-- The filesystem state: a finite association list from paths to nodes.
The list order is the (implementation-defined) directory enumeration
order. -/
abbrev FS := List (Path × Node)

def lookupFS (fs : FS) (p : Path) : Option Node :=
  (fs.find? (fun e => e.1 = p)).map (fun e => e.2)

def existsFS (fs : FS) (p : Path) : Bool :=
  (lookupFS fs p).isSome

def isDirFS (fs : FS) (p : Path) : Bool :=
  match lookupFS fs p with
  | some (.dir _) => true
  | _ => false

def isFileFS (fs : FS) (p : Path) : Bool :=
  match lookupFS fs p with
  | some (.file _ _) => true
  | _ => false

/-- Replace or insert the entry at `p`. -/
def setFS (fs : FS) (p : Path) (n : Node) : FS :=
  if existsFS fs p then
    fs.map (fun e => if e.1 = p then (p, n) else e)
  else
    fs ++ [(p, n)]

/-- Remove the single entry at `p`. -/
def removeEntry (fs : FS) (p : Path) : FS :=
  fs.filter (fun e => ¬ e.1 = p)

/-- Remove every entry at or below `p`. -/
def removeSubtree (fs : FS) (p : Path) : FS :=
  fs.filter (fun e => ¬ p.isPrefixOf e.1)

/-- Set the read-only flag of the entry at `p` (no-op when absent). -/
def setRO (fs : FS) (p : Path) (b : Bool) : FS :=
  fs.map (fun e =>
    if e.1 = p then
      match e.2 with
      | .file c _ => (e.1, Node.file c b)
      | .dir _ => (e.1, Node.dir b)
    else e)

/-- Relocate the whole subtree rooted at `src` to `dst` (the effect of a
successful atomic rename): the entry at `dst` (an empty directory being
overwritten) disappears, and every `src`-prefixed path is rebased onto
`dst`. -/
def renameTree (fs : FS) (src dst : Path) : FS :=
  (fs.filter (fun e => ¬ e.1 = dst)).map (fun e =>
    if src.isPrefixOf e.1 then (dst ++ e.1.drop src.length, e.2) else e)

/-- Error kinds mirroring the `std::io::ErrorKind` values the source
distinguishes; `fuelOut` marks exhaustion of the artificial recursion fuel
of the tree-transfer engine and corresponds to no source behaviour. -/
inductive ErrKind where
  | notFound
  | alreadyExists
  | invalidInput
  | otherErr
  | fuelOut
deriving DecidableEq, Repr

/-- Primitive filesystem events. `evRenameAtt` records every atomic-rename
attempt (also failing ones) and has no effect; the other events are
emitted exactly when the corresponding mutation happens, so a run's event
list determines its filesystem effect (`applyEvs`). -/
inductive Ev where
  | evRenameAtt (src dst : Path)
  | evMove (src dst : Path)
  | evCopyF (src dst : Path)
  | evMkdir (p : Path)
  | evRmF (p : Path)
  | evRmTree (p : Path)
  | evPerm (p : Path) (b : Bool)
  | evCreate (p : Path)
deriving DecidableEq, Repr

def applyEv (fs : FS) : Ev → FS
  | .evRenameAtt _ _ => fs
  | .evMove s t => renameTree fs s t
  | .evCopyF s t =>
      match lookupFS fs s with
      | some n => setFS fs t n
      | none => fs
  | .evMkdir p => setFS fs p (Node.dir false)
  | .evRmF p => removeEntry fs p
  | .evRmTree p => removeSubtree fs p
  | .evPerm p b => setRO fs p b
  | .evCreate p => setFS fs p (Node.file [] false)

def applyEvs (evs : List Ev) (fs : FS) : FS :=
  evs.foldl applyEv fs

/-- The effect monad: a computation consumes a filesystem and produces a
result or error kind, the new filesystem, and the events performed. -/
def M (α : Type) : Type := FS → Except ErrKind α × FS × List Ev

def M.pure (a : α) : M α := fun fs => (Except.ok a, fs, [])

def M.bind (m : M α) (k : α → M β) : M β := fun fs =>
  match m fs with
  | (Except.ok a, fs', evs) =>
      match k a fs' with
      | (r, fs'', evs') => (r, fs'', evs ++ evs')
  | (Except.error e, fs', evs) => (Except.error e, fs', evs)

instance : Monad M where
  pure := M.pure
  bind := M.bind

def throwM (e : ErrKind) : M α := fun fs => (Except.error e, fs, [])

def getFS : M FS := fun fs => (Except.ok fs, fs, [])

/-- Perform one primitive event: the filesystem advances by `applyEv` and
the event is recorded. Every mutation of the model goes through this
function, so a run's event list always determines its filesystem effect. -/
def emitEv (ev : Ev) : M Unit := fun fs =>
  (Except.ok (), applyEv fs ev, [ev])

/-- Rust `Path::parent`: `None` for a bare root component (or an empty
path), otherwise the path without its final component. -/
def rustParent (p : Path) : Option Path :=
  if p.length ≤ 1 then none else some p.dropLast

/-- Rust `Path::file_name`: `None` for a bare root component, otherwise
the final component. -/
def fileNameR (p : Path) : Option String :=
  if p.length ≤ 1 then none else p.getLast?

/-- A component is normal when it is none of the special markers the
normalizer `fix_path` rewrites. -/
def normalComp (s : String) : Bool :=
  ¬ (s = "." ∨ s = ".." ∨ s = "~")

/-- Embeds `push_os_str` of src/lib.rs for absolute inputs: "." is
dropped, ".." pops the builder (which, like Rust's `PathBuf::pop`, keeps
the root component), any other component is appended. The `~` arm of the
source replaces the builder by the platform home directory (an external
collaborator); it is not modelled and no claim exercises it. -/
def pushOs (b : Path) (os : String) : Path :=
  if os = "." then b
  else if os = ".." then (if b.length ≤ 1 then b else b.dropLast)
  else b ++ [os]

/-- Embeds `fix_path` of src/lib.rs for absolute inputs: the builder
starts empty and every component is pushed through `pushOs`. -/
def fix_path (p : Path) : Path :=
  p.foldl pushOs []

/-- Embeds `push_file_name` of src/lib.rs: appends the given file name to
the path, failing with `INVALID_PATH` (kind `InvalidInput`) when there is
no file name. -/
def push_file_name (name : Option String) (p : Path) : Except ErrKind Path :=
  match name with
  | some n => Except.ok (p ++ [n])
  | none => Except.error ErrKind.invalidInput

/-- Embeds the index loop of `replace` in src/lib.rs: the index advances
while it is below `base`'s length and the component of `path` at the
index (as an `Option`, `get`) equals the component of `base` there. -/
def replaceIdx : List String → List String → Nat
  | _, [] => 0
  | ps, b :: bs =>
      match ps with
      | [] => 0
      | p :: ps' => if p = b then replaceIdx ps' bs + 1 else 0

/-- Rust `PathBuf::push` on one component: pushing the absolute (root)
component replaces the buffer, any other component is appended. -/
def pushPB (b : Path) (os : String) : Path :=
  if os = "/" then ["/"] else b ++ [os]

/-- Embeds `replace` of src/lib.rs: the components of `path` past the
loop's final index are pushed onto `to` with `PathBuf::push` — so a
component that is the root resets the builder rather than extending it. -/
def replace (path base dest : Path) : Path :=
  (path.drop (replaceIdx path base)).foldl pushPB dest

/-- No component below the head is the root marker (true of every path a
real operating system hands out, where only the first component can be
the root). -/
def rootFreeTail (p : Path) : Bool :=
  (p.drop 1).all (fun c => ¬ c = "/")

/-- Every key of the filesystem has the root marker at most in head
position. -/
def rootFreeFS (fs : FS) : Bool :=
  fs.all (fun e => rootFreeTail e.1)

/-- Embeds the `while path.pop() {}` loop of `is_same_root` for absolute
paths: `PathBuf::pop` stops at the root, so the loop leaves exactly the
root component. -/
def popAll (p : Path) : Path :=
  match p with
  | [] => []
  | x :: _ => [x]

/-- Embeds `is_same_root` of src/lib.rs: whether `to` starts with the
root of `path`. -/
def is_same_root (p dest : Path) : Bool :=
  (popAll p).isPrefixOf dest

/-- Platform oracle: `renameOk src dst` decides whether an atomic rename
whose POSIX preconditions hold actually succeeds (it is false e.g. for a
cross-device pair); `dirMeta p` is the platform-defined `metadata().len()`
of a directory. -/
structure Os where
  renameOk : Path → Path → Bool
  dirMeta : Path → Nat

/-- No strict descendant entry below `p`. -/
def emptyDirFS (fs : FS) (p : Path) : Bool :=
  fs.all (fun e => ¬ (p.isPrefixOf e.1 ∧ ¬ e.1 = p))

/-- Models `Path::try_exists` over the abstract state: never fails. -/
def tryExistsP (p : Path) : M Bool := do
  let fs ← getFS
  pure (existsFS fs p)

/-- Success condition of the modelled atomic rename: the source exists,
the destination is not inside the source, the destination either does not
exist or is an empty directory being replaced by a directory (POSIX), and
the platform oracle (same device, platform quirks) allows it. -/
def renameCond (os : Os) (fs : FS) (src dst : Path) : Prop :=
  existsFS fs src = true ∧ ¬ src.isPrefixOf dst = true ∧
    (¬ existsFS fs dst = true ∨
      (isDirFS fs src = true ∧ isDirFS fs dst = true ∧
        emptyDirFS fs dst = true)) ∧
    os.renameOk src dst = true

instance (os : Os) (fs : FS) (src dst : Path) :
    Decidable (renameCond os fs src dst) := by
  unfold renameCond
  infer_instance

/-- Models `std::fs::rename` as an attempt returning whether it succeeded
(the `rename(..).is_err()` pattern of the source). The attempt is always
recorded; on success the whole source subtree is relocated. -/
def renameTry (os : Os) (src dst : Path) : M Bool := do
  emitEv (Ev.evRenameAtt src dst)
  let fs ← getFS
  if renameCond os fs src dst then
    emitEv (Ev.evMove src dst)
    pure true
  else
    pure false

/-- Models `std::fs::rename` with `?` propagation: a failed attempt is an
opaque error. -/
def renameP (os : Os) (src dst : Path) : M Unit := do
  if (← renameTry os src dst) then pure () else throwM ErrKind.otherErr

/-- Whether the Rust parent of `p` exists as a directory (false for a
bare root). -/
def parentIsDir (fs : FS) (p : Path) : Bool :=
  match rustParent p with
  | some par => isDirFS fs par
  | none => false

/-- Models `std::fs::copy`: requires the source to be a regular file and
the destination to be creatable (parent directory present, not itself a
directory); copies content and permissions. -/
def copyP (src dst : Path) : M Unit := do
  let fs ← getFS
  match lookupFS fs src with
  | some (Node.file _ _) =>
      if parentIsDir fs dst ∧ ¬ isDirFS fs dst then
        emitEv (Ev.evCopyF src dst)
      else throwM ErrKind.otherErr
  | _ => throwM ErrKind.otherErr

/-- The non-empty prefixes of a path, shortest first. -/
def prefixesOf (p : Path) : List Path :=
  (List.range p.length).map (fun i => p.take (i + 1))

/-- Walk a list of paths shortest-prefix first, creating each missing one
as a directory and failing on one that exists as a file. -/
def mkdirSeq : List Path → M Unit
  | [] => M.pure ()
  | q :: rest => do
      let fs ← getFS
      match lookupFS fs q with
      | some (Node.file _ _) => throwM ErrKind.otherErr
      | some (Node.dir _) => mkdirSeq rest
      | none => do
          emitEv (Ev.evMkdir q)
          mkdirSeq rest

/-- Models `std::fs::create_dir_all`: creates the path and every missing
ancestor, failing when some prefix exists as a regular file. -/
def createDirAllP (p : Path) : M Unit :=
  mkdirSeq (prefixesOf p)

/-- Models `std::fs::remove_file`. -/
def removeFileP (p : Path) : M Unit := do
  let fs ← getFS
  match lookupFS fs p with
  | some (Node.file _ _) => emitEv (Ev.evRmF p)
  | some (Node.dir _) => throwM ErrKind.otherErr
  | none => throwM ErrKind.notFound

/-- Models `std::fs::remove_dir_all`. -/
def removeDirAllP (p : Path) : M Unit := do
  let fs ← getFS
  match lookupFS fs p with
  | some (Node.dir _) => emitEv (Ev.evRmTree p)
  | some (Node.file _ _) => throwM ErrKind.otherErr
  | none => throwM ErrKind.notFound

/-- Models `metadata()?.permissions().readonly()`. -/
def readOnlyP (p : Path) : M Bool := do
  let fs ← getFS
  match lookupFS fs p with
  | some (Node.file _ ro) => pure ro
  | some (Node.dir ro) => pure ro
  | none => throwM ErrKind.notFound

/-- Models `set_permissions` after `perm.set_readonly(b)` (the only
permission mutation the source performs). -/
def setReadonlyP (p : Path) (b : Bool) : M Unit := do
  let fs ← getFS
  if existsFS fs p then emitEv (Ev.evPerm p b) else throwM ErrKind.notFound

/-- The immediate children of `d`: entries exactly one component below
it, in filesystem-enumeration (list) order. -/
def childPaths (fs : FS) (d : Path) : List Path :=
  (fs.filter (fun e => e.1.length = d.length + 1 ∧ d.isPrefixOf e.1)).map
    (fun e => e.1)

/-- Models `read_dir(d, |p| p.is_dir())` of src/sync/dir.rs. -/
def directoriesP (d : Path) : M (List Path) := do
  let fs ← getFS
  match lookupFS fs d with
  | some (Node.dir _) => pure ((childPaths fs d).filter (fun p => isDirFS fs p))
  | some (Node.file _ _) => throwM ErrKind.otherErr
  | none => throwM ErrKind.notFound

/-- Models `read_dir(d, |p| p.is_file())` of src/sync/dir.rs. -/
def filesP (d : Path) : M (List Path) := do
  let fs ← getFS
  match lookupFS fs d with
  | some (Node.dir _) => pure ((childPaths fs d).filter (fun p => isFileFS fs p))
  | some (Node.file _ _) => throwM ErrKind.otherErr
  | none => throwM ErrKind.notFound

/-- Embeds `FileInfo` of src/sync/file.rs (and `AsyncFileInfo` of
src/_async/file.rs): an entity is its stored path. -/
structure FileInfo where
  path : Path
deriving DecidableEq, Repr

/-- Embeds `DirectoryInfo` of src/sync/dir.rs (and `AsyncDirectoryInfo`
of src/_async/dir.rs). -/
structure DirectoryInfo where
  path : Path
deriving DecidableEq, Repr

/-- Embeds `Status` of src/sync/recover.rs: the context carried by a
conflict error. The Rust value borrows the entity; the model stores the
entity value itself. -/
inductive Status where
  | copyFile (f : FileInfo) (dest : Path)
  | copyDirectory (d : DirectoryInfo) (dest : Path)
  | moveFile (f : FileInfo) (dest : Path)
  | moveDirectory (d : DirectoryInfo) (dest : Path)
deriving DecidableEq, Repr

/-- Embeds `TryRecover` of src/sync/recover.rs: an error kind plus the
optional recovery context. `From<Error> for TryRecover` attaches `none`. -/
structure TRErr where
  error : ErrKind
  status : Option Status
deriving DecidableEq, Repr

/-- The effect monad for operations returning `TryRecoverResult`. -/
def MR (α : Type) : Type := FS → Except TRErr α × FS × List Ev

def MR.pure (a : α) : MR α := fun fs => (Except.ok a, fs, [])

def MR.bind (m : MR α) (k : α → MR β) : MR β := fun fs =>
  match m fs with
  | (Except.ok a, fs', evs) =>
      match k a fs' with
      | (r, fs'', evs') => (r, fs'', evs ++ evs')
  | (Except.error e, fs', evs) => (Except.error e, fs', evs)

instance : Monad MR where
  pure := MR.pure
  bind := MR.bind

def throwMR (e : TRErr) : MR α := fun fs => (Except.error e, fs, [])

/-- Lift a plain I/O computation into `MR`: an error kind is converted by
`From<Error> for TryRecover`, carrying no status. -/
def liftE (m : M α) : MR α := fun fs =>
  match m fs with
  | (Except.ok a, fs', evs) => (Except.ok a, fs', evs)
  | (Except.error e, fs', evs) => (Except.error ⟨e, none⟩, fs', evs)

/-- The outcome of `try_recover`: which mutable entity reference (if any)
was repointed, and to what. The Rust function updates `*f` / `*dir` in
place; the model returns the final entity value. -/
inductive RecOut where
  | recNone
  | movedFile (f : FileInfo)
  | movedDir (d : DirectoryInfo)
deriving DecidableEq, Repr

/-- Embeds `Action::delete` of src/sync/mod.rs (and the identical
src/_async/mod.rs): relax a read-only flag first, then remove the object,
recursively for a directory. -/
def deleteP (p : Path) : M Unit := do
  if (← readOnlyP p) then setReadonlyP p false
  let fs ← getFS
  if isDirFS fs p then removeDirAllP p else removeFileP p

/-- Embeds `_delete_file` of src/sync/mod.rs: unconditionally clear the
read-only flag, then remove the file. -/
def _delete_file (f : FileInfo) : M Unit := do
  setReadonlyP f.path false
  removeFileP f.path

/-- Embeds `remove_file_any` of src/sync/mod.rs (and src/_async/mod.rs):
an unchecked entity at the path is deleted via `Action::delete`. -/
def remove_file_any (p : Path) : M Unit :=
  deleteP p

/-- Rust `Path::extension` on a file name: the part after the final dot,
none when there is no dot or the name is a pure dot-file. -/
def rustExt (s : String) : Option String :=
  let parts := s.splitOn "."
  if parts.length ≤ 1 then none
  else if parts.head? = some "" ∧ parts.length = 2 then none
  else parts.getLast?

/-- Rust `PathBuf::set_extension` on a file name: the old extension is
replaced (or removed, when the new one is empty). -/
def rustSetExt (s e : String) : String :=
  let stem :=
    match rustExt s with
    | none => s
    | some ext => s.dropRight (ext.length + 1)
  if e = "" then stem else stem ++ "." ++ e

/-- Rust `PathBuf::set_file_name`: pop the final component when there is
one, then push the new name. -/
def setFileNameR (p : Path) (name : String) : Path :=
  if p.length ≤ 1 then p ++ [name] else p.dropLast ++ [name]

/-- Rust `PathBuf::set_extension` lifted to a path: rewrites the final
component (no-op on a bare root, where `file_name` is `None`). -/
def setExtPath (p : Path) (e : String) : Path :=
  if p.length ≤ 1 then p
  else p.dropLast ++ [rustSetExt (p.getLast?.getD "") e]

/-- Rust `Path::extension` of a path. -/
def pathExt (p : Path) : Option String :=
  (fileNameR p).bind rustExt

end Fdir

namespace Fdir

/-- Models `File::create`: fails on a directory or a read-only existing
file, otherwise creates (or truncates to empty) the regular file. -/
def fileCreateRaw (p : Path) : M Unit := do
  let fs ← getFS
  match lookupFS fs p with
  | some (Node.dir _) => throwM ErrKind.otherErr
  | some (Node.file _ true) => throwM ErrKind.otherErr
  | _ => emitEv (Ev.evCreate p)

/-- Embeds `FileInfo::create` of src/sync/file.rs: normalize, require a
parent component, create missing parent directories, create the file. -/
def FileInfo.create (p : Path) : M FileInfo := do
  let path := fix_path p
  match rustParent path with
  | some parent => do
      let fs ← getFS
      if ¬ isDirFS fs parent then createDirAllP parent
      fileCreateRaw path
      M.pure ⟨path⟩
  | none => throwM ErrKind.invalidInput

/-- Embeds `Action::open` for `FileInfo` (src/sync/file.rs and the
identical src/_async/file.rs): `File::open` followed by extracting the
path from the handle's debug output and normalizing it. `File::open` is
modelled on POSIX `open(2)` without `O_DIRECTORY`: it succeeds on any
existing object (a directory opens read-only) and fails with `NotFound`
otherwise. -/
def FileInfo.open (p : Path) : M FileInfo := do
  let fs ← getFS
  if existsFS fs p then M.pure ⟨fix_path p⟩ else throwM ErrKind.notFound

/-- Embeds `Action::open` for `DirectoryInfo` (src/sync/dir.rs and the
identical src/_async/dir.rs): normalize, then require the path to be an
existing directory, failing with a `NotFound` error otherwise. -/
def DirectoryInfo.open (p : Path) : M DirectoryInfo := do
  let path := fix_path p
  let fs ← getFS
  if isDirFS fs path then M.pure ⟨path⟩ else throwM ErrKind.notFound

/-- Embeds `Action::rename` for `FileInfo` (src/sync/file.rs and the
identical src/_async/file.rs): build the sibling path with the same
parent, re-applying the old extension when there was one, rename, and
only then repoint the entity. -/
def FileInfo.rename (os : Os) (f : FileInfo) (name : String) : M FileInfo := do
  let np0 := setFileNameR f.path name
  let np :=
    match pathExt f.path with
    | some ext => setExtPath np0 ext
    | none => np0
  renameP os f.path np
  M.pure ⟨np⟩

/-- Embeds `Action::rename` for `DirectoryInfo` (src/sync/dir.rs and the
identical src/_async/dir.rs): no extension handling. -/
def DirectoryInfo.rename (os : Os) (d : DirectoryInfo) (name : String) : M DirectoryInfo := do
  let np := setFileNameR d.path name
  renameP os d.path np
  M.pure ⟨np⟩

/-- Embeds `FileInfo::copy_new` of src/sync/file.rs (and the identical
src/_async/file.rs body). -/
def FileInfo.copy_new (f : FileInfo) (p : Path) : MR Unit := do
  let path := fix_path p
  if (← liftE (tryExistsP path)) then
    throwMR ⟨ErrKind.alreadyExists, some (Status.copyFile f path)⟩
  else
    liftE (copyP f.path path)

/-- Embeds `FileInfo::move_new` of src/sync/file.rs: conflict check,
parent creation, then rename when source and destination share a path
root (`is_same_root`), else copy-then-`_delete_file`; the entity is
repointed on success. -/
def FileInfo.move_new (os : Os) (f : FileInfo) (p : Path) : MR FileInfo := do
  let path := fix_path p
  if (← liftE (tryExistsP path)) then
    throwMR ⟨ErrKind.alreadyExists, some (Status.moveFile f path)⟩
  else do
    match rustParent path with
    | some parent => liftE (createDirAllP parent)
    | none => throwMR ⟨ErrKind.invalidInput, none⟩
    if is_same_root f.path path then
      liftE (renameP os f.path path)
    else do
      liftE (copyP f.path path)
      liftE (_delete_file f)
    MR.pure ⟨path⟩

/-- Embeds `Action::copy_to` (src/sync/mod.rs): append the entity's own
file name, then delegate to `copy_new`. -/
def FileInfo.copy_to (f : FileInfo) (p : Path) : MR Unit := do
  match push_file_name (fileNameR f.path) p with
  | Except.ok path => FileInfo.copy_new f path
  | Except.error e => throwMR ⟨e, none⟩

/-- Embeds `Action::move_to` (src/sync/mod.rs): append the entity's own
file name, then delegate to `move_new`. -/
def FileInfo.move_to (os : Os) (f : FileInfo) (p : Path) : MR FileInfo := do
  match push_file_name (fileNameR f.path) p with
  | Except.ok path => FileInfo.move_new os f path
  | Except.error e => throwMR ⟨e, none⟩

/-- The `result.or_else(|op| op.try_recover())?` pattern of `_write_dir`:
on success the value is dropped; on failure the recovery step runs and
its outcome value is dropped, its error propagated. -/
def orRecover (recover : TRErr → M RecOut) (m : MR α) : M Unit := fun fs =>
  match m fs with
  | (Except.ok _, fs2, evs) => (Except.ok (), fs2, evs)
  | (Except.error tr, fs2, evs) =>
      match recover tr fs2 with
      | (Except.ok _, fs3, evs2) => (Except.ok (), fs3, evs ++ evs2)
      | (Except.error e, fs3, evs2) => (Except.error e, fs3, evs ++ evs2)

/-- Embeds the per-file body of `_write_dir` (src/sync/dir.rs): each file
is copied or moved into the popped directory's destination path, with a
conflict handed to the recovery step in effect immediately. -/
def fileLoopWith (recover : TRErr → M RecOut) (os : Os) (isCopy : Bool)
    (dirPath : Path) : List Path → M Unit
  | [] => M.pure ()
  | fp :: rest => do
      if isCopy then orRecover recover (FileInfo.copy_to ⟨fp⟩ dirPath)
      else orRecover recover (FileInfo.move_to os ⟨fp⟩ dirPath)
      fileLoopWith recover os isCopy dirPath rest

/-- Embeds the queue loop of `_write_dir` (src/sync/dir.rs): pop a
directory, append its subdirectories to the queue, ensure the rebased
destination directory exists, process the popped directory's files.
`fuel` bounds the number of pops (the source loop runs until the queue
drains; a destination overlapping the source can make that unbounded). -/
def writeDirGoWith (recover : TRErr → M RecOut) (os : Os) :
    Nat → Path → Path → Bool → List Path → M Unit
  | 0, _, _, _, queue => if queue = [] then M.pure () else throwM ErrKind.fuelOut
  | fuel + 1, root, dest, isCopy, queue =>
      match queue with
      | [] => M.pure ()
      | d :: rest => do
          let subs ← directoriesP d
          let dirPath := replace d root dest
          let fs ← getFS
          if ¬ isDirFS fs dirPath then createDirAllP dirPath
          let fls ← filesP d
          fileLoopWith recover os isCopy dirPath fls
          writeDirGoWith recover os fuel root dest isCopy (rest ++ subs)

/-- Embeds `_write_dir` of src/sync/dir.rs: run the queue loop seeded
with the source directory; in move mode, delete the source tree at the
end via `Action::delete`. -/
def writeDirFullWith (recover : TRErr → M RecOut) (os : Os) (fuel : Nat)
    (src dest : Path) (isCopy : Bool) : M Unit := do
  writeDirGoWith recover os fuel src dest isCopy [src]
  if ¬ isCopy then deleteP src

/-- Embeds `TryRecover::try_recover` of src/sync/recover.rs,
parameterized by the `_write_dir` in effect (tied by fuel below). Note
the `MoveDirectory` arm of this blocking version: there is no rename
attempt, and the tree transfer runs with `is_copy = true`. -/
def tryRecoverWith (wd : Path → Path → Bool → M Unit) (os : Os) (t : TRErr) :
    M RecOut :=
  if t.error = ErrKind.alreadyExists then
    match t.status with
    | none => throwM t.error
    | some (Status.copyFile f dest) => do
        remove_file_any dest
        copyP f.path dest
        M.pure RecOut.recNone
    | some (Status.moveFile f dest) => do
        remove_file_any dest
        let ok ← renameTry os f.path dest
        if ok then
          M.pure (RecOut.movedFile f)
        else do
          copyP f.path dest
          remove_file_any f.path
          M.pure (RecOut.movedFile ⟨dest⟩)
    | some (Status.copyDirectory d dest) => do
        wd d.path dest true
        M.pure RecOut.recNone
    | some (Status.moveDirectory d dest) => do
        wd d.path dest true
        M.pure (RecOut.movedDir ⟨dest⟩)
  else throwM t.error

/-- Ties the recursive knot by fuel: the recovery step at fuel `n + 1`
uses `_write_dir` at fuel `n`, whose per-file recovery is the step at
fuel `n`. -/
def tryRecoverFuel (os : Os) : Nat → TRErr → M RecOut
  | 0 => tryRecoverWith (fun _ _ _ => throwM ErrKind.fuelOut) os
  | n + 1 =>
      tryRecoverWith
        (fun s d c => writeDirFullWith (tryRecoverFuel os n) os n s d c) os

/-- `_write_dir` of src/sync/dir.rs at a given fuel. -/
def _write_dir (os : Os) (fuel : Nat) (d : DirectoryInfo) (dest : Path)
    (isCopy : Bool) : M Unit :=
  writeDirFullWith (tryRecoverFuel os fuel) os fuel d.path dest isCopy

/-- `TryRecover::try_recover` of src/sync/recover.rs at a given fuel. -/
def TRErr.try_recover (os : Os) (fuel : Nat) (t : TRErr) : M RecOut :=
  tryRecoverFuel os fuel t

/-- Embeds `DirectoryInfo::copy_new` of src/sync/dir.rs. -/
def DirectoryInfo.copy_new (os : Os) (fuel : Nat) (d : DirectoryInfo)
    (p : Path) : MR Unit := do
  let path := fix_path p
  if (← liftE (tryExistsP path)) then
    throwMR ⟨ErrKind.alreadyExists, some (Status.copyDirectory d path)⟩
  else
    liftE (_write_dir os fuel d path true)

/-- Embeds `DirectoryInfo::move_new` of src/sync/dir.rs: conflict check,
whole-tree rename attempt, tree transfer in move mode when the rename
fails, entity repointed on success. -/
def DirectoryInfo.move_new (os : Os) (fuel : Nat) (d : DirectoryInfo)
    (p : Path) : MR DirectoryInfo := do
  let path := fix_path p
  if (← liftE (tryExistsP path)) then
    throwMR ⟨ErrKind.alreadyExists, some (Status.moveDirectory d path)⟩
  else do
    let ok ← liftE (renameTry os d.path path)
    if ¬ ok then liftE (_write_dir os fuel d path false)
    MR.pure ⟨path⟩

/-- Models `metadata().len()`: a file's byte length; a directory's length
is the platform value `os.dirMeta`. -/
def metaLen (os : Os) (fs : FS) (p : Path) : Option Nat :=
  match lookupFS fs p with
  | some (Node.file c _) => some c.length
  | some (Node.dir _) => some (os.dirMeta p)
  | none => none

/-- Embeds `FileInfo::size` of src/sync/file.rs (and the identical
src/_async/file.rs body): the fail-soft `metadata().map_or(0, len)`. -/
def FileInfo.size (os : Os) (fs : FS) (f : FileInfo) : Nat :=
  (metaLen os fs f.path).getD 0

/-- Embeds the queue loop of `DirectoryInfo::size` (src/sync/dir.rs):
pop a path, skip it if it cannot be read as a directory, otherwise push
its subdirectories and add the fail-soft metadata length of each
non-directory child. `fuel` bounds the pops; the filesystem is static
here, so any fuel at least the number of directory entries is exact. -/
def dirSizeLoop (os : Os) (fs : FS) : Nat → List Path → Nat
  | 0, _ => 0
  | _ + 1, [] => 0
  | fuel + 1, d :: rest =>
      match lookupFS fs d with
      | some (Node.dir _) =>
          let ch := childPaths fs d
          let dsub := ch.filter (fun p => isDirFS fs p)
          let fsum := ((ch.filter (fun p => ¬ isDirFS fs p)).map
            (fun p => (metaLen os fs p).getD 0)).sum
          fsum + dirSizeLoop os fs fuel (rest ++ dsub)
      | _ => dirSizeLoop os fs fuel rest

/-- Embeds `DirectoryInfo::size` of src/sync/dir.rs. -/
def DirectoryInfo.size (os : Os) (fuel : Nat) (fs : FS)
    (d : DirectoryInfo) : Nat :=
  dirSizeLoop os fs fuel [d.path]

/-- Embeds `Info::parent` of src/sync/mod.rs (and the identical
src/_async/mod.rs logic): the Rust parent path opened as a directory,
any open failure swallowed to `none`. -/
def parentInfo (fs : FS) (p : Path) : Option DirectoryInfo :=
  (rustParent p).bind (fun q =>
    match DirectoryInfo.open q fs with
    | (Except.ok d, _, _) => some d
    | (Except.error _, _, _) => none)

end Fdir

namespace Fdir

/-- Embeds `AsyncFileInfo::copy_new` of src/_async/file.rs (the body is
the same as the blocking form's). -/
def asyncFileCopyNew (f : FileInfo) (p : Path) : MR Unit := do
  let path := fix_path p
  if (← liftE (tryExistsP path)) then
    throwMR ⟨ErrKind.alreadyExists, some (Status.copyFile f path)⟩
  else
    liftE (copyP f.path path)

/-- Embeds `AsyncFileInfo::move_new` of src/_async/file.rs: identical to
the blocking form except that the cross-root fallback deletes the source
via `remove_file_any` (which relaxes the read-only flag only when it is
set) rather than `_delete_file`. -/
def asyncFileMoveNew (os : Os) (f : FileInfo) (p : Path) : MR FileInfo := do
  let path := fix_path p
  if (← liftE (tryExistsP path)) then
    throwMR ⟨ErrKind.alreadyExists, some (Status.moveFile f path)⟩
  else do
    match rustParent path with
    | some parent => liftE (createDirAllP parent)
    | none => throwMR ⟨ErrKind.invalidInput, none⟩
    if is_same_root f.path path then
      liftE (renameP os f.path path)
    else do
      liftE (copyP f.path path)
      liftE (remove_file_any f.path)
    MR.pure ⟨path⟩

/-- Embeds `AsyncAction::copy_to` of src/_async/mod.rs. -/
def asyncCopyTo (f : FileInfo) (p : Path) : MR Unit := do
  match push_file_name (fileNameR f.path) p with
  | Except.ok path => asyncFileCopyNew f path
  | Except.error e => throwMR ⟨e, none⟩

/-- Embeds `AsyncAction::move_to` of src/_async/mod.rs. -/
def asyncMoveTo (os : Os) (f : FileInfo) (p : Path) : MR FileInfo := do
  match push_file_name (fileNameR f.path) p with
  | Except.ok path => asyncFileMoveNew os f path
  | Except.error e => throwMR ⟨e, none⟩

/-- Embeds the per-file body of the suspend-capable `_write_dir`
(src/_async/dir.rs): a `match` on the transfer result instead of
`or_else`, with the same meaning. -/
def asyncFileLoopWith (recover : TRErr → M RecOut) (os : Os) (isCopy : Bool)
    (dirPath : Path) : List Path → M Unit
  | [] => M.pure ()
  | fp :: rest => do
      if isCopy then orRecover recover (asyncCopyTo ⟨fp⟩ dirPath)
      else orRecover recover (asyncMoveTo os ⟨fp⟩ dirPath)
      asyncFileLoopWith recover os isCopy dirPath rest

/-- Embeds the queue loop of the suspend-capable `_write_dir`
(src/_async/dir.rs); the structure is that of the blocking form. -/
def asyncWriteDirGoWith (recover : TRErr → M RecOut) (os : Os) :
    Nat → Path → Path → Bool → List Path → M Unit
  | 0, _, _, _, queue => if queue = [] then M.pure () else throwM ErrKind.fuelOut
  | fuel + 1, root, dest, isCopy, queue =>
      match queue with
      | [] => M.pure ()
      | d :: rest => do
          let subs ← directoriesP d
          let dirPath := replace d root dest
          let fs ← getFS
          if ¬ isDirFS fs dirPath then createDirAllP dirPath
          let fls ← filesP d
          asyncFileLoopWith recover os isCopy dirPath fls
          asyncWriteDirGoWith recover os fuel root dest isCopy (rest ++ subs)

/-- Embeds `_write_dir` of src/_async/dir.rs: queue loop, then (move
mode) delete the source tree. -/
def asyncWriteDirFullWith (recover : TRErr → M RecOut) (os : Os) (fuel : Nat)
    (src dest : Path) (isCopy : Bool) : M Unit := do
  asyncWriteDirGoWith recover os fuel src dest isCopy [src]
  if ¬ isCopy then deleteP src

/-- Embeds `TryRecover::try_recover` of src/_async/recover.rs. The
`MoveDirectory` arm differs from the blocking version: it first attempts
an atomic rename of the whole tree and only on failure runs the tree
transfer, in move mode (`is_copy = false`). -/
def asyncTryRecoverWith (wd : Path → Path → Bool → M Unit) (os : Os)
    (t : TRErr) : M RecOut :=
  if t.error = ErrKind.alreadyExists then
    match t.status with
    | none => throwM t.error
    | some (Status.copyFile f dest) => do
        remove_file_any dest
        copyP f.path dest
        M.pure RecOut.recNone
    | some (Status.moveFile f dest) => do
        remove_file_any dest
        let ok ← renameTry os f.path dest
        if ok then
          M.pure (RecOut.movedFile f)
        else do
          copyP f.path dest
          remove_file_any f.path
          M.pure (RecOut.movedFile ⟨dest⟩)
    | some (Status.copyDirectory d dest) => do
        wd d.path dest true
        M.pure RecOut.recNone
    | some (Status.moveDirectory d dest) => do
        let ok ← renameTry os d.path dest
        if ¬ ok then wd d.path dest false
        M.pure (RecOut.movedDir ⟨dest⟩)
  else throwM t.error

/-- The fuel knot for the suspend-capable engine. -/
def asyncTryRecoverFuel (os : Os) : Nat → TRErr → M RecOut
  | 0 => asyncTryRecoverWith (fun _ _ _ => throwM ErrKind.fuelOut) os
  | n + 1 =>
      asyncTryRecoverWith
        (fun s d c => asyncWriteDirFullWith (asyncTryRecoverFuel os n) os n s d c) os

/-- `_write_dir` of src/_async/dir.rs at a given fuel. -/
def async_write_dir (os : Os) (fuel : Nat) (d : DirectoryInfo) (dest : Path)
    (isCopy : Bool) : M Unit :=
  asyncWriteDirFullWith (asyncTryRecoverFuel os fuel) os fuel d.path dest isCopy

/-- Embeds `AsyncDirectoryInfo::copy_new` of src/_async/dir.rs. -/
def asyncDirCopyNew (os : Os) (fuel : Nat) (d : DirectoryInfo) (p : Path) :
    MR Unit := do
  let path := fix_path p
  if (← liftE (tryExistsP path)) then
    throwMR ⟨ErrKind.alreadyExists, some (Status.copyDirectory d path)⟩
  else
    liftE (async_write_dir os fuel d path true)

/-- Embeds `AsyncDirectoryInfo::move_new` of src/_async/dir.rs. -/
def asyncDirMoveNew (os : Os) (fuel : Nat) (d : DirectoryInfo) (p : Path) :
    MR DirectoryInfo := do
  let path := fix_path p
  if (← liftE (tryExistsP path)) then
    throwMR ⟨ErrKind.alreadyExists, some (Status.moveDirectory d path)⟩
  else do
    let ok ← liftE (renameTry os d.path path)
    if ¬ ok then liftE (async_write_dir os fuel d path false)
    MR.pure ⟨path⟩

/-- Embeds `AsyncDirectoryInfo::size` of src/_async/dir.rs: unlike the
blocking version, it is just `metadata().map_or(0, len)` of the directory
itself — the platform metadata length, not a recursive file-size sum. -/
def asyncDirSize (os : Os) (fs : FS) (d : DirectoryInfo) : Nat :=
  (metaLen os fs d.path).getD 0

end Fdir

namespace Fdir

/-- The length of the longest common component prefix of two lists (the
specification-side description of the loop index of `replace`). -/
def commonPrefixLen : List String → List String → Nat
  | a :: as, b :: bs => if a = b then commonPrefixLen as bs + 1 else 0
  | _, _ => 0

/-- Overwrite a node's read-only flag. -/
def nodeWithRO (b : Bool) : Node → Node
  | Node.file c _ => Node.file c b
  | Node.dir _ => Node.dir b

/-- No non-empty prefix of `p` exists as a regular file (so
`create_dir_all p` can succeed). -/
def prefixesClear (fs : FS) (p : Path) : Bool :=
  (prefixesOf p).all (fun q => ¬ isFileFS fs q)

/-- The entry at `p` is an existing read-only regular file. -/
def roFileAt (fs : FS) (p : Path) : Bool :=
  match lookupFS fs p with
  | some (Node.file _ true) => true
  | _ => false

/-- A concrete platform oracle for witnesses: renames always succeed and
directory metadata length is 4096. -/
def osT : Os := ⟨fun _ _ => true, fun _ => 4096⟩

/-- A concrete platform oracle for witnesses: renames always fail (e.g. a
cross-device setup). -/
def osF : Os := ⟨fun _ _ => false, fun _ => 4096⟩

/-- Every component of the path is a normal (non-special) name. -/
def normalPathB (p : Path) : Bool :=
  p.all normalComp

/-- Every key of the filesystem is a normal path. -/
def normalFSB (fs : FS) : Bool :=
  fs.all (fun e => normalPathB e.1)

/-- A path of the form the copy-mode walk creates directories at: an
ancestor (or equal) of the rebasing of some walked source directory. -/
def mkdirShape (root dest m : Path) : Prop :=
  ∃ d : Path, root <+: d ∧ m <+: replace d root dest

/-- A path of the form the walk transfers files at: the rebasing of a
walked source directory extended by one file name. -/
def fileShape (root dest t : Path) : Prop :=
  ∃ d : Path, ∃ n : String, root <+: d ∧ t = replace d root dest ++ [n]

/-- The event shapes the copy-mode tree transfer can produce. -/
def copyModeEv (root dest : Path) : Ev → Prop
  | Ev.evMkdir m => mkdirShape root dest m
  | Ev.evCopyF _ t => fileShape root dest t
  | Ev.evRmF p => fileShape root dest p
  | Ev.evRmTree p => fileShape root dest p
  | Ev.evPerm p _ => fileShape root dest p
  | Ev.evRenameAtt _ _ => False
  | Ev.evMove _ _ => False
  | Ev.evCreate _ => False

/-- The event shapes of a CopyFile conflict recovery at destination `t`
with source file `s`. -/
def recCopyEv (s t : Path) : Ev → Prop
  | Ev.evPerm p _ => p = t
  | Ev.evRmF p => p = t
  | Ev.evRmTree p => p = t
  | Ev.evCopyF s2 p => s2 = s ∧ p = t
  | _ => False

/-- Every event a computation can emit satisfies `P`. -/
def EvP (m : M α) (P : Ev → Prop) : Prop :=
  ∀ fs : FS, ∀ ev ∈ (m fs).2.2, P ev

/-- The computation leaves the entry of every path satisfying `S`
unchanged, on every input state. -/
def Pres (m : M α) (S : Path → Prop) : Prop :=
  ∀ fs : FS, ∀ r : Path, S r → lookupFS (m fs).2.1 r = lookupFS fs r

/-- The computation maps filesystems with normal keys to filesystems
with normal keys. -/
def NormP (m : M α) : Prop :=
  ∀ fs : FS, normalFSB fs = true → normalFSB (m fs).2.1 = true

/-- The computation never destroys the directory at `p`. -/
def DirMono (m : M α) (p : Path) : Prop :=
  ∀ fs : FS, isDirFS fs p = true → isDirFS (m fs).2.1 p = true

/-- A concrete filesystem exercising the walk's conflict recovery: the
source tree `/s` holds one file `a`, and the destination tree `/d`
already holds a directory named `a` at the colliding path. -/
def fsC7 : FS :=
  [(["/"], Node.dir false),
   (["/", "s"], Node.dir false),
   (["/", "s", "a"], Node.file [1] false),
   (["/", "d"], Node.dir false),
   (["/", "d", "a"], Node.dir false)]

/-- A concrete filesystem with a one-file source tree `/s` and no entry
at the destination side. -/
def fsW : FS :=
  [(["/"], Node.dir false),
   (["/", "s"], Node.dir false),
   (["/", "s", "a"], Node.file [1] false)]

/-- The destination path `FileInfo::rename` computes before renaming:
the sibling with the new name, re-applying the old extension when the
old file name had one (src/sync/file.rs). -/
def renTarget (p : Path) (name : String) : Path :=
  match pathExt p with
  | some ext => setExtPath (setFileNameR p name) ext
  | none => setFileNameR p name

theorem replaceIdx_eq_commonPrefixLen (p b : List String) :
    replaceIdx p b = commonPrefixLen p b := by
  induction b generalizing p with
  | nil => cases p <;> rfl
  | cons x bs ih =>
      cases p with
      | nil => rfl
      | cons a ps =>
          simp only [replaceIdx, commonPrefixLen]
          by_cases h : a = x <;> simp [h, ih]

theorem commonPrefixLen_le_length (p b : List String) :
    commonPrefixLen p b ≤ p.length := by
  induction b generalizing p with
  | nil => cases p <;> simp [commonPrefixLen]
  | cons x bs ih =>
      cases p with
      | nil => simp [commonPrefixLen]
      | cons a ps =>
          simp only [commonPrefixLen]
          by_cases h : a = x
          · simpa [h] using Nat.succ_le_succ (ih ps)
          · simp [h]

theorem drop_commonPrefixLen_nil_iff (p b : List String) :
    p.drop (commonPrefixLen p b) = [] ↔ p.isPrefixOf b = true := by
  induction b generalizing p with
  | nil =>
      cases p <;> simp [commonPrefixLen, List.isPrefixOf]
  | cons x bs ih =>
      cases p with
      | nil => simp [commonPrefixLen, List.isPrefixOf]
      | cons a ps =>
          simp only [commonPrefixLen, List.isPrefixOf]
          by_cases h : a = x
          · simpa [h] using ih ps
          · simp [h]

end Fdir

namespace Fdir

theorem foldl_pushPB_rootfree (l : List String) (acc : Path)
    (h : ∀ c ∈ l, ¬ c = "/") : l.foldl pushPB acc = acc ++ l := by
  induction l generalizing acc with
  | nil => simp
  | cons c cs ih =>
      have hc := h c (List.mem_cons_self c cs)
      rw [List.foldl_cons]
      have hp : pushPB acc c = acc ++ [c] := by
        unfold pushPB
        simp [hc]
      rw [hp, ih (acc ++ [c]) (fun x hx => h x (List.mem_cons_of_mem c hx))]
      simp

theorem replace_eq_append (p b t : Path)
    (h : ∀ c ∈ p.drop (commonPrefixLen p b), ¬ c = "/") :
    replace p b t = t ++ p.drop (commonPrefixLen p b) := by
  unfold replace
  rw [replaceIdx_eq_commonPrefixLen]
  exact foldl_pushPB_rootfree _ t h

/-- C4 (amended): `replace` never panics; when no component of `path`
past the longest common component prefix of `path` and `source_root` is
the root marker, the result is the destination root extended by exactly
those components — equal to the destination unchanged precisely when
`path`'s components are a prefix of `source_root`'s — and when the
diverging suffix begins with the root marker, `PathBuf::push` resets the
builder, so the result is that suffix itself (the path from its own
root), not the destination at all. -/
theorem C4_replace_rebase (p b t : Path) :
    ((∀ c ∈ p.drop (commonPrefixLen p b), ¬ c = "/") →
      replace p b t = t ++ p.drop (commonPrefixLen p b) ∧
      (replace p b t = t ↔ p.isPrefixOf b = true)) ∧
    (∀ s : List String, p.drop (commonPrefixLen p b) = "/" :: s →
      (∀ c ∈ s, ¬ c = "/") → replace p b t = "/" :: s) := by
  constructor
  · intro h
    have base := replace_eq_append p b t h
    refine ⟨base, ?_⟩
    rw [base, List.append_right_eq_self, drop_commonPrefixLen_nil_iff]
  · intro s hs hsf
    unfold replace
    rw [replaceIdx_eq_commonPrefixLen, hs, List.foldl_cons]
    have hroot : pushPB t "/" = ["/"] := by
      unfold pushPB
      simp
    rw [hroot, foldl_pushPB_rootfree s ["/"] hsf]
    rfl

/-- C4 counterexample: for the path `/a` and source root `/x` the
diverging component is pushed onto the destination (the result is not
the destination unchanged), and for the source root `x` — where the
diverging suffix starts with the path's own root — `PathBuf::push`
resets the builder and the result is the path itself, not the
destination extended. -/
theorem C4_counterexample :
    (["/", "x"] : Path).isPrefixOf ["/", "a"] = false ∧
    replace ["/", "a"] ["/", "x"] ["/", "d"] = ["/", "d", "a"] ∧
    (["/", "d", "a"] : Path) ≠ (["/", "d"] : Path) ∧
    replace ["/", "a"] ["x"] ["/", "d"] = ["/", "a"] ∧
    (["/", "a"] : Path) ≠ ["/", "d"] ++ (["/", "a"] : Path).drop
      (commonPrefixLen ["/", "a"] ["x"]) := by
  refine ⟨rfl, rfl, by decide, rfl, by decide⟩

theorem C4_witness :
    replace ["/", "a"] ["/", "x"] ["/", "d"] =
      ["/", "d"] ++ (["/", "a"] : Path).drop
        (commonPrefixLen ["/", "a"] ["/", "x"]) ∧
    replace ["/", "a"] ["x"] ["/", "d"] = ["/", "a"] := by
  refine ⟨((C4_replace_rebase ["/", "a"] ["/", "x"] ["/", "d"]).1
    (by decide)).1, ?_⟩
  exact (C4_replace_rebase ["/", "a"] ["x"] ["/", "d"]).2 ["a"] (by decide)
    (by decide)

end Fdir

namespace Fdir

theorem lookupFS_nil (q : Path) : lookupFS [] q = none := rfl

theorem lookupFS_cons (e : Path × Node) (fs : FS) (q : Path) :
    lookupFS (e :: fs) q = if e.1 = q then some e.2 else lookupFS fs q := by
  unfold lookupFS
  by_cases h : e.1 = q <;> simp [List.find?_cons, h]

theorem lookupFS_append (fs fs' : FS) (q : Path) :
    lookupFS (fs ++ fs') q =
      match lookupFS fs q with
      | some n => some n
      | none => lookupFS fs' q := by
  induction fs with
  | nil => simp [lookupFS_nil]
  | cons e fs ih =>
      rw [List.cons_append, lookupFS_cons, lookupFS_cons]
      by_cases h : e.1 = q <;> simp [h, ih]

theorem existsFS_cons (e : Path × Node) (fs : FS) (p : Path) :
    existsFS (e :: fs) p = (decide (e.1 = p) || existsFS fs p) := by
  unfold existsFS
  rw [lookupFS_cons]
  by_cases h : e.1 = p <;> simp [h]

theorem lookup_mapset_ne (fs : FS) (p : Path) (n : Node) (q : Path)
    (hq : ¬ q = p) :
    lookupFS (fs.map (fun e => if e.1 = p then (p, n) else e)) q =
      lookupFS fs q := by
  induction fs with
  | nil => rfl
  | cons e fs ih =>
      rw [List.map_cons, lookupFS_cons, lookupFS_cons]
      by_cases hep : e.1 = p
      · have h1 : ¬ p = q := fun h => hq h.symm
        have h2 : ¬ e.1 = q := fun h => hq (hep ▸ h).symm
        simp [hep, h1, h2, ih]
      · by_cases heq : e.1 = q <;> simp [hep, heq, hq, ih]

theorem lookup_mapset_eq (fs : FS) (p : Path) (n : Node)
    (hex : existsFS fs p = true) :
    lookupFS (fs.map (fun e => if e.1 = p then (p, n) else e)) p = some n := by
  induction fs with
  | nil => simp [existsFS, lookupFS_nil] at hex
  | cons e fs ih =>
      rw [List.map_cons, lookupFS_cons]
      by_cases hep : e.1 = p
      · simp [hep]
      · rw [existsFS_cons] at hex
        simp [hep] at hex
        simp [hep, ih hex]

theorem lookup_setFS (fs : FS) (p : Path) (n : Node) (q : Path) :
    lookupFS (setFS fs p n) q = if q = p then some n else lookupFS fs q := by
  unfold setFS
  by_cases hex : existsFS fs p
  · by_cases hq : q = p
    · subst hq
      simp [hex, lookup_mapset_eq fs q n hex]
    · simp [hex, hq, lookup_mapset_ne fs p n q hq]
  · have hl : lookupFS fs p = none := by
      unfold existsFS at hex
      cases h : lookupFS fs p <;> simp [h] at hex ⊢
    simp only [hex, Bool.false_eq_true, if_false]
    rw [lookupFS_append]
    by_cases hq : q = p
    · subst hq
      simp [hl, lookupFS_cons, lookupFS_nil]
    · have h2 : ¬ p = q := fun h => hq h.symm
      cases h : lookupFS fs q <;> simp [h, lookupFS_cons, lookupFS_nil, hq, h2]

end Fdir

namespace Fdir

theorem lookup_removeEntry (fs : FS) (p q : Path) :
    lookupFS (removeEntry fs p) q = if q = p then none else lookupFS fs q := by
  induction fs with
  | nil => unfold removeEntry; by_cases hq : q = p <;> simp [hq, lookupFS_nil]
  | cons e fs ih =>
      unfold removeEntry at ih ⊢
      by_cases hep : e.1 = p
      · rw [List.filter_cons_of_neg (by simp [hep])]
        rw [ih]
        by_cases hq : q = p
        · simp [hq]
        · have h2 : ¬ e.1 = q := fun h => hq ((hep ▸ h : p = q)).symm
          simp [hq, lookupFS_cons, h2]
      · rw [List.filter_cons_of_pos (by simp [hep])]
        rw [lookupFS_cons]
        by_cases heq : e.1 = q
        · have hq : ¬ q = p := fun h => hep (heq ▸ h ▸ rfl)
          simp [heq, hq, lookupFS_cons]
        · rw [ih]
          by_cases hq : q = p <;> simp [hq, heq, hep, lookupFS_cons]

theorem lookup_removeSubtree (fs : FS) (p q : Path) :
    lookupFS (removeSubtree fs p) q =
      if p.isPrefixOf q then none else lookupFS fs q := by
  induction fs with
  | nil =>
      unfold removeSubtree
      by_cases hq : p.isPrefixOf q <;> simp [hq, lookupFS_nil]
  | cons e fs ih =>
      unfold removeSubtree at ih ⊢
      by_cases hpe : p.isPrefixOf e.1
      · rw [List.filter_cons_of_neg (by simp [hpe])]
        rw [ih]
        by_cases hq : p.isPrefixOf q
        · simp [hq]
        · have h2 : ¬ e.1 = q := fun h => hq (h ▸ hpe)
          simp [hq, lookupFS_cons, h2]
      · rw [List.filter_cons_of_pos (by simp [hpe])]
        rw [lookupFS_cons]
        by_cases heq : e.1 = q
        · have hq : ¬ p.isPrefixOf q = true := fun h => hpe (heq ▸ h)
          simp [heq, hq, lookupFS_cons]
        · rw [ih]
          by_cases hq : p.isPrefixOf q <;> simp [hq, heq, hpe, lookupFS_cons]

theorem lookup_setRO (fs : FS) (p : Path) (b : Bool) (q : Path) :
    lookupFS (setRO fs p b) q =
      if q = p then (lookupFS fs q).map (nodeWithRO b) else lookupFS fs q := by
  induction fs with
  | nil => unfold setRO; by_cases hq : q = p <;> simp [hq, lookupFS_nil]
  | cons e fs ih =>
      unfold setRO at ih ⊢
      rw [List.map_cons]
      by_cases hep : e.1 = p
      · by_cases hq : q = p
        · subst hq
          cases hn : e.2 with
          | file c ro => simp [hep, lookupFS_cons, hn, nodeWithRO]
          | dir ro => simp [hep, lookupFS_cons, hn, nodeWithRO]
        · have h2 : ¬ e.1 = q := fun h => hq ((hep ▸ h : p = q)).symm
          have h3 : ¬ p = q := fun h => hq h.symm
          cases hn : e.2 with
          | file c ro => simp [hep, lookupFS_cons, hn, hq, h2, h3, ih]
          | dir ro => simp [hep, lookupFS_cons, hn, hq, h2, h3, ih]
      · rw [lookupFS_cons, lookupFS_cons]
        by_cases heq : e.1 = q
        · have hq : ¬ q = p := fun h => hep (heq ▸ h ▸ rfl)
          simp [hep, heq, hq]
        · simp [hep, heq, ih]

end Fdir

namespace Fdir

@[simp] theorem bind_run (m : M α) (k : α → M β) (fs : FS) :
    (m >>= k) fs = M.bind m k fs := rfl

@[simp] theorem Mbind_run (m : M α) (k : α → M β) (fs : FS) :
    M.bind m k fs =
      match m fs with
      | (Except.ok a, fs2, evs) =>
          ((k a fs2).1, (k a fs2).2.1, evs ++ (k a fs2).2.2)
      | (Except.error e, fs2, evs) => (Except.error e, fs2, evs) := by
  unfold M.bind
  rcases h : m fs with ⟨r, fs2, evs⟩
  cases r <;> rfl

@[simp] theorem pure_run (a : α) (fs : FS) :
    (pure a : M α) fs = (Except.ok a, fs, []) := rfl

@[simp] theorem Mpure_run (a : α) (fs : FS) :
    M.pure a fs = (Except.ok a, fs, []) := rfl

@[simp] theorem throwM_run (e : ErrKind) (fs : FS) :
    (throwM e : M α) fs = (Except.error e, fs, []) := rfl

@[simp] theorem getFS_run (fs : FS) : getFS fs = (Except.ok fs, fs, []) := rfl

@[simp] theorem emitEv_run (ev : Ev) (fs : FS) :
    emitEv ev fs = (Except.ok (), applyEv fs ev, [ev]) := rfl

@[simp] theorem bindMR_run (m : MR α) (k : α → MR β) (fs : FS) :
    (m >>= k) fs = MR.bind m k fs := rfl

@[simp] theorem MRbind_run (m : MR α) (k : α → MR β) (fs : FS) :
    MR.bind m k fs =
      match m fs with
      | (Except.ok a, fs2, evs) =>
          ((k a fs2).1, (k a fs2).2.1, evs ++ (k a fs2).2.2)
      | (Except.error e, fs2, evs) => (Except.error e, fs2, evs) := by
  unfold MR.bind
  rcases h : m fs with ⟨r, fs2, evs⟩
  cases r <;> rfl

@[simp] theorem pureMR_run (a : α) (fs : FS) :
    (pure a : MR α) fs = (Except.ok a, fs, []) := rfl

@[simp] theorem MRpure_run (a : α) (fs : FS) :
    MR.pure a fs = (Except.ok a, fs, []) := rfl

@[simp] theorem throwMR_run (e : TRErr) (fs : FS) :
    (throwMR e : MR α) fs = (Except.error e, fs, []) := rfl

@[simp] theorem liftE_run (m : M α) (fs : FS) :
    liftE m fs =
      match m fs with
      | (Except.ok a, fs2, evs) => (Except.ok a, fs2, evs)
      | (Except.error e, fs2, evs) => (Except.error ⟨e, none⟩, fs2, evs) := by
  unfold liftE
  rcases h : m fs with ⟨r, fs2, evs⟩
  cases r <;> rfl

end Fdir

namespace Fdir

/-- C8 (amended): Directory `open` succeeds exactly when the normalized
path is an existing directory and otherwise fails with a Not-Found error;
File `open` merely validates existence — it fails Not-Found exactly when
the path does not exist, and a path that exists as a directory opens
successfully (the underlying POSIX open call does not reject
directories), contrary to the claim's "vice versa" half. -/
theorem C8_open_kind_checks (fs : FS) (p : Path) :
    ((DirectoryInfo.open p fs).1 = Except.ok ⟨fix_path p⟩ ↔
      isDirFS fs (fix_path p) = true) ∧
    (isDirFS fs (fix_path p) = false →
      (DirectoryInfo.open p fs).1 = Except.error ErrKind.notFound) ∧
    ((FileInfo.open p fs).1 = Except.ok ⟨fix_path p⟩ ↔ existsFS fs p = true) ∧
    (existsFS fs p = false →
      (FileInfo.open p fs).1 = Except.error ErrKind.notFound) := by
  unfold DirectoryInfo.open FileInfo.open
  by_cases hd : isDirFS fs (fix_path p) <;> by_cases he : existsFS fs p <;>
    simp [hd, he]

/-- C8 counterexample: on a filesystem where `/d` exists as a directory,
File `open` of `/d` succeeds instead of failing with a Not-Found error. -/
theorem C8_counterexample :
    isDirFS [(["/"], Node.dir false), (["/", "d"], Node.dir false)]
      ["/", "d"] = true ∧
    (FileInfo.open ["/", "d"]
      [(["/"], Node.dir false), (["/", "d"], Node.dir false)]).1 =
      Except.ok ⟨["/", "d"]⟩ ∧
    ¬ (FileInfo.open ["/", "d"]
      [(["/"], Node.dir false), (["/", "d"], Node.dir false)]).1 =
      Except.error ErrKind.notFound := by
  refine ⟨by decide, by rfl, fun h => nomatch h⟩

theorem dirSizeLoop_nil (os : Os) (fs : FS) (fuel : Nat) :
    dirSizeLoop os fs fuel [] = 0 := by
  cases fuel <;> rfl

/-- C9: `size()` is a total function into `Nat` in this embedding (it can
neither raise nor panic) and returns 0 on a deleted or inaccessible path,
for files and for directories; `parent()` returns no parent both when
the path has no parent component and when opening the parent fails. -/
theorem C9_failsoft_queries (os : Os) (fs : FS) (f : FileInfo)
    (d : DirectoryInfo) (fuel : Nat) (p : Path) :
    (lookupFS fs f.path = none → FileInfo.size os fs f = 0) ∧
    (lookupFS fs d.path = none → DirectoryInfo.size os fuel fs d = 0) ∧
    (rustParent p = none → parentInfo fs p = none) ∧
    (∀ q, rustParent p = some q → isDirFS fs (fix_path q) = false →
      parentInfo fs p = none) := by
  refine ⟨?_, ?_, ?_, ?_⟩
  · intro h
    unfold FileInfo.size metaLen
    simp [h]
  · intro h
    unfold DirectoryInfo.size
    cases fuel with
    | zero => rfl
    | succ n =>
        unfold dirSizeLoop
        simp [h, dirSizeLoop_nil]
  · intro h
    unfold parentInfo
    simp [h]
  · intro q hq hdir
    unfold parentInfo DirectoryInfo.open
    simp [hq, hdir]

/-- C9 witness: on the empty filesystem, file size, recursive directory
size and parent lookup of `/a` are all fail-soft. -/
theorem C9_witness :
    FileInfo.size osT [] ⟨["/", "a"]⟩ = 0 ∧
    DirectoryInfo.size osT 3 [] ⟨["/", "a"]⟩ = 0 ∧
    parentInfo [] ["/", "a"] = none := by
  have h := C9_failsoft_queries osT [] ⟨["/", "a"]⟩ ⟨["/", "a"]⟩ 3 ["/", "a"]
  exact ⟨h.1 rfl, h.2.1 rfl, h.2.2.2 ["/"] rfl rfl⟩

end Fdir

namespace Fdir

theorem mkdirSeq_cons_none (q : Path) (rest : List Path) (fs : FS)
    (hn : lookupFS fs q = none) :
    (mkdirSeq (q :: rest) fs).1 =
      (mkdirSeq rest (setFS fs q (Node.dir false))).1 ∧
    (mkdirSeq (q :: rest) fs).2.1 =
      (mkdirSeq rest (setFS fs q (Node.dir false))).2.1 := by
  rcases hres : mkdirSeq rest (setFS fs q (Node.dir false)) with ⟨r, fs2, evs⟩
  have hstep : mkdirSeq (q :: rest) fs = (r, fs2, Ev.evMkdir q :: evs) := by
    conv_lhs => rw [mkdirSeq]
    simp [hn, applyEv, hres]
  rw [hstep]
  exact ⟨rfl, rfl⟩

theorem mkdirSeq_cons_dir (q : Path) (rest : List Path) (fs : FS) (ro : Bool)
    (hn : lookupFS fs q = some (Node.dir ro)) :
    (mkdirSeq (q :: rest) fs).1 = (mkdirSeq rest fs).1 ∧
    (mkdirSeq (q :: rest) fs).2.1 = (mkdirSeq rest fs).2.1 := by
  rcases hres : mkdirSeq rest fs with ⟨r, fs2, evs⟩
  have hstep : mkdirSeq (q :: rest) fs = (r, fs2, evs) := by
    conv_lhs => rw [mkdirSeq]
    simp [hn, hres]
  rw [hstep]
  exact ⟨rfl, rfl⟩

theorem mkdirSeq_clear (l : List Path) (fs : FS)
    (h : ∀ q ∈ l, isFileFS fs q = false) :
    (mkdirSeq l fs).1 = Except.ok () ∧
    (∀ q ∈ l, isDirFS (mkdirSeq l fs).2.1 q = true) ∧
    (∀ r, (¬ r ∈ l) → lookupFS (mkdirSeq l fs).2.1 r = lookupFS fs r) := by
  induction l generalizing fs with
  | nil => simp [mkdirSeq]
  | cons q rest ih =>
      have hq : isFileFS fs q = false := h q (List.mem_cons_self q rest)
      rcases hn : lookupFS fs q with _ | n
      · have hrest : ∀ x ∈ rest, isFileFS (setFS fs q (Node.dir false)) x = false := by
          intro x hx
          unfold isFileFS
          rw [lookup_setFS]
          by_cases hxq : x = q
          · simp [hxq]
          · simp only [hxq, if_false]
            have := h x (List.mem_cons_of_mem q hx)
            unfold isFileFS at this
            exact this
        obtain ⟨ihA, ihB, ihC⟩ := ih (setFS fs q (Node.dir false)) hrest
        obtain ⟨hr1, hr2⟩ := mkdirSeq_cons_none q rest fs hn
        rw [hr1, hr2]
        refine ⟨ihA, ?_, ?_⟩
        · intro x hx
          rcases List.mem_cons.mp hx with hxq | hxr
          · subst hxq
            by_cases hmem : x ∈ rest
            · exact ihB x hmem
            · unfold isDirFS
              rw [ihC x hmem, lookup_setFS]
              simp
          · exact ihB x hxr
        · intro r hr
          have hr1' : ¬ r ∈ rest := fun hh => hr (List.mem_cons_of_mem q hh)
          have hr2' : ¬ r = q := fun hh => hr (hh ▸ List.mem_cons_self q rest)
          rw [ihC r hr1', lookup_setFS]
          simp [hr2']
      · cases n with
        | file c ro =>
            unfold isFileFS at hq
            rw [hn] at hq
            simp at hq
        | dir ro =>
            obtain ⟨hr1, hr2⟩ := mkdirSeq_cons_dir q rest fs ro hn
            rw [hr1, hr2]
            obtain ⟨ihA, ihB, ihC⟩ :=
              ih fs (fun x hx => h x (List.mem_cons_of_mem q hx))
            refine ⟨ihA, ?_, ?_⟩
            · intro x hx
              rcases List.mem_cons.mp hx with hxq | hxr
              · subst hxq
                by_cases hmem : x ∈ rest
                · exact ihB x hmem
                · unfold isDirFS
                  rw [ihC x hmem, hn]
              · exact ihB x hxr
            · intro r hr
              exact ihC r (fun hh => hr (List.mem_cons_of_mem q hh))

end Fdir

namespace Fdir

theorem fileCreateRaw_ok (fs : FS) (p : Path)
    (hnd : isDirFS fs p = false) (hro : roFileAt fs p = false) :
    fileCreateRaw p fs =
      (Except.ok (), setFS fs p (Node.file [] false), [Ev.evCreate p]) := by
  unfold fileCreateRaw
  rcases hn : lookupFS fs p with _ | n
  · simp [hn, applyEv]
  · cases n with
    | file c ro =>
        cases ro with
        | true =>
            unfold roFileAt at hro
            rw [hn] at hro
            simp at hro
        | false => simp [hn, applyEv]
    | dir ro =>
        unfold isDirFS at hnd
        rw [hn] at hnd
        simp at hnd

theorem rustParent_some_facts (p par : Path)
    (h : rustParent p = some par) :
    par = p.dropLast ∧ 1 < p.length := by
  unfold rustParent at h
  by_cases hl : p.length ≤ 1
  · simp [hl] at h
  · simp [hl] at h
    exact ⟨h.symm, Nat.lt_of_not_le hl⟩

theorem mem_prefixesOf_self (p : Path) (h : 1 ≤ p.length) :
    p ∈ prefixesOf p := by
  unfold prefixesOf
  rw [List.mem_map]
  refine ⟨p.length - 1, ?_, ?_⟩
  · rw [List.mem_range]
    omega
  · have : p.length - 1 + 1 = p.length := by omega
    rw [this, List.take_length]

theorem length_le_of_mem_prefixesOf (p q : Path) (h : q ∈ prefixesOf p) :
    q.length ≤ p.length := by
  unfold prefixesOf at h
  rw [List.mem_map] at h
  obtain ⟨i, _, rfl⟩ := h
  rw [List.length_take]
  omega

/-- C10: `FileInfo::create` fails with an Invalid-Path (`InvalidInput`)
error and mutates nothing when the normalized path has no parent
component; when it has one (and the filesystem does not block the
creation: no prefix of the parent is a regular file, the path itself is
neither a directory nor a read-only file), it creates the missing parent
directories, creates or truncates the file, and returns an entity bound
to the normalized path. -/
theorem C10_create_file (p : Path) (fs : FS) :
    (rustParent (fix_path p) = none →
      FileInfo.create p fs = (Except.error ErrKind.invalidInput, fs, [])) ∧
    (∀ par, rustParent (fix_path p) = some par →
      prefixesClear fs par = true →
      isDirFS fs (fix_path p) = false →
      roFileAt fs (fix_path p) = false →
      (FileInfo.create p fs).1 = Except.ok ⟨fix_path p⟩ ∧
      lookupFS (FileInfo.create p fs).2.1 (fix_path p) =
        some (Node.file [] false) ∧
      isDirFS (FileInfo.create p fs).2.1 par = true) := by
  constructor
  · intro h
    unfold FileInfo.create
    simp [h]
  · intro par hpar hclear hnd hro
    obtain ⟨hdrop, hlen⟩ := rustParent_some_facts (fix_path p) par hpar
    have hne : ¬ par = fix_path p := by
      intro hh
      have : par.length = (fix_path p).length := by rw [hh]
      rw [hdrop, List.length_dropLast] at this
      omega
    have hparlen : 1 ≤ par.length := by
      rw [hdrop, List.length_dropLast]
      omega
    have hclear' : ∀ q ∈ prefixesOf par, isFileFS fs q = false := by
      intro q hq
      unfold prefixesClear at hclear
      rw [List.all_eq_true] at hclear
      have := hclear q hq
      simp at this
      exact this
    by_cases hpd : isDirFS fs par
    · have hrun : FileInfo.create p fs =
          (Except.ok ⟨fix_path p⟩, setFS fs (fix_path p) (Node.file [] false),
            [Ev.evCreate (fix_path p)]) := by
        unfold FileInfo.create
        simp [hpar, hpd, fileCreateRaw_ok fs (fix_path p) hnd hro]
      rw [hrun]
      refine ⟨rfl, ?_, ?_⟩
      · simp [lookup_setFS]
      · unfold isDirFS
        rw [lookup_setFS]
        simp [hne]
        unfold isDirFS at hpd
        exact hpd
    · obtain ⟨ihA, ihB, ihC⟩ := mkdirSeq_clear (prefixesOf par) fs hclear'
      rcases hmk : mkdirSeq (prefixesOf par) fs with ⟨r, fs3, evs⟩
      rw [hmk] at ihA ihB ihC
      simp at ihA ihB ihC
      subst ihA
      have hfixout : ¬ fix_path p ∈ prefixesOf par := by
        intro hh
        have := length_le_of_mem_prefixesOf par (fix_path p) hh
        rw [hdrop, List.length_dropLast] at this
        omega
      have hnd3 : isDirFS fs3 (fix_path p) = false := by
        unfold isDirFS at hnd ⊢
        rw [ihC (fix_path p) hfixout]
        exact hnd
      have hro3 : roFileAt fs3 (fix_path p) = false := by
        unfold roFileAt at hro ⊢
        rw [ihC (fix_path p) hfixout]
        exact hro
      have hrun : (FileInfo.create p fs).1 = Except.ok ⟨fix_path p⟩ ∧
          (FileInfo.create p fs).2.1 =
            setFS fs3 (fix_path p) (Node.file [] false) := by
        unfold FileInfo.create createDirAllP
        simp [hpar, hpd, hmk, fileCreateRaw_ok fs3 (fix_path p) hnd3 hro3]
      refine ⟨hrun.1, ?_, ?_⟩
      · rw [hrun.2, lookup_setFS]
        simp
      · rw [hrun.2]
        unfold isDirFS
        rw [lookup_setFS]
        simp [hne]
        have := ihB par (mem_prefixesOf_self par hparlen)
        unfold isDirFS at this
        exact this

/-- C10 witness: creating `/a/b.txt` on a filesystem holding only the
root directory succeeds, creating the parent directory, and creating a
path with no parent component fails with `InvalidInput`. -/
theorem C10_witness :
    (FileInfo.create ["/", "a", "b.txt"] [(["/"], Node.dir false)]).1 =
      Except.ok ⟨["/", "a", "b.txt"]⟩ ∧
    lookupFS (FileInfo.create ["/", "a", "b.txt"]
      [(["/"], Node.dir false)]).2.1 ["/", "a", "b.txt"] =
      some (Node.file [] false) ∧
    isDirFS (FileInfo.create ["/", "a", "b.txt"]
      [(["/"], Node.dir false)]).2.1 ["/", "a"] = true ∧
    FileInfo.create ["/"] [(["/"], Node.dir false)] =
      (Except.error ErrKind.invalidInput, [(["/"], Node.dir false)], []) := by
  have h1 := (C10_create_file ["/", "a", "b.txt"] [(["/"], Node.dir false)]).2
    ["/", "a"] (by decide) (by decide) (by decide) (by decide)
  have h2 := (C10_create_file ["/"] [(["/"], Node.dir false)]).1 (by decide)
  exact ⟨h1.1, h1.2.1, h1.2.2, h2⟩

end Fdir

namespace Fdir

/-- C8 witness: on a filesystem holding only the root directory, opening
`/d` fails with Not-Found both as a Directory and as a File. -/
theorem C8_witness :
    (DirectoryInfo.open ["/", "d"] [(["/"], Node.dir false)]).1 =
      Except.error ErrKind.notFound ∧
    (FileInfo.open ["/", "d"] [(["/"], Node.dir false)]).1 =
      Except.error ErrKind.notFound := by
  have h := C8_open_kind_checks [(["/"], Node.dir false)] ["/", "d"]
  exact ⟨h.2.1 (by decide), h.2.2.2 (by decide)⟩

end Fdir

namespace Fdir

theorem setReadonlyP_run_some (fs : FS) (p : Path) (b : Bool)
    (hex : existsFS fs p = true) :
    setReadonlyP p b fs = (Except.ok (), setRO fs p b, [Ev.evPerm p b]) := by
  unfold setReadonlyP
  simp [hex, applyEv]

theorem setReadonlyP_run_none (fs : FS) (p : Path) (b : Bool)
    (hex : existsFS fs p = false) :
    setReadonlyP p b fs = (Except.error ErrKind.notFound, fs, []) := by
  unfold setReadonlyP
  simp [hex]

theorem removeFileP_run_file (fs : FS) (p : Path) (c : List Nat) (ro : Bool)
    (hn : lookupFS fs p = some (Node.file c ro)) :
    removeFileP p fs = (Except.ok (), removeEntry fs p, [Ev.evRmF p]) := by
  unfold removeFileP
  simp [hn, applyEv]

theorem removeDirAllP_run_dir (fs : FS) (p : Path) (ro : Bool)
    (hn : lookupFS fs p = some (Node.dir ro)) :
    removeDirAllP p fs = (Except.ok (), removeSubtree fs p, [Ev.evRmTree p]) := by
  unfold removeDirAllP
  simp [hn, applyEv]

theorem readOnlyP_run_file (fs : FS) (p : Path) (c : List Nat) (ro : Bool)
    (hn : lookupFS fs p = some (Node.file c ro)) :
    readOnlyP p fs = (Except.ok ro, fs, []) := by
  unfold readOnlyP
  simp [hn]

theorem readOnlyP_run_dir (fs : FS) (p : Path) (ro : Bool)
    (hn : lookupFS fs p = some (Node.dir ro)) :
    readOnlyP p fs = (Except.ok ro, fs, []) := by
  unfold readOnlyP
  simp [hn]

theorem readOnlyP_run_none (fs : FS) (p : Path)
    (hn : lookupFS fs p = none) :
    readOnlyP p fs = (Except.error ErrKind.notFound, fs, []) := by
  unfold readOnlyP
  simp [hn]

theorem renameTry_run (os : Os) (src dst : Path) (fs : FS) :
    renameTry os src dst fs =
      if renameCond os fs src dst then
        (Except.ok true, renameTree fs src dst,
          [Ev.evRenameAtt src dst, Ev.evMove src dst])
      else (Except.ok false, fs, [Ev.evRenameAtt src dst]) := by
  unfold renameTry
  by_cases h : renameCond os fs src dst <;> simp [h, applyEv]

theorem renameP_run (os : Os) (src dst : Path) (fs : FS) :
    renameP os src dst fs =
      if renameCond os fs src dst then
        (Except.ok (), renameTree fs src dst,
          [Ev.evRenameAtt src dst, Ev.evMove src dst])
      else
        (Except.error ErrKind.otherErr, fs, [Ev.evRenameAtt src dst]) := by
  unfold renameP
  simp only [bind_run, Mbind_run, renameTry_run]
  by_cases h : renameCond os fs src dst <;> simp [h]

theorem copyP_run (fs : FS) (src dst : Path) (c : List Nat) (ro : Bool)
    (hn : lookupFS fs src = some (Node.file c ro)) :
    copyP src dst fs =
      if parentIsDir fs dst = true ∧ isDirFS fs dst = false then
        (Except.ok (), setFS fs dst (Node.file c ro), [Ev.evCopyF src dst])
      else (Except.error ErrKind.otherErr, fs, []) := by
  unfold copyP
  by_cases h : parentIsDir fs dst = true ∧ isDirFS fs dst = false
  · simp [hn, h, applyEv]
  · simp [hn, h]

theorem copyP_run_none (fs : FS) (src dst : Path)
    (hn : lookupFS fs src = none) :
    copyP src dst fs = (Except.error ErrKind.otherErr, fs, []) := by
  unfold copyP
  simp [hn]

theorem copyP_run_dir (fs : FS) (src dst : Path) (ro : Bool)
    (hn : lookupFS fs src = some (Node.dir ro)) :
    copyP src dst fs = (Except.error ErrKind.otherErr, fs, []) := by
  unfold copyP
  simp [hn]

end Fdir

namespace Fdir

theorem mkdirSeq_cons_run (q : Path) (rest : List Path) (fs : FS) :
    mkdirSeq (q :: rest) fs =
      match lookupFS fs q with
      | some (Node.file _ _) => (Except.error ErrKind.otherErr, fs, [])
      | some (Node.dir _) => mkdirSeq rest fs
      | none =>
          ((mkdirSeq rest (setFS fs q (Node.dir false))).1,
           (mkdirSeq rest (setFS fs q (Node.dir false))).2.1,
           Ev.evMkdir q :: (mkdirSeq rest (setFS fs q (Node.dir false))).2.2) := by
  conv_lhs => rw [mkdirSeq]
  rcases hn : lookupFS fs q with _ | n
  · rcases hres : mkdirSeq rest (setFS fs q (Node.dir false)) with ⟨r, fs2, evs⟩
    simp [hn, applyEv, hres]
  · cases n with
    | file c ro => simp [hn]
    | dir ro =>
        rcases hres : mkdirSeq rest fs with ⟨r, fs2, evs⟩
        simp [hn, hres]

theorem mkdirSeq_events (l : List Path) (fs : FS) :
    ∀ ev ∈ (mkdirSeq l fs).2.2, ∃ q, q ∈ l ∧ ev = Ev.evMkdir q := by
  induction l generalizing fs with
  | nil => intro ev h; simp [mkdirSeq] at h
  | cons q rest ih =>
      intro ev h
      rw [mkdirSeq_cons_run] at h
      rcases hn : lookupFS fs q with _ | n
      · rw [hn] at h
        simp at h
        rcases h with h | h
        · exact ⟨q, List.mem_cons_self q rest, h⟩
        · obtain ⟨x, hx, hev⟩ := ih (setFS fs q (Node.dir false)) ev h
          exact ⟨x, List.mem_cons_of_mem q hx, hev⟩
      · cases n with
        | file c ro => rw [hn] at h; simp at h
        | dir ro =>
            rw [hn] at h
            obtain ⟨x, hx, hev⟩ := ih fs ev h
            exact ⟨x, List.mem_cons_of_mem q hx, hev⟩

theorem renameP_events (os : Os) (src dst : Path) (fs : FS) :
    ∀ ev ∈ (renameP os src dst fs).2.2,
      ev = Ev.evRenameAtt src dst ∨ ev = Ev.evMove src dst := by
  intro ev h
  rw [renameP_run] at h
  by_cases hc : renameCond os fs src dst <;> simp [hc] at h
  · rcases h with h | h
    · exact Or.inl h
    · exact Or.inr h
  · exact Or.inl h

theorem copyP_events (src dst : Path) (fs : FS) :
    ∀ ev ∈ (copyP src dst fs).2.2, ev = Ev.evCopyF src dst := by
  intro ev h
  rcases hn : lookupFS fs src with _ | n
  · rw [copyP_run_none fs src dst hn] at h
    simp at h
  · cases n with
    | file c ro =>
        rw [copyP_run fs src dst c ro hn] at h
        by_cases hc : parentIsDir fs dst = true ∧ isDirFS fs dst = false <;>
          simp [hc] at h
        exact h
    | dir ro =>
        rw [copyP_run_dir fs src dst ro hn] at h
        simp at h

theorem deleteP_run_none (fs : FS) (p : Path) (hn : lookupFS fs p = none) :
    deleteP p fs = (Except.error ErrKind.notFound, fs, []) := by
  unfold deleteP
  simp [readOnlyP_run_none fs p hn]

theorem deleteP_run_file (fs : FS) (p : Path) (c : List Nat) (ro : Bool)
    (hn : lookupFS fs p = some (Node.file c ro)) :
    (deleteP p fs).1 = Except.ok () ∧
    (∀ q, lookupFS (deleteP p fs).2.1 q =
      if q = p then none else lookupFS fs q) ∧
    (∀ ev ∈ (deleteP p fs).2.2,
      ev = Ev.evPerm p false ∨ ev = Ev.evRmF p) := by
  have hex : existsFS fs p = true := by unfold existsFS; simp [hn]
  unfold deleteP
  cases ro with
  | false =>
      have hd : isDirFS fs p = false := by unfold isDirFS; simp [hn]
      simp [readOnlyP_run_file fs p c false hn, hd,
        removeFileP_run_file fs p c false hn]
      intro q
      rw [lookup_removeEntry]
  | true =>
      have h2 : lookupFS (setRO fs p false) p = some (Node.file c false) := by
        rw [lookup_setRO]
        simp [hn, nodeWithRO]
      have hd2 : isDirFS (setRO fs p false) p = false := by
        unfold isDirFS
        simp [h2]
      simp [readOnlyP_run_file fs p c true hn,
        setReadonlyP_run_some fs p false hex, hd2,
        removeFileP_run_file (setRO fs p false) p c false h2]
      intro q
      rw [lookup_removeEntry, lookup_setRO]
      by_cases hq : q = p <;> simp [hq]

theorem deleteP_run_dir (fs : FS) (p : Path) (ro : Bool)
    (hn : lookupFS fs p = some (Node.dir ro)) :
    (deleteP p fs).1 = Except.ok () ∧
    (∀ q, lookupFS (deleteP p fs).2.1 q =
      if p.isPrefixOf q then none else lookupFS fs q) ∧
    (∀ ev ∈ (deleteP p fs).2.2,
      ev = Ev.evPerm p false ∨ ev = Ev.evRmTree p) := by
  have hex : existsFS fs p = true := by unfold existsFS; simp [hn]
  unfold deleteP
  cases ro with
  | false =>
      have hd : isDirFS fs p = true := by unfold isDirFS; simp [hn]
      simp [readOnlyP_run_dir fs p false hn, hd,
        removeDirAllP_run_dir fs p false hn]
      intro q
      rw [lookup_removeSubtree]
      simp [List.isPrefixOf_iff_prefix]
  | true =>
      have h2 : lookupFS (setRO fs p false) p = some (Node.dir false) := by
        rw [lookup_setRO]
        simp [hn, nodeWithRO]
      have hd2 : isDirFS (setRO fs p false) p = true := by
        unfold isDirFS
        simp [h2]
      simp [readOnlyP_run_dir fs p true hn,
        setReadonlyP_run_some fs p false hex, hd2,
        removeDirAllP_run_dir (setRO fs p false) p false h2]
      intro q
      rw [lookup_removeSubtree, lookup_setRO]
      by_cases hq : p <+: q
      · simp [hq, List.isPrefixOf_iff_prefix]
      · have hqp : ¬ q = p := fun hh => hq (hh ▸ List.prefix_refl p)
        simp [hq, hqp, List.isPrefixOf_iff_prefix]

theorem _delete_file_run (fs : FS) (f : FileInfo) (c : List Nat) (ro : Bool)
    (hn : lookupFS fs f.path = some (Node.file c ro)) :
    (_delete_file f fs).1 = Except.ok () ∧
    (∀ q, lookupFS (_delete_file f fs).2.1 q =
      if q = f.path then none else lookupFS fs q) ∧
    (_delete_file f fs).2.2 = [Ev.evPerm f.path false, Ev.evRmF f.path] := by
  have hex : existsFS fs f.path = true := by unfold existsFS; simp [hn]
  have h2 : lookupFS (setRO fs f.path false) f.path =
      some (Node.file c false) := by
    rw [lookup_setRO]
    simp [hn, nodeWithRO]
  unfold _delete_file
  simp [setReadonlyP_run_some fs f.path false hex,
    removeFileP_run_file (setRO fs f.path false) f.path c false h2]
  intro q
  rw [lookup_removeEntry, lookup_setRO]
  by_cases hq : q = f.path <;> simp [hq]

end Fdir

namespace Fdir

theorem setReadonlyP_events (fs : FS) (p : Path) (b : Bool) :
    ∀ ev ∈ (setReadonlyP p b fs).2.2, ev = Ev.evPerm p b := by
  intro ev h
  by_cases hex : existsFS fs p
  · rw [setReadonlyP_run_some fs p b hex] at h
    simpa using h
  · rw [setReadonlyP_run_none fs p b (by simpa using hex)] at h
    simp at h

theorem removeFileP_events (fs : FS) (p : Path) :
    ∀ ev ∈ (removeFileP p fs).2.2, ev = Ev.evRmF p := by
  intro ev h
  unfold removeFileP at h
  rcases hn : lookupFS fs p with _ | n
  · simp [hn] at h
  · cases n with
    | file c ro => simp [hn] at h; exact h
    | dir ro => simp [hn] at h

theorem _delete_file_events (fs : FS) (f : FileInfo) :
    ∀ ev ∈ (_delete_file f fs).2.2,
      ev = Ev.evPerm f.path false ∨ ev = Ev.evRmF f.path := by
  intro ev h
  unfold _delete_file at h
  rcases hs : setReadonlyP f.path false fs with ⟨r1, fs1, evs1⟩
  rcases hr : removeFileP f.path fs1 with ⟨r2, fs2, evs2⟩
  have hev1 := setReadonlyP_events fs f.path false
  have hev2 := removeFileP_events fs1 f.path
  rw [hs] at hev1
  rw [hr] at hev2
  simp [hs, hr] at h
  cases r1 with
  | error e => simp at h; exact Or.inl (hev1 ev (by simp [h]))
  | ok a =>
      simp at h
      rcases h with h | h
      · exact Or.inl (hev1 ev (by simp [h]))
      · rw [hr] at h
        exact Or.inr (hev2 ev (by simpa using h))

theorem copyP_ok_events (src dst : Path) (fs : FS)
    (h : (copyP src dst fs).1 = Except.ok ()) :
    (copyP src dst fs).2.2 = [Ev.evCopyF src dst] := by
  rcases hn : lookupFS fs src with _ | n
  · rw [copyP_run_none fs src dst hn] at h
    simp at h
  · cases n with
    | file c ro =>
        rw [copyP_run fs src dst c ro hn] at h ⊢
        by_cases hc : parentIsDir fs dst = true ∧ isDirFS fs dst = false
        · simp [hc]
        · simp [hc] at h
    | dir ro =>
        rw [copyP_run_dir fs src dst ro hn] at h
        simp at h

theorem _delete_file_ok_events (fs : FS) (f : FileInfo)
    (h : (_delete_file f fs).1 = Except.ok ()) :
    (_delete_file f fs).2.2 =
      [Ev.evPerm f.path false, Ev.evRmF f.path] := by
  unfold _delete_file at h ⊢
  by_cases hex : existsFS fs f.path
  · have hsrun := setReadonlyP_run_some fs f.path false hex
    rcases hn : lookupFS (setRO fs f.path false) f.path with _ | n
    · rw [lookup_setRO] at hn
      simp at hn
      unfold existsFS at hex
      simp [hn] at hex
    · cases n with
      | file c ro =>
          have hrrun := removeFileP_run_file (setRO fs f.path false) f.path c ro hn
          simp [hsrun, hrrun]
      | dir ro =>
          have hrr : removeFileP f.path (setRO fs f.path false) =
              (Except.error ErrKind.otherErr, setRO fs f.path false, []) := by
            unfold removeFileP
            simp [hn]
          simp [hsrun, hrr] at h
  · have hsrun := setReadonlyP_run_none fs f.path false (by simpa using hex)
    simp [hsrun] at h

end Fdir

namespace Fdir

theorem move_new_run (os : Os) (f : FileInfo) (q : Path) (fs : FS)
    (hex : existsFS fs (fix_path q) = false)
    (par : Path) (hpar : rustParent (fix_path q) = some par)
    (fs1 : FS) (evs1 : List Ev)
    (hmk : createDirAllP par fs = (Except.ok (), fs1, evs1)) :
    FileInfo.move_new os f q fs =
      if is_same_root f.path (fix_path q) = true then
        (match renameP os f.path (fix_path q) fs1 with
         | (Except.ok _, fs2, evs2) =>
             (Except.ok (⟨fix_path q⟩ : FileInfo), fs2, evs1 ++ evs2)
         | (Except.error e, fs2, evs2) =>
             (Except.error ⟨e, none⟩, fs2, evs1 ++ evs2))
      else
        (match copyP f.path (fix_path q) fs1 with
         | (Except.ok _, fs2, evs2) =>
             (match _delete_file f fs2 with
              | (Except.ok _, fs3, evs3) =>
                  (Except.ok (⟨fix_path q⟩ : FileInfo), fs3,
                    evs1 ++ (evs2 ++ evs3))
              | (Except.error e, fs3, evs3) =>
                  (Except.error ⟨e, none⟩, fs3, evs1 ++ (evs2 ++ evs3)))
         | (Except.error e, fs2, evs2) =>
             (Except.error ⟨e, none⟩, fs2, evs1 ++ evs2)) := by
  unfold FileInfo.move_new tryExistsP
  by_cases hsr : is_same_root f.path (fix_path q) = true
  · rcases hrp : renameP os f.path (fix_path q) fs1 with ⟨r2, fs2, evs2⟩
    cases r2 <;> simp [hex, hpar, hmk, hsr, hrp]
  · rcases hcp : copyP f.path (fix_path q) fs1 with ⟨r2, fs2, evs2⟩
    cases r2 with
    | error e => simp [hex, hpar, hmk, hsr, hcp]
    | ok a =>
        rcases hdf : _delete_file f fs2 with ⟨r3, fs3, evs3⟩
        cases r3 <;> simp [hex, hpar, hmk, hsr, hcp, hdf]

end Fdir

namespace Fdir

/-- C5 (amended): after the conflict check and parent creation succeed,
`FileInfo::move_new` decides between rename and copy by `is_same_root`,
not by attempting a rename and reacting to its failure: when the
destination starts with the source path's root it attempts the atomic
rename and never performs a copy (even when that rename fails, the
failure propagates with no fallback); when the roots differ it never
attempts a rename at all and, on success, has performed the
copy-then-delete-source fallback. -/
theorem C5_move_new_root_decides (os : Os) (f : FileInfo) (q : Path)
    (fs : FS) (par : Path)
    (hex : existsFS fs (fix_path q) = false)
    (hpar : rustParent (fix_path q) = some par)
    (hcd : (createDirAllP par fs).1 = Except.ok ()) :
    (is_same_root f.path (fix_path q) = true →
      Ev.evRenameAtt f.path (fix_path q) ∈ (FileInfo.move_new os f q fs).2.2 ∧
      (∀ s t, ¬ Ev.evCopyF s t ∈ (FileInfo.move_new os f q fs).2.2)) ∧
    (is_same_root f.path (fix_path q) = false →
      (∀ s t, ¬ Ev.evRenameAtt s t ∈ (FileInfo.move_new os f q fs).2.2) ∧
      ((FileInfo.move_new os f q fs).1 =
          Except.ok (⟨fix_path q⟩ : FileInfo) →
        Ev.evCopyF f.path (fix_path q) ∈ (FileInfo.move_new os f q fs).2.2 ∧
        Ev.evRmF f.path ∈ (FileInfo.move_new os f q fs).2.2)) := by
  rcases hmk : createDirAllP par fs with ⟨r0, fs1, evs1⟩
  rw [hmk] at hcd
  rcases r0 with e | a
  · exact absurd hcd (by simp)
  have hevs1 := mkdirSeq_events (prefixesOf par) fs
  rw [show mkdirSeq (prefixesOf par) fs = createDirAllP par fs from rfl,
    hmk] at hevs1
  have hrun := move_new_run os f q fs hex par hpar fs1 evs1 hmk
  constructor
  · intro hsr
    rcases hrp : renameP os f.path (fix_path q) fs1 with ⟨r2, fs2, evs2⟩
    have hatts := renameP_events os f.path (fix_path q) fs1
    rw [hrp] at hatts
    have hattmem : Ev.evRenameAtt f.path (fix_path q) ∈ evs2 := by
      have hthis := renameP_run os f.path (fix_path q) fs1
      rw [hrp] at hthis
      by_cases hc : renameCond os fs1 f.path (fix_path q)
      · simp [hc] at hthis
        simp [hthis.2.2]
      · simp [hc] at hthis
        simp [hthis.2.2]
    have hnc : ∀ s t, ¬ Ev.evCopyF s t ∈ evs1 ++ evs2 := by
      intro s t hmem
      rcases List.mem_append.mp hmem with hm | hm
      · obtain ⟨x, _, hx⟩ := hevs1 _ (by simpa using hm)
        simp at hx
      · rcases hatts _ (by simpa using hm) with hx | hx <;> simp at hx
    cases r2 with
    | ok a2 =>
        have hval : FileInfo.move_new os f q fs =
            (Except.ok (⟨fix_path q⟩ : FileInfo), fs2, evs1 ++ evs2) := by
          rw [hrun]
          simp [hsr, hrp]
        rw [hval]
        exact ⟨List.mem_append_right evs1 hattmem, hnc⟩
    | error e2 =>
        have hval : FileInfo.move_new os f q fs =
            (Except.error ⟨e2, none⟩, fs2, evs1 ++ evs2) := by
          rw [hrun]
          simp [hsr, hrp]
        rw [hval]
        exact ⟨List.mem_append_right evs1 hattmem, hnc⟩
  · intro hsr
    rcases hcp : copyP f.path (fix_path q) fs1 with ⟨r2, fs2, evs2⟩
    have hcevs := copyP_events f.path (fix_path q) fs1
    rw [hcp] at hcevs
    cases r2 with
    | error e2 =>
        have hval : FileInfo.move_new os f q fs =
            (Except.error ⟨e2, none⟩, fs2, evs1 ++ evs2) := by
          rw [hrun]
          simp [hsr, hcp]
        rw [hval]
        refine ⟨?_, ?_⟩
        · intro s t hmem
          rcases List.mem_append.mp hmem with hm | hm
          · obtain ⟨x, _, hx⟩ := hevs1 _ (by simpa using hm)
            simp at hx
          · have := hcevs _ (by simpa using hm)
            simp at this
        · intro hok
          simp at hok
    | ok a2 =>
        have hcpok : evs2 = [Ev.evCopyF f.path (fix_path q)] := by
          have := copyP_ok_events f.path (fix_path q) fs1 (by rw [hcp])
          rw [hcp] at this
          simpa using this
        rcases hdf : _delete_file f fs2 with ⟨r3, fs3, evs3⟩
        have hdevs := _delete_file_events fs2 f
        rw [hdf] at hdevs
        have hnr : ∀ s t, ¬ Ev.evRenameAtt s t ∈ evs1 ++ (evs2 ++ evs3) := by
          intro s t hmem
          rcases List.mem_append.mp hmem with hm | hm
          · obtain ⟨x, _, hx⟩ := hevs1 _ (by simpa using hm)
            simp at hx
          · rcases List.mem_append.mp hm with hm2 | hm2
            · have := hcevs _ (by simpa using hm2)
              simp at this
            · rcases hdevs _ (by simpa using hm2) with hx | hx <;> simp at hx
        cases r3 with
        | error e3 =>
            have hval : FileInfo.move_new os f q fs =
                (Except.error ⟨e3, none⟩, fs3, evs1 ++ (evs2 ++ evs3)) := by
              rw [hrun]
              simp [hsr, hcp, hdf]
            rw [hval]
            refine ⟨hnr, ?_⟩
            intro hok
            simp at hok
        | ok a3 =>
            have hdfok : evs3 =
                [Ev.evPerm f.path false, Ev.evRmF f.path] := by
              have := _delete_file_ok_events fs2 f (by rw [hdf])
              rw [hdf] at this
              simpa using this
            have hval : FileInfo.move_new os f q fs =
                (Except.ok (⟨fix_path q⟩ : FileInfo), fs3,
                  evs1 ++ (evs2 ++ evs3)) := by
              rw [hrun]
              simp [hsr, hcp, hdf]
            rw [hval]
            refine ⟨hnr, fun _ => ⟨?_, ?_⟩⟩
            · refine List.mem_append_right evs1 ?_
              refine List.mem_append_left evs3 ?_
              simp [hcpok]
            · refine List.mem_append_right evs1 ?_
              refine List.mem_append_right evs2 ?_
              simp [hdfok]

end Fdir

namespace Fdir

theorem rebase_eq_dst_iff (src dst x : Path) (hx : src.isPrefixOf x = true) :
    dst ++ x.drop src.length = dst ↔ x = src := by
  constructor
  · intro h
    have hnil : x.drop src.length = [] := by
      have := congrArg List.length h
      simp at this
      rw [List.drop_eq_nil_iff]
      omega
    have hpre := List.isPrefixOf_iff_prefix.mp hx
    have hlen : x.length ≤ src.length := List.drop_eq_nil_iff.mp hnil
    exact (hpre.eq_of_length (Nat.le_antisymm hpre.length_le hlen)).symm
  · intro h
    subst h
    simp

theorem lookup_renameTree_dst (fs : FS) (src dst : Path)
    (hns : src.isPrefixOf dst = false) :
    lookupFS (renameTree fs src dst) dst = lookupFS fs src := by
  have hns' : ¬ src <+: dst := by
    rw [← List.isPrefixOf_iff_prefix, hns]
    simp
  induction fs with
  | nil => rfl
  | cons e fs ih =>
      unfold renameTree at ih ⊢
      simp only [List.isPrefixOf_iff_prefix, decide_not] at ih ⊢
      by_cases hed : e.1 = dst
      · rw [List.filter_cons_of_neg (by simp [hed])]
        rw [ih, lookupFS_cons]
        have : ¬ e.1 = src := by
          intro hh
          exact hns' (hh ▸ hed ▸ List.prefix_refl e.1)
        simp [this]
      · rw [List.filter_cons_of_pos (by simp [hed]), List.map_cons]
        by_cases hse : src <+: e.1
        · by_cases hex : e.1 = src
          · have hkey : dst ++ e.1.drop src.length = dst := by
              subst hex
              simp
            simp [hse, lookupFS_cons, hkey, hex]
          · have hkey : ¬ dst ++ e.1.drop src.length = dst := by
              intro hh
              exact hex ((rebase_eq_dst_iff src dst e.1
                (List.isPrefixOf_iff_prefix.mpr hse)).mp hh)
            simp [hse, lookupFS_cons, hkey, hex, ih]
        · have hes : ¬ e.1 = src := by
            intro hh
            exact hse (hh ▸ List.prefix_refl src)
          simp [hse, lookupFS_cons, hed, hes, ih]

theorem lookup_renameTree_src_gone (fs : FS) (src dst : Path)
    (_hns : src.isPrefixOf dst = false)
    (hnd : dst.isPrefixOf src = false) :
    lookupFS (renameTree fs src dst) src = none := by
  have hnd' : ¬ dst <+: src := by
    rw [← List.isPrefixOf_iff_prefix, hnd]
    simp
  induction fs with
  | nil => rfl
  | cons e fs ih =>
      unfold renameTree at ih ⊢
      simp only [List.isPrefixOf_iff_prefix, decide_not] at ih ⊢
      by_cases hed : e.1 = dst
      · rw [List.filter_cons_of_neg (by simp [hed])]
        exact ih
      · rw [List.filter_cons_of_pos (by simp [hed]), List.map_cons]
        by_cases hse : src <+: e.1
        · have hkey : ¬ dst ++ e.1.drop src.length = src := by
            intro hh
            exact hnd' (hh ▸ List.prefix_append dst _)
          simp [hse, lookupFS_cons, hkey, ih]
        · have hes : ¬ e.1 = src := by
            intro hh
            exact hse (hh ▸ List.prefix_refl src)
          simp [hse, lookupFS_cons, hes, ih]

end Fdir

namespace Fdir

theorem move_new_conflict (os : Os) (f : FileInfo) (q : Path) (fs : FS)
    (hex : existsFS fs (fix_path q) = true) :
    FileInfo.move_new os f q fs =
      (Except.error ⟨ErrKind.alreadyExists,
        some (Status.moveFile f (fix_path q))⟩, fs, []) := by
  unfold FileInfo.move_new tryExistsP
  simp [hex]

theorem move_new_noparent (os : Os) (f : FileInfo) (q : Path) (fs : FS)
    (hex : existsFS fs (fix_path q) = false)
    (hpar : rustParent (fix_path q) = none) :
    FileInfo.move_new os f q fs =
      (Except.error ⟨ErrKind.invalidInput, none⟩, fs, []) := by
  unfold FileInfo.move_new tryExistsP
  simp [hex, hpar]

theorem move_new_cderr (os : Os) (f : FileInfo) (q : Path) (fs : FS)
    (par : Path) (e : ErrKind) (fs1 : FS) (evs1 : List Ev)
    (hex : existsFS fs (fix_path q) = false)
    (hpar : rustParent (fix_path q) = some par)
    (hmk : createDirAllP par fs = (Except.error e, fs1, evs1)) :
    FileInfo.move_new os f q fs =
      (Except.error ⟨e, none⟩, fs1, evs1) := by
  unfold FileInfo.move_new tryExistsP
  simp [hex, hpar, hmk]

/-- C3 counterexample: a MoveFile conflict recovery in which the atomic
rename succeeds. The entity handle is returned unchanged, still holding
the source path `/a`, while the file now lives only at `/b` — the stored
path does not equal the on-disk location. -/
theorem C3_counterexample :
    (tryRecoverFuel osT 1
      ⟨ErrKind.alreadyExists, some (Status.moveFile ⟨["/", "a"]⟩ ["/", "b"])⟩
      [(["/"], Node.dir false), (["/", "a"], Node.file [1] false),
       (["/", "b"], Node.file [2] false)]).1 =
      Except.ok (RecOut.movedFile ⟨["/", "a"]⟩) ∧
    lookupFS (tryRecoverFuel osT 1
      ⟨ErrKind.alreadyExists, some (Status.moveFile ⟨["/", "a"]⟩ ["/", "b"])⟩
      [(["/"], Node.dir false), (["/", "a"], Node.file [1] false),
       (["/", "b"], Node.file [2] false)]).2.1 ["/", "a"] = none ∧
    lookupFS (tryRecoverFuel osT 1
      ⟨ErrKind.alreadyExists, some (Status.moveFile ⟨["/", "a"]⟩ ["/", "b"])⟩
      [(["/"], Node.dir false), (["/", "a"], Node.file [1] false),
       (["/", "b"], Node.file [2] false)]).2.1 ["/", "b"] =
      some (Node.file [1] false) := by
  refine ⟨rfl, rfl, rfl⟩

end Fdir

namespace Fdir

/-- C5 counterexample: a cross-root move (`C:` to `D:`). The operation
succeeds, its event trace is exactly a copy followed by the source
deletion, and contains no rename attempt at all — refuting "it never
skips the rename attempt" and "the fallback runs exactly when that
rename attempt fails". -/
theorem C5_counterexample :
    (FileInfo.move_new osT ⟨["C:", "a"]⟩ ["D:", "b"]
      [(["C:"], Node.dir false), (["C:", "a"], Node.file [1] false),
       (["D:"], Node.dir false)]).1 =
      Except.ok ⟨["D:", "b"]⟩ ∧
    (FileInfo.move_new osT ⟨["C:", "a"]⟩ ["D:", "b"]
      [(["C:"], Node.dir false), (["C:", "a"], Node.file [1] false),
       (["D:"], Node.dir false)]).2.2 =
      [Ev.evCopyF ["C:", "a"] ["D:", "b"], Ev.evPerm ["C:", "a"] false,
       Ev.evRmF ["C:", "a"]] ∧
    ¬ Ev.evRenameAtt ["C:", "a"] ["D:", "b"] ∈
      (FileInfo.move_new osT ⟨["C:", "a"]⟩ ["D:", "b"]
        [(["C:"], Node.dir false), (["C:", "a"], Node.file [1] false),
         (["D:"], Node.dir false)]).2.2 := by
  refine ⟨rfl, rfl, by decide⟩

/-- C5 witness: a same-root move attempts the rename and performs no
copy. -/
theorem C5_witness :
    Ev.evRenameAtt ["/", "a"] ["/", "b"] ∈
      (FileInfo.move_new osT ⟨["/", "a"]⟩ ["/", "b"]
        [(["/"], Node.dir false), (["/", "a"], Node.file [1] false)]).2.2 ∧
    ¬ Ev.evCopyF ["/", "a"] ["/", "b"] ∈
      (FileInfo.move_new osT ⟨["/", "a"]⟩ ["/", "b"]
        [(["/"], Node.dir false), (["/", "a"], Node.file [1] false)]).2.2 := by
  have h := (C5_move_new_root_decides osT ⟨["/", "a"]⟩ ["/", "b"]
    [(["/"], Node.dir false), (["/", "a"], Node.file [1] false)] ["/"]
    (by decide) (by decide) (by rfl)).1 (by decide)
  exact ⟨h.1, h.2 ["/", "a"] ["/", "b"]⟩

/-- C1: the blocking `try_recover` on a MoveDirectory conflict, run on a
state where the whole-tree rename would have succeeded (the destination
is an existing empty directory on the same device). The event trace is
exactly one file copy: no rename is ever attempted, the tree transfer
runs in copy mode, and the source tree (directory `/s` with file `/s/a`)
is left on disk; only the entity is repointed. -/
theorem C1_sync_movedir_recovery_run :
    (tryRecoverFuel osT 5
      ⟨ErrKind.alreadyExists,
        some (Status.moveDirectory ⟨["/", "s"]⟩ ["/", "d"])⟩
      [(["/"], Node.dir false), (["/", "s"], Node.dir false),
       (["/", "s", "a"], Node.file [7] false),
       (["/", "d"], Node.dir false)]).1 =
      Except.ok (RecOut.movedDir ⟨["/", "d"]⟩) ∧
    (tryRecoverFuel osT 5
      ⟨ErrKind.alreadyExists,
        some (Status.moveDirectory ⟨["/", "s"]⟩ ["/", "d"])⟩
      [(["/"], Node.dir false), (["/", "s"], Node.dir false),
       (["/", "s", "a"], Node.file [7] false),
       (["/", "d"], Node.dir false)]).2.2 =
      [Ev.evCopyF ["/", "s", "a"] ["/", "d", "a"]] ∧
    lookupFS (tryRecoverFuel osT 5
      ⟨ErrKind.alreadyExists,
        some (Status.moveDirectory ⟨["/", "s"]⟩ ["/", "d"])⟩
      [(["/"], Node.dir false), (["/", "s"], Node.dir false),
       (["/", "s", "a"], Node.file [7] false),
       (["/", "d"], Node.dir false)]).2.1 ["/", "s", "a"] =
      some (Node.file [7] false) ∧
    lookupFS (tryRecoverFuel osT 5
      ⟨ErrKind.alreadyExists,
        some (Status.moveDirectory ⟨["/", "s"]⟩ ["/", "d"])⟩
      [(["/"], Node.dir false), (["/", "s"], Node.dir false),
       (["/", "s", "a"], Node.file [7] false),
       (["/", "d"], Node.dir false)]).2.1 ["/", "d", "a"] =
      some (Node.file [7] false) := by
  refine ⟨rfl, rfl, rfl, rfl⟩

/-- C2 counterexample: the blocking and suspend-capable `try_recover`
diverge on the same MoveDirectory conflict and identical filesystem
state: the suspend-capable form attempts the whole-tree rename (which
succeeds, relocating the tree and vacating `/s/a`), while the blocking
form runs the transfer in copy mode, leaving `/s/a` in place — the final
filesystem states differ. -/
theorem C2_counterexample :
    (tryRecoverFuel osT 5
      ⟨ErrKind.alreadyExists,
        some (Status.moveDirectory ⟨["/", "s"]⟩ ["/", "d"])⟩
      [(["/"], Node.dir false), (["/", "s"], Node.dir false),
       (["/", "s", "a"], Node.file [7] false),
       (["/", "d"], Node.dir false)]).1 =
      Except.ok (RecOut.movedDir ⟨["/", "d"]⟩) ∧
    (asyncTryRecoverFuel osT 5
      ⟨ErrKind.alreadyExists,
        some (Status.moveDirectory ⟨["/", "s"]⟩ ["/", "d"])⟩
      [(["/"], Node.dir false), (["/", "s"], Node.dir false),
       (["/", "s", "a"], Node.file [7] false),
       (["/", "d"], Node.dir false)]).1 =
      Except.ok (RecOut.movedDir ⟨["/", "d"]⟩) ∧
    lookupFS (tryRecoverFuel osT 5
      ⟨ErrKind.alreadyExists,
        some (Status.moveDirectory ⟨["/", "s"]⟩ ["/", "d"])⟩
      [(["/"], Node.dir false), (["/", "s"], Node.dir false),
       (["/", "s", "a"], Node.file [7] false),
       (["/", "d"], Node.dir false)]).2.1 ["/", "s", "a"] =
      some (Node.file [7] false) ∧
    lookupFS (asyncTryRecoverFuel osT 5
      ⟨ErrKind.alreadyExists,
        some (Status.moveDirectory ⟨["/", "s"]⟩ ["/", "d"])⟩
      [(["/"], Node.dir false), (["/", "s"], Node.dir false),
       (["/", "s", "a"], Node.file [7] false),
       (["/", "d"], Node.dir false)]).2.1 ["/", "s", "a"] = none := by
  refine ⟨rfl, rfl, rfl, rfl⟩

end Fdir

namespace Fdir

theorem not_root_prefix_of_prefix_destext (root dest : Path)
    (hf1 : ¬ root <+: dest) (hf2 : ¬ dest <+: root) (p x : Path)
    (hp : p <+: dest ++ x) : ¬ root <+: p := by
  intro hr
  have hd : dest <+: dest ++ x := List.prefix_append dest x
  rcases List.prefix_or_prefix_of_prefix hp hd with h | h
  · exact hf1 (hr.trans h)
  · rcases List.prefix_or_prefix_of_prefix hr h with h2 | h2
    · exact hf1 h2
    · exact hf2 h2

end Fdir

namespace Fdir

theorem foldl_pushOs_normal (p : Path) (acc : Path)
    (h : ∀ c ∈ p, normalComp c = true) :
    p.foldl pushOs acc = acc ++ p := by
  induction p generalizing acc with
  | nil => simp
  | cons c ps ih =>
      have hc := h c (List.mem_cons_self c ps)
      unfold normalComp at hc
      simp at hc
      rw [List.foldl_cons]
      have hpush : pushOs acc c = acc ++ [c] := by
        unfold pushOs
        simp [hc.1, hc.2.1, hc.2.2]
      rw [hpush, ih (acc ++ [c]) (fun x hx => h x (List.mem_cons_of_mem c hx))]
      simp

theorem fix_path_normal (p : Path) (h : normalPathB p = true) :
    fix_path p = p := by
  unfold fix_path
  unfold normalPathB at h
  rw [List.all_eq_true] at h
  rw [foldl_pushOs_normal p [] (fun c hc => h c hc)]
  simp

theorem normalPathB_of_pre (p q : Path) (h : normalPathB p = true)
    (hq : q <+: p) : normalPathB q = true := by
  unfold normalPathB at *
  rw [List.all_eq_true] at *
  exact fun c hc => h c (hq.subset hc)

theorem normalPathB_append (p q : Path) (hp : normalPathB p = true)
    (hq : normalPathB q = true) : normalPathB (p ++ q) = true := by
  unfold normalPathB at *
  rw [List.all_eq_true] at *
  intro c hc
  rcases List.mem_append.mp hc with h | h
  · exact hp c h
  · exact hq c h

theorem normalPathB_foldl_pushPB (l : List String) (acc : Path)
    (hacc : normalPathB acc = true) (hl : ∀ c ∈ l, normalComp c = true) :
    normalPathB (l.foldl pushPB acc) = true := by
  induction l generalizing acc with
  | nil => simpa using hacc
  | cons c cs ih =>
      rw [List.foldl_cons]
      refine ih (pushPB acc c) ?_
        (fun x hx => hl x (List.mem_cons_of_mem c hx))
      unfold pushPB
      by_cases hc : c = "/"
      · rw [if_pos hc]
        decide
      · rw [if_neg hc]
        refine normalPathB_append acc [c] hacc ?_
        have := hl c (List.mem_cons_self c cs)
        simp [normalPathB, this]

theorem normalPathB_replace (d root dest : Path)
    (hd : normalPathB d = true) (hdest : normalPathB dest = true) :
    normalPathB (replace d root dest) = true := by
  unfold replace
  refine normalPathB_foldl_pushPB _ dest hdest ?_
  intro c hc
  unfold normalPathB at hd
  rw [List.all_eq_true] at hd
  exact hd c (List.drop_subset _ d hc)

theorem lookupFS_mem (fs : FS) (p : Path) (n : Node)
    (h : lookupFS fs p = some n) : (p, n) ∈ fs := by
  unfold lookupFS at h
  rcases hf : fs.find? (fun e => e.1 = p) with _ | e
  · rw [hf] at h
    simp at h
  · rw [hf] at h
    simp at h
    have hmem := List.mem_of_find?_eq_some hf
    have hkey := List.find?_some hf
    simp at hkey
    have he : e = (p, n) := by
      rcases e with ⟨e1, e2⟩
      simp at hkey h
      simp [hkey, h]
    rw [he] at hmem
    exact hmem

theorem normalPathB_of_lookup (fs : FS) (p : Path) (n : Node)
    (hfs : normalFSB fs = true) (h : lookupFS fs p = some n) :
    normalPathB p = true := by
  unfold normalFSB at hfs
  rw [List.all_eq_true] at hfs
  exact hfs (p, n) (lookupFS_mem fs p n h)

theorem normalFSB_setFS (fs : FS) (p : Path) (n : Node)
    (hfs : normalFSB fs = true) (hp : normalPathB p = true) :
    normalFSB (setFS fs p n) = true := by
  unfold setFS
  by_cases hex : existsFS fs p
  · simp only [hex, if_true]
    unfold normalFSB at *
    rw [List.all_eq_true] at *
    intro e he
    rw [List.mem_map] at he
    obtain ⟨e0, he0, heq⟩ := he
    by_cases h0 : e0.1 = p
    · simp [h0] at heq
      rw [← heq]
      exact hp
    · simp [h0] at heq
      rw [← heq]
      exact hfs e0 he0
  · simp only [hex, Bool.false_eq_true, if_false]
    unfold normalFSB at *
    rw [List.all_eq_true] at *
    intro e he
    rcases List.mem_append.mp he with h | h
    · exact hfs e h
    · simp at h
      rw [h]
      exact hp

theorem normalFSB_filter (fs : FS) (f : Path × Node → Bool)
    (hfs : normalFSB fs = true) : normalFSB (fs.filter f) = true := by
  unfold normalFSB at *
  rw [List.all_eq_true] at *
  exact fun e he => hfs e ((List.filter_sublist fs).subset he)

theorem normalFSB_removeEntry (fs : FS) (p : Path)
    (hfs : normalFSB fs = true) : normalFSB (removeEntry fs p) = true :=
  normalFSB_filter fs _ hfs

theorem normalFSB_removeSubtree (fs : FS) (p : Path)
    (hfs : normalFSB fs = true) : normalFSB (removeSubtree fs p) = true :=
  normalFSB_filter fs _ hfs

theorem normalFSB_setRO (fs : FS) (p : Path) (b : Bool)
    (hfs : normalFSB fs = true) : normalFSB (setRO fs p b) = true := by
  unfold setRO
  unfold normalFSB at *
  rw [List.all_eq_true] at *
  intro e he
  rw [List.mem_map] at he
  obtain ⟨e0, he0, heq⟩ := he
  have hn := hfs e0 he0
  by_cases h0 : e0.1 = p
  · simp only [h0, if_true] at heq
    rcases hh : e0.2 with c | d
    · rw [hh] at heq
      simp at heq
      rw [← heq]
      simpa [h0] using hn
    · rw [hh] at heq
      simp at heq
      rw [← heq]
      simpa [h0] using hn
  · simp [h0] at heq
    rw [← heq]
    exact hn

theorem normalFSB_renameTree (fs : FS) (src dst : Path)
    (hfs : normalFSB fs = true) (hdst : normalPathB dst = true) :
    normalFSB (renameTree fs src dst) = true := by
  unfold renameTree
  have hflt := normalFSB_filter fs (fun e => decide (¬ e.1 = dst)) hfs
  unfold normalFSB at *
  rw [List.all_eq_true] at *
  intro e he
  rw [List.mem_map] at he
  obtain ⟨e0, he0, heq⟩ := he
  have hn := hflt e0 he0
  by_cases h0 : src.isPrefixOf e0.1
  · simp only [h0, if_true] at heq
    rw [← heq]
    refine normalPathB_append dst _ hdst ?_
    unfold normalPathB at *
    rw [List.all_eq_true] at *
    exact fun c hc => hn c (List.drop_subset _ e0.1 hc)
  · simp [h0] at heq
    rw [← heq]
    exact hn

end Fdir

namespace Fdir

theorem mkdirSeq_lookup_off (l : List Path) (fs : FS) (r : Path)
    (hr : ¬ r ∈ l) :
    lookupFS (mkdirSeq l fs).2.1 r = lookupFS fs r := by
  induction l generalizing fs with
  | nil => simp [mkdirSeq]
  | cons q rest ih =>
      have hrq : ¬ r = q := fun hh => hr (hh ▸ List.mem_cons_self q rest)
      have hrr : ¬ r ∈ rest := fun hh => hr (List.mem_cons_of_mem q hh)
      rw [mkdirSeq_cons_run]
      rcases hn : lookupFS fs q with _ | n
      · simp only
        rw [ih (setFS fs q (Node.dir false)) hrr, lookup_setFS]
        simp [hrq]
      · cases n with
        | file c ro => simp
        | dir ro => exact ih fs hrr

theorem mkdirSeq_isDir_mono (l : List Path) (fs : FS) (p : Path)
    (hp : isDirFS fs p = true) :
    isDirFS (mkdirSeq l fs).2.1 p = true := by
  induction l generalizing fs with
  | nil => simpa [mkdirSeq] using hp
  | cons q rest ih =>
      rw [mkdirSeq_cons_run]
      rcases hn : lookupFS fs q with _ | n
      · simp only
        refine ih (setFS fs q (Node.dir false)) ?_
        unfold isDirFS at *
        rw [lookup_setFS]
        by_cases hq : p = q <;> simp [hq, hp]
      · cases n with
        | file c ro => simpa using hp
        | dir ro => exact ih fs hp

theorem mkdirSeq_normal (l : List Path) (fs : FS)
    (hfs : normalFSB fs = true) (hl : ∀ q ∈ l, normalPathB q = true) :
    normalFSB (mkdirSeq l fs).2.1 = true := by
  induction l generalizing fs with
  | nil => simpa [mkdirSeq] using hfs
  | cons q rest ih =>
      rw [mkdirSeq_cons_run]
      rcases hn : lookupFS fs q with _ | n
      · simp only
        refine ih (setFS fs q (Node.dir false)) ?_
          (fun x hx => hl x (List.mem_cons_of_mem q hx))
        exact normalFSB_setFS fs q (Node.dir false) hfs
          (hl q (List.mem_cons_self q rest))
      · cases n with
        | file c ro => simpa using hfs
        | dir ro => exact ih fs hfs (fun x hx => hl x (List.mem_cons_of_mem q hx))

theorem prefix_of_mem_prefixesOf (p q : Path) (h : q ∈ prefixesOf p) :
    q <+: p := by
  unfold prefixesOf at h
  rw [List.mem_map] at h
  obtain ⟨i, _, rfl⟩ := h
  exact List.take_prefix (i + 1) p

theorem childPaths_mem (fs : FS) (d x : Path) (hx : x ∈ childPaths fs d) :
    d <+: x ∧ x.length = d.length + 1 ∧ ∃ n, (x, n) ∈ fs := by
  unfold childPaths at hx
  rw [List.mem_map] at hx
  obtain ⟨e, he, rfl⟩ := hx
  have hmem := (List.filter_sublist fs).subset he
  have hcond := List.of_mem_filter he
  simp at hcond
  exact ⟨hcond.2, hcond.1, e.2, hmem⟩

theorem normalPathB_of_childPaths (fs : FS) (d x : Path)
    (hfs : normalFSB fs = true) (hx : x ∈ childPaths fs d) :
    normalPathB x = true := by
  obtain ⟨_, _, n, hmem⟩ := childPaths_mem fs d x hx
  unfold normalFSB at hfs
  rw [List.all_eq_true] at hfs
  exact hfs (x, n) hmem

end Fdir

namespace Fdir

theorem getLast?_mem_list (l : List String) (n : String)
    (h : l.getLast? = some n) : n ∈ l := by
  cases l with
  | nil => simp at h
  | cons a as =>
      have hg := List.getLast?_eq_getLast (a :: as) (by simp)
      rw [hg] at h
      simp at h
      rw [← h]
      exact List.getLast_mem _

theorem fileNameR_normal (p : Path) (n : String)
    (hp : normalPathB p = true) (h : fileNameR p = some n) :
    normalComp n = true := by
  unfold fileNameR at h
  by_cases hl : p.length ≤ 1
  · simp [hl] at h
  · simp [hl] at h
    unfold normalPathB at hp
    rw [List.all_eq_true] at hp
    exact hp n (getLast?_mem_list p n h)

theorem tryRecoverFuel_as_with (os : Os) (fuel : Nat) :
    ∃ wd, tryRecoverFuel os fuel = tryRecoverWith wd os := by
  cases fuel with
  | zero => exact ⟨_, rfl⟩
  | succ n => exact ⟨_, rfl⟩

theorem tryRecoverWith_none_run (wd) (os : Os) (e : ErrKind) (fs : FS) :
    tryRecoverWith wd os ⟨e, none⟩ fs = (Except.error e, fs, []) := by
  unfold tryRecoverWith
  by_cases he : e = ErrKind.alreadyExists <;> simp [he]

theorem tryRecoverFuel_none_run (os : Os) (fuel : Nat) (e : ErrKind)
    (fs : FS) :
    tryRecoverFuel os fuel ⟨e, none⟩ fs = (Except.error e, fs, []) := by
  obtain ⟨wd, hwd⟩ := tryRecoverFuel_as_with os fuel
  rw [hwd]
  exact tryRecoverWith_none_run wd os e fs

end Fdir

namespace Fdir

theorem EvP_bind {m : M α} {k : α → M β} {P : Ev → Prop}
    (hm : EvP m P) (hk : ∀ a, EvP (k a) P) : EvP (m >>= k) P := by
  intro fs ev hev
  rw [bind_run, Mbind_run] at hev
  rcases hres : m fs with ⟨r, fs2, evs⟩
  rw [hres] at hev
  cases r with
  | error e =>
      simp at hev
      exact hm fs ev (by rw [hres]; simpa using hev)
  | ok a =>
      simp at hev
      rcases hev with h | h
      · exact hm fs ev (by rw [hres]; simpa using h)
      · exact hk a fs2 ev h

theorem EvP_pure (a : α) (P : Ev → Prop) : EvP (M.pure a) P := by
  intro fs ev hev
  simp at hev

theorem EvP_purePure (a : α) (P : Ev → Prop) : EvP (pure a : M α) P := by
  intro fs ev hev
  simp at hev

theorem EvP_throw (e : ErrKind) (P : Ev → Prop) : EvP (throwM e : M α) P := by
  intro fs ev hev
  simp at hev

theorem EvP_getFS (P : Ev → Prop) : EvP getFS P := by
  intro fs ev hev
  simp at hev

theorem EvP_emit (ev0 : Ev) (P : Ev → Prop) (h : P ev0) : EvP (emitEv ev0) P := by
  intro fs ev hev
  simp at hev
  rw [hev]
  exact h

theorem Pres_bind {m : M α} {k : α → M β} {S : Path → Prop}
    (hm : Pres m S) (hk : ∀ a, Pres (k a) S) : Pres (m >>= k) S := by
  intro fs r hr
  rw [bind_run, Mbind_run]
  rcases hres : m fs with ⟨rr, fs2, evs⟩
  cases rr with
  | error e =>
      simp
      have := hm fs r hr
      rw [hres] at this
      exact this
  | ok a =>
      simp
      have h1 := hm fs r hr
      rw [hres] at h1
      have h2 := hk a fs2 r hr
      rw [h2]
      exact h1

theorem Pres_pure (a : α) (S : Path → Prop) : Pres (M.pure a) S := by
  intro fs r _
  rfl

theorem Pres_purePure (a : α) (S : Path → Prop) : Pres (pure a : M α) S := by
  intro fs r _
  rfl

theorem Pres_throw (e : ErrKind) (S : Path → Prop) : Pres (throwM e : M α) S := by
  intro fs r _
  rfl

theorem Pres_getFS (S : Path → Prop) : Pres getFS S := by
  intro fs r _
  rfl

theorem NormP_bind {m : M α} {k : α → M β}
    (hm : NormP m) (hk : ∀ a, NormP (k a)) : NormP (m >>= k) := by
  intro fs hfs
  rw [bind_run, Mbind_run]
  rcases hres : m fs with ⟨rr, fs2, evs⟩
  have h1 := hm fs hfs
  rw [hres] at h1
  cases rr with
  | error e => simpa using h1
  | ok a =>
      simp
      exact hk a fs2 h1

theorem NormP_pure (a : α) : NormP (M.pure a) := fun _ h => h

theorem NormP_purePure (a : α) : NormP (pure a : M α) := fun _ h => h

theorem NormP_throw (e : ErrKind) : NormP (throwM e : M α) := fun _ h => h

theorem NormP_getFS : NormP getFS := fun _ h => h

theorem DirMono_bind {m : M α} {k : α → M β} {p : Path}
    (hm : DirMono m p) (hk : ∀ a, DirMono (k a) p) : DirMono (m >>= k) p := by
  intro fs hfs
  rw [bind_run, Mbind_run]
  rcases hres : m fs with ⟨rr, fs2, evs⟩
  have h1 := hm fs hfs
  rw [hres] at h1
  cases rr with
  | error e => simpa using h1
  | ok a =>
      simp
      exact hk a fs2 h1

theorem DirMono_pure (a : α) (p : Path) : DirMono (M.pure a) p := fun _ h => h

theorem DirMono_purePure (a : α) (p : Path) : DirMono (pure a : M α) p :=
  fun _ h => h

theorem DirMono_throw (e : ErrKind) (p : Path) : DirMono (throwM e : M α) p :=
  fun _ h => h

theorem DirMono_getFS (p : Path) : DirMono getFS p := fun _ h => h

end Fdir

namespace Fdir

theorem DirMono_of_Pres {m : M α} {S : Path → Prop} (h : Pres m S)
    (q : Path) (hq : S q) : DirMono m q := by
  intro fs hfs
  unfold isDirFS at *
  rw [h fs q hq]
  exact hfs

theorem deleteP_EvP (p : Path) :
    EvP (deleteP p) (fun ev =>
      ev = Ev.evPerm p false ∨ ev = Ev.evRmF p ∨ ev = Ev.evRmTree p) := by
  intro fs ev hev
  rcases hn : lookupFS fs p with _ | n
  · rw [deleteP_run_none fs p hn] at hev
    simp at hev
  · cases n with
    | file c ro =>
        obtain ⟨_, _, hevs⟩ := deleteP_run_file fs p c ro hn
        rcases hevs ev hev with h | h
        · exact Or.inl h
        · exact Or.inr (Or.inl h)
    | dir ro =>
        obtain ⟨_, _, hevs⟩ := deleteP_run_dir fs p ro hn
        rcases hevs ev hev with h | h
        · exact Or.inl h
        · exact Or.inr (Or.inr h)

theorem deleteP_Pres (p : Path) :
    Pres (deleteP p) (fun r => ¬ p <+: r) := by
  intro fs r hr
  have hrne : ¬ r = p := fun hh => hr (hh ▸ List.prefix_refl p)
  rcases hn : lookupFS fs p with _ | n
  · rw [deleteP_run_none fs p hn]
  · cases n with
    | file c ro =>
        obtain ⟨_, hlook, _⟩ := deleteP_run_file fs p c ro hn
        rw [hlook r]
        simp [hrne]
    | dir ro =>
        obtain ⟨_, hlook, _⟩ := deleteP_run_dir fs p ro hn
        rw [hlook r]
        simp [hr]

theorem deleteP_NormP (p : Path) : NormP (deleteP p) := by
  intro fs hfs
  unfold deleteP
  rcases hn : lookupFS fs p with _ | n
  · simp [readOnlyP_run_none fs p hn]
    exact hfs
  · cases n with
    | file c ro =>
        cases ro with
        | false =>
            have hdd : isDirFS fs p = false := by unfold isDirFS; simp [hn]
            simp [readOnlyP_run_file fs p c false hn, hdd,
              removeFileP_run_file fs p c false hn]
            exact normalFSB_removeEntry fs p hfs
        | true =>
            have hex : existsFS fs p = true := by unfold existsFS; simp [hn]
            have h2 : lookupFS (setRO fs p false) p =
                some (Node.file c false) := by
              rw [lookup_setRO]; simp [hn, nodeWithRO]
            have hdd : isDirFS (setRO fs p false) p = false := by
              unfold isDirFS; simp [h2]
            simp [readOnlyP_run_file fs p c true hn,
              setReadonlyP_run_some fs p false hex, hdd,
              removeFileP_run_file (setRO fs p false) p c false h2]
            exact normalFSB_removeEntry _ p (normalFSB_setRO fs p false hfs)
    | dir ro =>
        cases ro with
        | false =>
            have hdd : isDirFS fs p = true := by unfold isDirFS; simp [hn]
            simp [readOnlyP_run_dir fs p false hn, hdd,
              removeDirAllP_run_dir fs p false hn]
            exact normalFSB_removeSubtree fs p hfs
        | true =>
            have hex : existsFS fs p = true := by unfold existsFS; simp [hn]
            have h2 : lookupFS (setRO fs p false) p =
                some (Node.dir false) := by
              rw [lookup_setRO]; simp [hn, nodeWithRO]
            have hdd : isDirFS (setRO fs p false) p = true := by
              unfold isDirFS; simp [h2]
            simp [readOnlyP_run_dir fs p true hn,
              setReadonlyP_run_some fs p false hex, hdd,
              removeDirAllP_run_dir (setRO fs p false) p false h2]
            exact normalFSB_removeSubtree _ p (normalFSB_setRO fs p false hfs)

theorem copyP_EvP (s d : Path) :
    EvP (copyP s d) (fun ev => ev = Ev.evCopyF s d) := by
  intro fs
  exact copyP_events s d fs

theorem copyP_Pres (s d : Path) : Pres (copyP s d) (fun r => ¬ r = d) := by
  intro fs r hr
  rcases hn : lookupFS fs s with _ | n
  · rw [copyP_run_none fs s d hn]
  · cases n with
    | file c ro =>
        rw [copyP_run fs s d c ro hn]
        by_cases hc : parentIsDir fs d = true ∧ isDirFS fs d = false
        · simp [hc, lookup_setFS, hr]
        · simp [hc]
    | dir ro => rw [copyP_run_dir fs s d ro hn]

theorem copyP_NormP (s d : Path) (hd : normalPathB d = true) :
    NormP (copyP s d) := by
  intro fs hfs
  rcases hn : lookupFS fs s with _ | n
  · rw [copyP_run_none fs s d hn]
    exact hfs
  · cases n with
    | file c ro =>
        rw [copyP_run fs s d c ro hn]
        by_cases hc : parentIsDir fs d = true ∧ isDirFS fs d = false
        · simp [hc]
          exact normalFSB_setFS fs d (Node.file c ro) hfs hd
        · simp [hc]
          exact hfs
    | dir ro =>
        rw [copyP_run_dir fs s d ro hn]
        exact hfs

theorem copyP_DirMono (s d q : Path) : DirMono (copyP s d) q := by
  intro fs hfs
  rcases hn : lookupFS fs s with _ | n
  · rw [copyP_run_none fs s d hn]
    exact hfs
  · cases n with
    | file c ro =>
        rw [copyP_run fs s d c ro hn]
        by_cases hc : parentIsDir fs d = true ∧ isDirFS fs d = false
        · rw [if_pos hc]
          by_cases hq : q = d
          · exfalso
            rw [hq] at hfs
            rw [hfs] at hc
            simp at hc
          · unfold isDirFS at hfs ⊢
            simp only
            rw [lookup_setFS]
            simp only [hq, if_false]
            exact hfs
        · rw [if_neg hc]
          exact hfs
    | dir ro =>
        rw [copyP_run_dir fs s d ro hn]
        exact hfs

theorem mkdirSeqC_EvP (l : List Path) :
    EvP (mkdirSeq l) (fun ev => ∃ q, q ∈ l ∧ ev = Ev.evMkdir q) := by
  intro fs
  exact mkdirSeq_events l fs

theorem mkdirSeqC_Pres (l : List Path) :
    Pres (mkdirSeq l) (fun r => ¬ r ∈ l) := by
  intro fs r hr
  exact mkdirSeq_lookup_off l fs r hr

theorem mkdirSeqC_DirMono (l : List Path) (q : Path) :
    DirMono (mkdirSeq l) q := by
  intro fs hfs
  exact mkdirSeq_isDir_mono l fs q hfs

theorem mkdirSeqC_NormP (l : List Path)
    (hl : ∀ q ∈ l, normalPathB q = true) : NormP (mkdirSeq l) := by
  intro fs hfs
  exact mkdirSeq_normal l fs hfs hl

theorem renamePC_EvP (os : Os) (s d : Path) :
    EvP (renameP os s d) (fun ev =>
      ev = Ev.evRenameAtt s d ∨ ev = Ev.evMove s d) := by
  intro fs
  exact renameP_events os s d fs

end Fdir

namespace Fdir

theorem EvP_mono {m : M α} {P Q : Ev → Prop} (h : EvP m P)
    (hpq : ∀ ev, P ev → Q ev) : EvP m Q := by
  intro fs ev hev
  exact hpq ev (h fs ev hev)

theorem Pres_mono {m : M α} {S S' : Path → Prop} (h : Pres m S')
    (hss : ∀ r, S r → S' r) : Pres m S := by
  intro fs r hr
  exact h fs r (hss r hr)

theorem renameTry_EvP (os : Os) (s d : Path) :
    EvP (renameTry os s d) (fun ev =>
      ev = Ev.evRenameAtt s d ∨ ev = Ev.evMove s d) := by
  intro fs ev hev
  rw [renameTry_run] at hev
  by_cases hc : renameCond os fs s d <;> simp [hc] at hev
  · rcases hev with h | h
    · exact Or.inl h
    · exact Or.inr h
  · exact Or.inl hev

theorem renameTry_NormP (os : Os) (s d : Path)
    (hd : normalPathB d = true) : NormP (renameTry os s d) := by
  intro fs hfs
  rw [renameTry_run]
  by_cases hc : renameCond os fs s d <;> simp [hc]
  · exact normalFSB_renameTree fs s d hfs hd
  · exact hfs

theorem tryRecoverWith_copyFile_run (wd : Path → Path → Bool → M Unit)
    (os : Os) (f : FileInfo) (t : Path) :
    tryRecoverWith wd os ⟨ErrKind.alreadyExists, some (Status.copyFile f t)⟩ =
      (do
        remove_file_any t
        copyP f.path t
        M.pure RecOut.recNone) := rfl

theorem tryRecoverWith_moveFile_run (wd : Path → Path → Bool → M Unit)
    (os : Os) (f : FileInfo) (t : Path) :
    tryRecoverWith wd os ⟨ErrKind.alreadyExists, some (Status.moveFile f t)⟩ =
      (do
        remove_file_any t
        let ok ← renameTry os f.path t
        if ok then
          M.pure (RecOut.movedFile f)
        else do
          copyP f.path t
          remove_file_any f.path
          M.pure (RecOut.movedFile ⟨t⟩)) := rfl

theorem tryRecoverWith_notAlready (wd : Path → Path → Bool → M Unit)
    (os : Os) (e : ErrKind) (st : Option Status) (he : ¬ e = ErrKind.alreadyExists) :
    tryRecoverWith wd os ⟨e, st⟩ = throwM e := by
  unfold tryRecoverWith
  simp [he]

theorem recCF_EvP (wd : Path → Path → Bool → M Unit) (os : Os)
    (e : ErrKind) (f : FileInfo) (t : Path) :
    EvP (tryRecoverWith wd os ⟨e, some (Status.copyFile f t)⟩)
      (recCopyEv f.path t) := by
  by_cases he : e = ErrKind.alreadyExists
  · subst he
    rw [tryRecoverWith_copyFile_run]
    refine EvP_bind (EvP_mono (deleteP_EvP t) ?_) (fun _ => ?_)
    · intro ev h
      rcases h with h | h | h <;> simp [h, recCopyEv]
    · refine EvP_bind (EvP_mono (copyP_EvP f.path t) ?_) (fun _ => EvP_pure _ _)
      intro ev h
      simp [h, recCopyEv]
  · rw [tryRecoverWith_notAlready wd os e _ he]
    exact EvP_throw e _

theorem recCF_Pres (wd : Path → Path → Bool → M Unit) (os : Os)
    (e : ErrKind) (f : FileInfo) (t : Path) :
    Pres (tryRecoverWith wd os ⟨e, some (Status.copyFile f t)⟩)
      (fun r => ¬ t <+: r) := by
  by_cases he : e = ErrKind.alreadyExists
  · subst he
    rw [tryRecoverWith_copyFile_run]
    refine Pres_bind (deleteP_Pres t) (fun _ => ?_)
    refine Pres_bind (Pres_mono (copyP_Pres f.path t) ?_) (fun _ => Pres_pure _ _)
    intro r hr hh
    exact hr (hh ▸ List.prefix_refl t)
  · rw [tryRecoverWith_notAlready wd os e _ he]
    exact Pres_throw e _

theorem recCF_NormP (wd : Path → Path → Bool → M Unit) (os : Os)
    (e : ErrKind) (f : FileInfo) (t : Path) (ht : normalPathB t = true) :
    NormP (tryRecoverWith wd os ⟨e, some (Status.copyFile f t)⟩) := by
  by_cases he : e = ErrKind.alreadyExists
  · subst he
    rw [tryRecoverWith_copyFile_run]
    refine NormP_bind (deleteP_NormP t) (fun _ => ?_)
    exact NormP_bind (copyP_NormP f.path t ht) (fun _ => NormP_pure _)
  · rw [tryRecoverWith_notAlready wd os e _ he]
    exact NormP_throw e

theorem recMF_EvP (wd : Path → Path → Bool → M Unit) (os : Os)
    (e : ErrKind) (f : FileInfo) (t : Path) :
    EvP (tryRecoverWith wd os ⟨e, some (Status.moveFile f t)⟩)
      (fun ev => ∀ m : Path, ¬ ev = Ev.evMkdir m) := by
  by_cases he : e = ErrKind.alreadyExists
  · subst he
    rw [tryRecoverWith_moveFile_run]
    refine EvP_bind (EvP_mono (deleteP_EvP t) ?_) (fun _ => ?_)
    · intro ev h
      rcases h with h | h | h <;> simp [h]
    · refine EvP_bind (EvP_mono (renameTry_EvP os f.path t) ?_) (fun b => ?_)
      · intro ev h
        rcases h with h | h <;> simp [h]
      · by_cases hb : b = true
        · subst hb
          simp only [if_true]
          exact EvP_pure _ _
        · have hb' : b = false := by
            cases b
            · rfl
            · exact absurd rfl hb
          subst hb'
          simp only [Bool.false_eq_true, if_false]
          refine EvP_bind (EvP_mono (copyP_EvP f.path t) ?_) (fun _ => ?_)
          · intro ev h
            simp [h]
          · refine EvP_bind (EvP_mono (deleteP_EvP f.path) ?_)
              (fun _ => EvP_pure _ _)
            intro ev h
            rcases h with h | h | h <;> simp [h]
  · rw [tryRecoverWith_notAlready wd os e _ he]
    exact EvP_throw e _

theorem recMF_NormP (wd : Path → Path → Bool → M Unit) (os : Os)
    (e : ErrKind) (f : FileInfo) (t : Path) (ht : normalPathB t = true) :
    NormP (tryRecoverWith wd os ⟨e, some (Status.moveFile f t)⟩) := by
  by_cases he : e = ErrKind.alreadyExists
  · subst he
    rw [tryRecoverWith_moveFile_run]
    refine NormP_bind (deleteP_NormP t) (fun _ => ?_)
    refine NormP_bind (renameTry_NormP os f.path t ht) (fun b => ?_)
    by_cases hb : b = true
    · subst hb
      simp only [if_true]
      exact NormP_pure _
    · have hb' : b = false := by
        cases b
        · rfl
        · exact absurd rfl hb
      subst hb'
      simp only [Bool.false_eq_true, if_false]
      refine NormP_bind (copyP_NormP f.path t ht) (fun _ => ?_)
      exact NormP_bind (deleteP_NormP f.path) (fun _ => NormP_pure _)
  · rw [tryRecoverWith_notAlready wd os e _ he]
    exact NormP_throw e

end Fdir

namespace Fdir

theorem _delete_file_NormP (f : FileInfo) : NormP (_delete_file f) := by
  intro fs hfs
  by_cases hex : existsFS fs f.path
  · rcases hn : lookupFS (setRO fs f.path false) f.path with _ | n
    · rw [lookup_setRO] at hn
      simp at hn
      unfold existsFS at hex
      simp [hn] at hex
    · unfold _delete_file
      cases n with
      | file c ro =>
          simp [setReadonlyP_run_some fs f.path false hex,
            removeFileP_run_file (setRO fs f.path false) f.path c ro hn]
          exact normalFSB_removeEntry _ _ (normalFSB_setRO fs f.path false hfs)
      | dir ro =>
          have hrr : removeFileP f.path (setRO fs f.path false) =
              (Except.error ErrKind.otherErr, setRO fs f.path false, []) := by
            unfold removeFileP
            simp [hn]
          simp [setReadonlyP_run_some fs f.path false hex, hrr]
          exact normalFSB_setRO fs f.path false hfs
  · unfold _delete_file
    simp [setReadonlyP_run_none fs f.path false (by simpa using hex)]
    exact hfs

theorem _delete_file_Pres (f : FileInfo) :
    Pres (_delete_file f) (fun r => ¬ r = f.path) := by
  intro fs r hr
  by_cases hex : existsFS fs f.path
  · rcases hn : lookupFS (setRO fs f.path false) f.path with _ | n
    · rw [lookup_setRO] at hn
      simp at hn
      unfold existsFS at hex
      simp [hn] at hex
    · unfold _delete_file
      cases n with
      | file c ro =>
          simp [setReadonlyP_run_some fs f.path false hex,
            removeFileP_run_file (setRO fs f.path false) f.path c ro hn]
          rw [lookup_removeEntry, lookup_setRO]
          simp [hr]
      | dir ro =>
          have hrr : removeFileP f.path (setRO fs f.path false) =
              (Except.error ErrKind.otherErr, setRO fs f.path false, []) := by
            unfold removeFileP
            simp [hn]
          simp [setReadonlyP_run_some fs f.path false hex, hrr]
          rw [lookup_setRO]
          simp [hr]
  · unfold _delete_file
    simp [setReadonlyP_run_none fs f.path false (by simpa using hex)]

theorem _delete_file_EvP (f : FileInfo) :
    EvP (_delete_file f) (fun ev =>
      ev = Ev.evPerm f.path false ∨ ev = Ev.evRmF f.path) := by
  intro fs
  exact _delete_file_events fs f

end Fdir

namespace Fdir

theorem orRecover_EvP (recover : TRErr → M RecOut) (m : MR α) (P : Ev → Prop)
    (hm : ∀ fs : FS, ∀ ev ∈ (m fs).2.2, P ev)
    (hrec : ∀ fs fs2 : FS, ∀ tr, (m fs).1 = Except.error tr →
      ∀ ev ∈ (recover tr fs2).2.2, P ev) :
    EvP (orRecover recover m) P := by
  intro fs ev hev
  unfold orRecover at hev
  rcases hres : m fs with ⟨r, fs2, evs⟩
  rw [hres] at hev
  cases r with
  | ok a =>
      simp at hev
      exact hm fs ev (by rw [hres]; simpa using hev)
  | error tr =>
      rcases hrec2 : recover tr fs2 with ⟨r2, fs3, evs2⟩
      simp only [hrec2] at hev
      cases r2 with
      | ok b =>
          simp at hev
          rcases hev with h | h
          · exact hm fs ev (by rw [hres]; simpa using h)
          · exact hrec fs fs2 tr (by rw [hres]) ev (by rw [hrec2]; simpa using h)
      | error e2 =>
          simp at hev
          rcases hev with h | h
          · exact hm fs ev (by rw [hres]; simpa using h)
          · exact hrec fs fs2 tr (by rw [hres]) ev (by rw [hrec2]; simpa using h)

theorem orRecover_Pres (recover : TRErr → M RecOut) (m : MR α)
    (S : Path → Prop)
    (hm : ∀ fs : FS, ∀ r : Path, S r → lookupFS (m fs).2.1 r = lookupFS fs r)
    (hrec : ∀ fs fs2 : FS, ∀ tr, (m fs).1 = Except.error tr →
      ∀ r : Path, S r → lookupFS (recover tr fs2).2.1 r = lookupFS fs2 r) :
    Pres (orRecover recover m) S := by
  intro fs r hr
  unfold orRecover
  rcases hres : m fs with ⟨rr, fs2, evs⟩
  have hm1 := hm fs r hr
  rw [hres] at hm1
  cases rr with
  | ok a => simpa using hm1
  | error tr =>
      rcases hrec2 : recover tr fs2 with ⟨r2, fs3, evs2⟩
      have h2 := hrec fs fs2 tr (by rw [hres]) r hr
      rw [hrec2] at h2
      simp only [hrec2]
      cases r2 with
      | ok b =>
          simp
          rw [show lookupFS fs3 r = lookupFS fs2 r from h2]
          simpa using hm1
      | error e2 =>
          simp
          rw [show lookupFS fs3 r = lookupFS fs2 r from h2]
          simpa using hm1

theorem orRecover_NormP (recover : TRErr → M RecOut) (m : MR α)
    (hm : ∀ fs : FS, normalFSB fs = true → normalFSB (m fs).2.1 = true)
    (hrec : ∀ fs fs2 : FS, ∀ tr, (m fs).1 = Except.error tr →
      normalFSB fs2 = true → normalFSB (recover tr fs2).2.1 = true) :
    NormP (orRecover recover m) := by
  intro fs hfs
  unfold orRecover
  rcases hres : m fs with ⟨rr, fs2, evs⟩
  have hm1 := hm fs hfs
  rw [hres] at hm1
  cases rr with
  | ok a => simpa using hm1
  | error tr =>
      rcases hrec2 : recover tr fs2 with ⟨r2, fs3, evs2⟩
      have h2 := hrec fs fs2 tr (by rw [hres]) hm1
      rw [hrec2] at h2
      simp only [hrec2]
      cases r2 with
      | ok b => simpa using h2
      | error e2 => simpa using h2

end Fdir

namespace Fdir

@[simp] theorem tryExistsP_run (p : Path) (fs : FS) :
    tryExistsP p fs = (Except.ok (existsFS fs p), fs, []) := rfl

theorem copy_to_events (f : FileInfo) (p : Path) :
    ∀ fs : FS, ∀ ev ∈ (FileInfo.copy_to f p fs).2.2,
      ∃ name, fileNameR f.path = some name ∧
        ev = Ev.evCopyF f.path (fix_path (p ++ [name])) := by
  intro fs ev hev
  unfold FileInfo.copy_to at hev
  rcases hfn : fileNameR f.path with _ | name
  · rw [hfn] at hev
    simp [push_file_name] at hev
  · rw [hfn] at hev
    rw [show push_file_name (some name) p = Except.ok (p ++ [name]) from rfl] at hev
    unfold FileInfo.copy_new at hev
    by_cases hex : existsFS fs (fix_path (p ++ [name]))
    · simp [hex] at hev
    · simp only [liftE_run, tryExistsP_run] at hev
      simp [hex] at hev
      rcases hc : copyP f.path (fix_path (p ++ [name])) fs with ⟨r2, fs2, evs2⟩
      rw [hc] at hev
      have hevs := copyP_events f.path (fix_path (p ++ [name])) fs
      rw [hc] at hevs
      cases r2 with
      | ok a =>
          simp at hev
          exact ⟨name, rfl, hevs ev (by simpa using hev)⟩
      | error e =>
          simp at hev
          exact ⟨name, rfl, hevs ev (by simpa using hev)⟩

theorem copy_to_off (f : FileInfo) (p : Path) :
    ∀ fs : FS, ∀ r : Path,
      (∀ name, fileNameR f.path = some name →
        ¬ r = fix_path (p ++ [name])) →
      lookupFS (FileInfo.copy_to f p fs).2.1 r = lookupFS fs r := by
  intro fs r hr
  unfold FileInfo.copy_to
  rcases hfn : fileNameR f.path with _ | name
  · simp [push_file_name]
  · rw [show push_file_name (some name) p = Except.ok (p ++ [name]) from rfl]
    unfold FileInfo.copy_new
    by_cases hex : existsFS fs (fix_path (p ++ [name]))
    · simp [hex]
    · simp only [liftE_run, tryExistsP_run]
      simp [hex]
      rcases hc : copyP f.path (fix_path (p ++ [name])) fs with ⟨r2, fs2, evs2⟩
      have hoff := copyP_Pres f.path (fix_path (p ++ [name])) fs r
        (hr name hfn)
      rw [hc] at hoff
      cases r2 <;> simpa using hoff

theorem copy_to_norm (f : FileInfo) (p : Path) :
    ∀ fs : FS, normalFSB fs = true →
      (∀ name, fileNameR f.path = some name →
        normalPathB (fix_path (p ++ [name])) = true) →
      normalFSB (FileInfo.copy_to f p fs).2.1 = true := by
  intro fs hfs hn
  unfold FileInfo.copy_to
  rcases hfn : fileNameR f.path with _ | name
  · simp [push_file_name]
    exact hfs
  · rw [show push_file_name (some name) p = Except.ok (p ++ [name]) from rfl]
    unfold FileInfo.copy_new
    by_cases hex : existsFS fs (fix_path (p ++ [name]))
    · simp [hex]
      exact hfs
    · simp only [liftE_run, tryExistsP_run]
      simp [hex]
      rcases hc : copyP f.path (fix_path (p ++ [name])) fs with ⟨r2, fs2, evs2⟩
      have hnp := copyP_NormP f.path (fix_path (p ++ [name])) (hn name hfn) fs hfs
      rw [hc] at hnp
      cases r2 <;> simpa using hnp

theorem copy_to_errors (f : FileInfo) (p : Path) :
    ∀ fs : FS, ∀ tr, (FileInfo.copy_to f p fs).1 = Except.error tr →
      tr.status = none ∨
      ∃ name, fileNameR f.path = some name ∧
        tr = ⟨ErrKind.alreadyExists,
          some (Status.copyFile f (fix_path (p ++ [name])))⟩ := by
  intro fs tr htr
  unfold FileInfo.copy_to at htr
  rcases hfn : fileNameR f.path with _ | name
  · rw [hfn] at htr
    simp [push_file_name] at htr
    rw [← htr]
    exact Or.inl rfl
  · rw [hfn] at htr
    rw [show push_file_name (some name) p = Except.ok (p ++ [name]) from rfl] at htr
    unfold FileInfo.copy_new at htr
    by_cases hex : existsFS fs (fix_path (p ++ [name]))
    · simp [hex] at htr
      rw [← htr]
      exact Or.inr ⟨name, rfl, rfl⟩
    · simp only [liftE_run, tryExistsP_run] at htr
      simp [hex] at htr
      rcases hc : copyP f.path (fix_path (p ++ [name])) fs with ⟨r2, fs2, evs2⟩
      rw [hc] at htr
      cases r2 with
      | ok a => simp at htr
      | error e =>
          simp at htr
          rw [← htr]
          exact Or.inl rfl

end Fdir

namespace Fdir

theorem directoriesP_run (d : Path) (fs : FS) :
    directoriesP d fs =
      match lookupFS fs d with
      | some (Node.dir _) =>
          (Except.ok ((childPaths fs d).filter (fun p => isDirFS fs p)), fs, [])
      | some (Node.file _ _) => (Except.error ErrKind.otherErr, fs, [])
      | none => (Except.error ErrKind.notFound, fs, []) := by
  unfold directoriesP
  rcases h : lookupFS fs d with _ | n
  · simp [h]
  · cases n <;> simp [h]

theorem filesP_run (d : Path) (fs : FS) :
    filesP d fs =
      match lookupFS fs d with
      | some (Node.dir _) =>
          (Except.ok ((childPaths fs d).filter (fun p => isFileFS fs p)), fs, [])
      | some (Node.file _ _) => (Except.error ErrKind.otherErr, fs, [])
      | none => (Except.error ErrKind.notFound, fs, []) := by
  unfold filesP
  rcases h : lookupFS fs d with _ | n
  · simp [h]
  · cases n <;> simp [h]

/-- The per-file copy step of the walk (a `copy_to` guarded by the
recovery) emits no directory-creation event: a `copy_to` only copies, and
recovery of its conflicts only clears and re-copies the one target. -/
theorem stepC_no_mkdir (os : Os) (n : Nat) (fp p : Path) :
    EvP (orRecover (tryRecoverFuel os n) (FileInfo.copy_to ⟨fp⟩ p))
      (fun ev => ∀ m : Path, ¬ ev = Ev.evMkdir m) := by
  obtain ⟨wd, hwd⟩ := tryRecoverFuel_as_with os n
  rw [hwd]
  refine orRecover_EvP _ _ _ ?_ ?_
  · intro fs ev hev m
    obtain ⟨name, _, hev2⟩ := copy_to_events ⟨fp⟩ p fs ev hev
    simp [hev2]
  · intro fs fs2 tr htr ev hev m
    rcases copy_to_errors ⟨fp⟩ p fs tr htr with hst | ⟨name, _, htr2⟩
    · rcases tr with ⟨e, st⟩
      simp at hst
      subst hst
      rw [tryRecoverWith_none_run] at hev
      simp at hev
    · subst htr2
      have hrec := recCF_EvP wd os ErrKind.alreadyExists ⟨fp⟩
        (fix_path (p ++ [name])) fs2 ev hev
      intro heq
      rw [heq] at hrec
      simp [recCopyEv] at hrec

/-- The file loop of the copy-mode walk emits no directory-creation
event. -/
theorem fileLoopC_no_mkdir (os : Os) (n : Nat) (p : Path) (fls : List Path) :
    EvP (fileLoopWith (tryRecoverFuel os n) os true p fls)
      (fun ev => ∀ m : Path, ¬ ev = Ev.evMkdir m) := by
  induction fls with
  | nil => exact EvP_pure _ _
  | cons fp rest ih =>
      simp only [fileLoopWith, if_true]
      exact EvP_bind (stepC_no_mkdir os n fp p) (fun _ => ih)

end Fdir

namespace Fdir

/-- Every directory-creation event of the copy-mode queue loop targets an
ancestor of the rebasing of a source-subtree directory, provided every
queued path lies under the root. -/
theorem writeDirGoC_mkdir_shape (os : Os) (n : Nat) (root dest : Path) :
    ∀ fuel : Nat, ∀ queue : List Path, (∀ q ∈ queue, root <+: q) →
      ∀ fs : FS,
        ∀ ev ∈ (writeDirGoWith (tryRecoverFuel os n) os fuel root dest
            true queue fs).2.2,
          ∀ m : Path, ev = Ev.evMkdir m → mkdirShape root dest m := by
  intro fuel
  induction fuel with
  | zero =>
      intro queue hq fs ev hev
      by_cases h : queue = [] <;> simp [writeDirGoWith, h] at hev
  | succ fuel ih =>
      intro queue hq fs ev hev
      cases queue with
      | nil => simp [writeDirGoWith] at hev
      | cons d rest =>
          simp only [writeDirGoWith, bind_run, Mbind_run] at hev
          rw [directoriesP_run] at hev
          rcases hL : lookupFS fs d with _ | nd
          · rw [hL] at hev
            simp at hev
          · cases nd with
            | file c ro =>
                rw [hL] at hev
                simp at hev
            | dir ro =>
                rw [hL] at hev
                simp only [getFS_run] at hev
                have hroot : root <+: d := hq d (List.mem_cons_self d rest)
                have hqs : ∀ q ∈ rest ++
                    List.filter (fun p => isDirFS fs p) (childPaths fs d),
                    root <+: q := by
                  intro q hmem
                  rcases List.mem_append.mp hmem with h | h
                  · exact hq q (List.mem_cons_of_mem d h)
                  · have hc := List.mem_of_mem_filter h
                    exact hroot.trans (childPaths_mem fs d q hc).1
                simp only [List.nil_append] at hev
                by_cases hdir : isDirFS fs (replace d root dest) = true
                · simp only [hdir, not_true_eq_false, Bool.false_eq_true,
                    if_false, bind_run, Mbind_run, pure_run] at hev
                  rw [filesP_run, hL] at hev
                  simp only at hev
                  rcases hfl : fileLoopWith (tryRecoverFuel os n) os true
                      (replace d root dest)
                      (List.filter (fun p => isFileFS fs p) (childPaths fs d))
                      fs with ⟨r2, fs2, e2⟩
                  rw [hfl] at hev
                  cases r2 with
                  | error e =>
                      simp at hev
                      intro m hm
                      exact absurd hm (fileLoopC_no_mkdir os n _ _ fs ev
                        (by rw [hfl]; simpa using hev) m)
                  | ok a =>
                      simp at hev
                      rcases hev with h | h
                      · intro m hm
                        exact absurd hm (fileLoopC_no_mkdir os n _ _ fs ev
                          (by rw [hfl]; simpa using h) m)
                      · exact ih _ hqs fs2 ev h
                · simp only [hdir, not_false_eq_true, Bool.false_eq_true,
                    if_true, bind_run, Mbind_run] at hev
                  simp only [createDirAllP] at hev
                  rcases hmk : mkdirSeq (prefixesOf (replace d root dest)) fs
                    with ⟨r1, fs1, e1⟩
                  rw [hmk] at hev
                  have hmk_shape : ∀ ev2 ∈ e1, ∀ m : Path,
                      ev2 = Ev.evMkdir m → mkdirShape root dest m := by
                    intro ev2 hm2 m hm3
                    obtain ⟨q, hql, hqe⟩ := mkdirSeq_events
                      (prefixesOf (replace d root dest)) fs ev2
                      (by rw [hmk]; simpa using hm2)
                    rw [hm3] at hqe
                    have hqm : m = q := by
                      cases hqe
                      rfl
                    subst hqm
                    exact ⟨d, hroot, prefix_of_mem_prefixesOf _ _ hql⟩
                  cases r1 with
                  | error e =>
                      simp at hev
                      exact hmk_shape ev hev
                  | ok a =>
                      simp only at hev
                      rw [filesP_run] at hev
                      rcases hL2 : lookupFS fs1 d with _ | nd2
                      · rw [hL2] at hev
                        simp at hev
                        exact hmk_shape ev hev
                      · cases nd2 with
                        | file c2 ro2 =>
                            rw [hL2] at hev
                            simp at hev
                            exact hmk_shape ev hev
                        | dir ro2 =>
                            rw [hL2] at hev
                            simp only at hev
                            rcases hfl : fileLoopWith (tryRecoverFuel os n) os
                                true (replace d root dest)
                                (List.filter (fun p => isFileFS fs1 p)
                                  (childPaths fs1 d)) fs1
                              with ⟨r2, fs2, e2⟩
                            rw [hfl] at hev
                            cases r2 with
                            | error e =>
                                simp at hev
                                rcases hev with h | h
                                · exact hmk_shape ev h
                                · intro m hm
                                  exact absurd hm (fileLoopC_no_mkdir os n _ _
                                    fs1 ev (by rw [hfl]; simpa using h) m)
                            | ok a2 =>
                                simp at hev
                                rcases hev with h | h | h
                                · exact hmk_shape ev h
                                · intro m hm
                                  exact absurd hm (fileLoopC_no_mkdir os n _ _
                                    fs1 ev (by rw [hfl]; simpa using h) m)
                                · exact ih _ hqs fs2 ev h

end Fdir

namespace Fdir

/-- Every directory-creation event of a copy-mode `_write_dir` targets an
ancestor of the rebasing of a source-subtree directory. -/
theorem writeDirFullC_mkdir_shape (os : Os) (fuel n : Nat) (root dest : Path)
    (fs : FS) :
    ∀ ev ∈ (writeDirFullWith (tryRecoverFuel os n) os fuel root dest
        true fs).2.2,
      ∀ m : Path, ev = Ev.evMkdir m → mkdirShape root dest m := by
  intro ev hev
  unfold writeDirFullWith at hev
  simp only [bind_run, Mbind_run] at hev
  rcases hgo : writeDirGoWith (tryRecoverFuel os n) os fuel root dest true
      [root] fs with ⟨r, fs2, evs⟩
  rw [hgo] at hev
  have hq : ∀ q ∈ [root], root <+: q := by
    intro q hmem
    simp at hmem
    subst hmem
    exact List.prefix_refl _
  cases r with
  | error e =>
      simp at hev
      exact writeDirGoC_mkdir_shape os n root dest fuel [root] hq fs ev
        (by rw [hgo]; simpa using hev)
  | ok a =>
      simp at hev
      exact writeDirGoC_mkdir_shape os n root dest fuel [root] hq fs ev
        (by rw [hgo]; simpa using hev)

/-- C7, refuting the original claim: the copy-mode walk removes the
existing destination-side directory `/d/a` even though the only directory
of the source subtree in `fsC7` is `/s` itself, whose mirror is `/d`
(with sole ancestor `/`), so `/d/a` lies outside the mirror set. -/
theorem C7_counterexample :
    Ev.evRmTree ["/", "d", "a"] ∈
      (_write_dir osT 2 ⟨["/", "s"]⟩ ["/", "d"] true fsC7).2.2 ∧
    isDirFS fsC7 ["/", "d", "a"] = true ∧
    (∀ q : Path, isDirFS fsC7 q = true → ["/", "s"] <+: q → q = ["/", "s"]) ∧
    ¬ ["/", "d", "a"] <+: replace ["/", "s"] ["/", "s"] ["/", "d"] := by
  refine ⟨by decide, by decide, ?_, by decide⟩
  intro q hdir hpre
  unfold isDirFS at hdir
  rcases hL : lookupFS fsC7 q with _ | nq
  · rw [hL] at hdir
    simp at hdir
  · cases nq with
    | file c ro =>
        rw [hL] at hdir
        simp at hdir
    | dir ro =>
        have hm := lookupFS_mem fsC7 q _ hL
        unfold fsC7 at hm
        simp only [List.mem_cons, List.not_mem_nil, or_false] at hm
        rcases hm with h | h | h | h | h <;>
          rw [Prod.mk.injEq] at h
        · exact absurd (h.1 ▸ hpre) (by decide)
        · exact h.1
        · exact absurd h.2 (by simp)
        · exact absurd (h.1 ▸ hpre) (by decide)
        · exact absurd (h.1 ▸ hpre) (by decide)

end Fdir

namespace Fdir

theorem not_root_prefix_target (root dest x : Path) (hf1 : ¬ root <+: dest)
    (hf2 : ¬ dest <+: root) (r : Path) (hr : root <+: r) :
    ¬ r = dest ++ x ∧ ¬ (dest ++ x) <+: r := by
  constructor
  · intro heq
    subst heq
    exact not_root_prefix_of_prefix_destext root dest hf1 hf2 (dest ++ x) x
      (List.prefix_refl _) hr
  · intro hpre
    rcases List.prefix_or_prefix_of_prefix hr hpre with h | h
    · exact not_root_prefix_of_prefix_destext root dest hf1 hf2 (dest ++ x) x
        (List.prefix_refl _) h
    · exact hf2 ((List.prefix_append dest x).trans h)

theorem copy_target_eq (d0 : Path) (name : String)
    (hnp : normalPathB d0 = true) (hnn : normalComp name = true) :
    fix_path (d0 ++ [name]) = d0 ++ [name] := by
  apply fix_path_normal
  refine normalPathB_append _ _ hnp ?_
  simp [normalPathB, hnn]

/-- The per-file copy step leaves every entry under the source root
untouched, when the popped directory's destination lies under `dest` and
the roots do not overlap. -/
theorem stepC_off (os : Os) (n : Nat) (fp d0 root dest x : Path)
    (hd0 : d0 = dest ++ x) (hnp : normalPathB d0 = true)
    (hfp : normalPathB fp = true)
    (hf1 : ¬ root <+: dest) (hf2 : ¬ dest <+: root) :
    ∀ fs : FS, ∀ r : Path, root <+: r →
      lookupFS ((orRecover (tryRecoverFuel os n)
        (FileInfo.copy_to ⟨fp⟩ d0)) fs).2.1 r = lookupFS fs r := by
  intro fs r hr
  obtain ⟨wd, hwd⟩ := tryRecoverFuel_as_with os n
  rw [hwd]
  refine orRecover_Pres _ _ (fun r => root <+: r) ?_ ?_ fs r hr
  · intro fs2 r2 hr2
    refine copy_to_off ⟨fp⟩ d0 fs2 r2 ?_
    intro name hname
    have hnn := fileNameR_normal fp name hfp hname
    rw [copy_target_eq d0 name hnp hnn, hd0, List.append_assoc]
    exact (not_root_prefix_target root dest (x ++ [name]) hf1 hf2 r2 hr2).1
  · intro fs2 fs3 tr htr r2 hr2
    rcases copy_to_errors ⟨fp⟩ d0 fs2 tr htr with hst | ⟨name, hname, htr2⟩
    · rcases tr with ⟨e, st⟩
      simp at hst
      subst hst
      rw [tryRecoverWith_none_run]
    · subst htr2
      have hnn := fileNameR_normal fp name hfp hname
      refine recCF_Pres wd os ErrKind.alreadyExists ⟨fp⟩ _ fs3 r2 ?_
      rw [copy_target_eq d0 name hnp hnn, hd0, List.append_assoc]
      exact (not_root_prefix_target root dest (x ++ [name]) hf1 hf2 r2 hr2).2

/-- The per-file copy step preserves key normality of the filesystem. -/
theorem stepC_norm (os : Os) (n : Nat) (fp d0 : Path)
    (hnp : normalPathB d0 = true) (hfp : normalPathB fp = true) :
    ∀ fs : FS, normalFSB fs = true →
      normalFSB ((orRecover (tryRecoverFuel os n)
        (FileInfo.copy_to ⟨fp⟩ d0)) fs).2.1 = true := by
  intro fs hfs
  obtain ⟨wd, hwd⟩ := tryRecoverFuel_as_with os n
  rw [hwd]
  refine orRecover_NormP _ _ ?_ ?_ fs hfs
  · intro fs2 hfs2
    refine copy_to_norm ⟨fp⟩ d0 fs2 hfs2 ?_
    intro name hname
    have hnn := fileNameR_normal fp name hfp hname
    rw [copy_target_eq d0 name hnp hnn]
    refine normalPathB_append _ _ hnp ?_
    simp [normalPathB, hnn]
  · intro fs2 fs3 tr htr hfs3
    rcases copy_to_errors ⟨fp⟩ d0 fs2 tr htr with hst | ⟨name, hname, htr2⟩
    · rcases tr with ⟨e, st⟩
      simp at hst
      subst hst
      rw [tryRecoverWith_none_run]
      simpa using hfs3
    · subst htr2
      have hnn := fileNameR_normal fp name hfp hname
      refine recCF_NormP wd os ErrKind.alreadyExists ⟨fp⟩ _ ?_ fs3 hfs3
      rw [copy_target_eq d0 name hnp hnn]
      refine normalPathB_append _ _ hnp ?_
      simp [normalPathB, hnn]

/-- The copy-mode file loop leaves the source subtree untouched and
preserves key normality. -/
theorem fileLoopC_off_norm (os : Os) (n : Nat) (d0 root dest x : Path)
    (hd0 : d0 = dest ++ x) (hnp : normalPathB d0 = true)
    (hf1 : ¬ root <+: dest) (hf2 : ¬ dest <+: root) :
    ∀ fls : List Path, (∀ fp ∈ fls, normalPathB fp = true) →
      ∀ fs : FS, normalFSB fs = true →
        normalFSB ((fileLoopWith (tryRecoverFuel os n) os true d0 fls)
            fs).2.1 = true ∧
        ∀ r : Path, root <+: r →
          lookupFS ((fileLoopWith (tryRecoverFuel os n) os true d0 fls)
            fs).2.1 r = lookupFS fs r := by
  intro fls
  induction fls with
  | nil =>
      intro _ fs hfs
      exact ⟨by simpa [fileLoopWith] using hfs, by simp [fileLoopWith]⟩
  | cons fp rest ih =>
      intro hall fs hfs
      have hfp := hall fp (List.mem_cons_self fp rest)
      have hrest := fun q hq => hall q (List.mem_cons_of_mem fp hq)
      simp only [fileLoopWith, if_true, bind_run, Mbind_run]
      rcases hstep : orRecover (tryRecoverFuel os n)
          (FileInfo.copy_to ⟨fp⟩ d0) fs with ⟨r1, fs1, e1⟩
      have hn1 : normalFSB fs1 = true := by
        have := stepC_norm os n fp d0 hnp hfp fs hfs
        rw [hstep] at this
        exact this
      have hoff1 : ∀ r : Path, root <+: r →
          lookupFS fs1 r = lookupFS fs r := by
        intro r hrr
        have := stepC_off os n fp d0 root dest x hd0 hnp hfp hf1 hf2 fs r hrr
        rw [hstep] at this
        exact this
      cases r1 with
      | error e => exact ⟨hn1, fun r hrr => hoff1 r hrr⟩
      | ok a =>
          obtain ⟨hn2, hoff2⟩ := ih hrest fs1 hn1
          exact ⟨hn2, fun r hrr => (hoff2 r hrr).trans (hoff1 r hrr)⟩

end Fdir

namespace Fdir

end Fdir

namespace Fdir

theorem copy_new_conflict_iff (f : FileInfo) (p : Path) (fs : FS) :
    (FileInfo.copy_new f p fs).1 =
        Except.error ⟨ErrKind.alreadyExists,
          some (Status.copyFile f (fix_path p))⟩ ↔
      existsFS fs (fix_path p) = true := by
  unfold FileInfo.copy_new
  by_cases hex : existsFS fs (fix_path p)
  · simp [hex]
  · simp only [bindMR_run, MRbind_run, liftE_run, tryExistsP_run]
    simp [hex]
    rcases hc : copyP f.path (fix_path p) fs with ⟨r2, fs2, evs2⟩
    cases r2 with
    | ok a => simp
    | error e => simp

theorem move_new_conflict_iff (os : Os) (f : FileInfo) (p : Path) (fs : FS) :
    (FileInfo.move_new os f p fs).1 =
        Except.error ⟨ErrKind.alreadyExists,
          some (Status.moveFile f (fix_path p))⟩ ↔
      existsFS fs (fix_path p) = true := by
  constructor
  · intro h
    by_cases hex : existsFS fs (fix_path p) = true
    · exact hex
    · exfalso
      have hexf : existsFS fs (fix_path p) = false := by
        cases hxx : existsFS fs (fix_path p)
        · rfl
        · exact absurd hxx hex
      rcases hpar : rustParent (fix_path p) with _ | par
      · rw [move_new_noparent os f p fs hexf hpar] at h
        simp at h
      · rcases hmk : createDirAllP par fs with ⟨r0, fs1, evs1⟩
        cases r0 with
        | error e =>
            rw [move_new_cderr os f p fs par e fs1 evs1 hexf hpar hmk] at h
            simp at h
        | ok a =>
            cases a
            rw [move_new_run os f p fs hexf par hpar fs1 evs1 hmk] at h
            by_cases hsr : is_same_root f.path (fix_path p) = true
            · rw [if_pos hsr] at h
              rcases hrp : renameP os f.path (fix_path p) fs1
                with ⟨r2, fs2, evs2⟩
              rw [hrp] at h
              cases r2 with
              | ok u => simp at h
              | error e => simp at h
            · rw [if_neg hsr] at h
              rcases hcp : copyP f.path (fix_path p) fs1 with ⟨r2, fs2, evs2⟩
              rw [hcp] at h
              cases r2 with
              | error e => simp at h
              | ok u =>
                  simp only at h
                  rcases hdf : _delete_file f fs2 with ⟨r3, fs3, evs3⟩
                  rw [hdf] at h
                  cases r3 with
                  | ok v => simp at h
                  | error e => simp at h
  · intro hex
    rw [move_new_conflict os f p fs hex]

end Fdir

namespace Fdir

theorem dir_copy_new_conflict_iff (os : Os) (fuel : Nat)
    (d : DirectoryInfo) (p : Path) (fs : FS) :
    (DirectoryInfo.copy_new os fuel d p fs).1 =
        Except.error ⟨ErrKind.alreadyExists,
          some (Status.copyDirectory d (fix_path p))⟩ ↔
      existsFS fs (fix_path p) = true := by
  unfold DirectoryInfo.copy_new
  by_cases hex : existsFS fs (fix_path p)
  · simp [hex]
  · simp only [bindMR_run, MRbind_run, liftE_run, tryExistsP_run]
    simp [hex]
    rcases hw : _write_dir os fuel d (fix_path p) true fs with ⟨r2, fs2, evs2⟩
    cases r2 with
    | ok a => simp
    | error e => simp

theorem dir_move_new_conflict_iff (os : Os) (fuel : Nat)
    (d : DirectoryInfo) (p : Path) (fs : FS) :
    (DirectoryInfo.move_new os fuel d p fs).1 =
        Except.error ⟨ErrKind.alreadyExists,
          some (Status.moveDirectory d (fix_path p))⟩ ↔
      existsFS fs (fix_path p) = true := by
  unfold DirectoryInfo.move_new
  by_cases hex : existsFS fs (fix_path p)
  · simp [hex]
  · simp only [bindMR_run, MRbind_run, liftE_run, tryExistsP_run]
    simp [hex]
    rcases hrt : renameTry os d.path (fix_path p) fs with ⟨r1, fs1, evs1⟩
    cases r1 with
    | error e => simp
    | ok b =>
        simp only
        cases b with
        | true => simp
        | false =>
            simp only [Bool.not_false, if_true, bindMR_run, MRbind_run,
              liftE_run]
            rcases hw : _write_dir os fuel d (fix_path p) false fs1
              with ⟨r2, fs2, evs2⟩
            cases r2 with
            | ok a => simp
            | error e => simp

theorem copy_new_off (f : FileInfo) (p : Path) (fs : FS) (r : Path)
    (hr : ¬ r = fix_path p) :
    lookupFS ((FileInfo.copy_new f p) fs).2.1 r = lookupFS fs r := by
  unfold FileInfo.copy_new
  by_cases hex : existsFS fs (fix_path p)
  · simp [hex]
  · simp only [bindMR_run, MRbind_run, liftE_run, tryExistsP_run]
    simp [hex]
    rcases hc : copyP f.path (fix_path p) fs with ⟨r2, fs2, evs2⟩
    have hpres := copyP_Pres f.path (fix_path p) fs r hr
    rw [hc] at hpres
    cases r2 with
    | ok a => simpa using hpres
    | error e => simpa using hpres

theorem copy_new_run_noconf (f : FileInfo) (p : Path) (fs : FS)
    (hex : existsFS fs (fix_path p) = false) :
    FileInfo.copy_new f p fs =
      (match copyP f.path (fix_path p) fs with
       | (Except.ok a, fs2, evs) => (Except.ok a, fs2, evs)
       | (Except.error e, fs2, evs) =>
           (Except.error ⟨e, none⟩, fs2, evs)) := by
  unfold FileInfo.copy_new
  simp only [bindMR_run, MRbind_run, liftE_run, tryExistsP_run]
  rcases hc : copyP f.path (fix_path p) fs with ⟨r2, fs2, evs2⟩
  cases r2 <;> simp [hex, hc]

theorem copy_new_ok_effect (f : FileInfo) (p : Path) (fs : FS)
    (hok : (FileInfo.copy_new f p fs).1 = Except.ok ()) :
    ∃ c : List Nat, ∃ ro : Bool, lookupFS fs f.path = some (Node.file c ro) ∧
      lookupFS (FileInfo.copy_new f p fs).2.1 (fix_path p) =
        some (Node.file c ro) := by
  by_cases hex : existsFS fs (fix_path p)
  · exfalso
    unfold FileInfo.copy_new at hok
    simp [hex] at hok
  · have hexf : existsFS fs (fix_path p) = false := by
      cases hxx : existsFS fs (fix_path p)
      · rfl
      · exact absurd hxx hex
    rw [copy_new_run_noconf f p fs hexf] at hok ⊢
    rcases hL : lookupFS fs f.path with _ | n
    · rw [copyP_run_none fs f.path (fix_path p) hL] at hok
      simp at hok
    · cases n with
      | dir ro =>
          rw [copyP_run_dir fs f.path (fix_path p) ro hL] at hok
          simp at hok
      | file c ro =>
          rw [copyP_run fs f.path (fix_path p) c ro hL] at hok ⊢
          by_cases hc : parentIsDir fs (fix_path p) = true ∧
              isDirFS fs (fix_path p) = false
          · rw [if_pos hc]
            refine ⟨c, ro, rfl, ?_⟩
            show lookupFS (setFS fs (fix_path p) (Node.file c ro))
              (fix_path p) = some (Node.file c ro)
            rw [lookup_setFS]
            simp
          · rw [if_neg hc] at hok
            simp at hok

end Fdir

namespace Fdir

end Fdir

namespace Fdir

theorem mkdirSeq_lookup_some (l : List Path) (fs : FS) (r : Path) (n : Node)
    (hr : lookupFS fs r = some n) :
    lookupFS (mkdirSeq l fs).2.1 r = some n := by
  induction l generalizing fs with
  | nil => simpa [mkdirSeq] using hr
  | cons q rest ih =>
      rw [mkdirSeq_cons_run]
      rcases hn : lookupFS fs q with _ | n2
      · simp only
        refine ih (setFS fs q (Node.dir false)) ?_
        rw [lookup_setFS]
        have hrq : ¬ r = q := by
          intro hh
          rw [hh, hn] at hr
          exact (Option.noConfusion hr)
        simp [hrq, hr]
      · cases n2 with
        | file c ro => simpa using hr
        | dir ro => exact ih fs hr

theorem is_same_root_self (p : Path) : is_same_root p p = true := by
  unfold is_same_root popAll
  cases p with
  | nil => rfl
  | cons x xs => simp [List.isPrefixOf_iff_prefix]

theorem prefix_false_of_not (p q : Path) (h : ¬ p <+: q) :
    p.isPrefixOf q = false := by
  cases hx : p.isPrefixOf q
  · rfl
  · exact absurd (List.isPrefixOf_iff_prefix.mp hx) h

theorem rename_run (os : Os) (f : FileInfo) (name : String) (fs : FS) :
    FileInfo.rename os f name fs =
      (if renameCond os fs f.path (renTarget f.path name) then
        (Except.ok (⟨renTarget f.path name⟩ : FileInfo),
          renameTree fs f.path (renTarget f.path name),
          [Ev.evRenameAtt f.path (renTarget f.path name),
           Ev.evMove f.path (renTarget f.path name)])
      else (Except.error ErrKind.otherErr, fs,
        [Ev.evRenameAtt f.path (renTarget f.path name)])) := by
  unfold FileInfo.rename renTarget
  rcases hext : pathExt f.path with _ | ext
  · simp only [bind_run, Mbind_run, renameP_run]
    by_cases hc : renameCond os fs f.path (setFileNameR f.path name)
    · simp [hc]
    · simp [hc]
  · simp only [bind_run, Mbind_run, renameP_run]
    by_cases hc : renameCond os fs f.path
        (setExtPath (setFileNameR f.path name) ext)
    · simp [hc]
    · simp [hc]

/-- C3 (amended): a successful entity rename and a successful
`move_new` both leave the stored path equal to the on-disk location of
the moved object — but the MoveFile conflict recovery returns the entity
handle unchanged even in the branch where the atomic rename succeeds, so
there the stored path keeps pointing at the now-vacated source. -/
theorem C3_repoint_sync (os : Os) (fuel : Nat) (f : FileInfo) (name : String)
    (q t : Path) (fs fs1 : FS) (o : Node) :
    (∀ g : FileInfo, (FileInfo.rename os f name fs).1 = Except.ok g →
      ¬ g.path <+: f.path →
      lookupFS (FileInfo.rename os f name fs).2.1 g.path =
        lookupFS fs f.path ∧
      lookupFS (FileInfo.rename os f name fs).2.1 f.path = none) ∧
    (∀ g : FileInfo, (FileInfo.move_new os f q fs).1 = Except.ok g →
      lookupFS fs f.path = some o → ¬ fix_path q <+: f.path →
      g.path = fix_path q ∧
      lookupFS (FileInfo.move_new os f q fs).2.1 (fix_path q) = some o ∧
      lookupFS (FileInfo.move_new os f q fs).2.1 f.path = none) ∧
    (∀ evs1 : List Ev, deleteP t fs = (Except.ok (), fs1, evs1) →
      renameCond os fs1 f.path t → ¬ t <+: f.path →
      (tryRecoverFuel os fuel ⟨ErrKind.alreadyExists,
          some (Status.moveFile f t)⟩ fs).1 =
        Except.ok (RecOut.movedFile f) ∧
      lookupFS (tryRecoverFuel os fuel ⟨ErrKind.alreadyExists,
          some (Status.moveFile f t)⟩ fs).2.1 f.path = none) := by
  refine ⟨?_, ?_, ?_⟩
  · intro g hok hnd
    rw [rename_run] at hok ⊢
    by_cases hc : renameCond os fs f.path (renTarget f.path name)
    · rw [if_pos hc] at hok ⊢
      have hg : g = ⟨renTarget f.path name⟩ := by simpa using hok.symm
      subst hg
      simp only at hnd ⊢
      have hns : f.path.isPrefixOf (renTarget f.path name) = false :=
        prefix_false_of_not _ _ (fun hh =>
          hc.2.1 (List.isPrefixOf_iff_prefix.mpr hh))
      exact ⟨lookup_renameTree_dst fs f.path _ hns,
        lookup_renameTree_src_gone fs f.path _ hns
          (prefix_false_of_not _ _ hnd)⟩
    · rw [if_neg hc] at hok
      simp at hok
  · intro g hok hsrc hnd
    by_cases hex : existsFS fs (fix_path q) = true
    · rw [move_new_conflict os f q fs hex] at hok
      simp at hok
    · have hexf : existsFS fs (fix_path q) = false := by
        cases hxx : existsFS fs (fix_path q)
        · rfl
        · exact absurd hxx hex
      rcases hpar : rustParent (fix_path q) with _ | par
      · rw [move_new_noparent os f q fs hexf hpar] at hok
        simp at hok
      · rcases hmk : createDirAllP par fs with ⟨r0, fsm, evsm⟩
        cases r0 with
        | error e =>
            rw [move_new_cderr os f q fs par e fsm evsm hexf hpar hmk] at hok
            simp at hok
        | ok a =>
            cases a
            have hrun := move_new_run os f q fs hexf par hpar fsm evsm hmk
            rw [hrun] at hok ⊢
            have hsrc1 : lookupFS fsm f.path = some o := by
              have hpr := mkdirSeq_lookup_some (prefixesOf par) fs f.path o
                hsrc
              unfold createDirAllP at hmk
              rw [hmk] at hpr
              exact hpr
            by_cases hsr : is_same_root f.path (fix_path q) = true
            · rw [if_pos hsr] at hok ⊢
              rcases hrp : renameP os f.path (fix_path q) fsm
                with ⟨r1, fsr, evr⟩
              rw [hrp] at hok
              rw [renameP_run] at hrp
              by_cases hc : renameCond os fsm f.path (fix_path q)
              · rw [if_pos hc, Prod.mk.injEq] at hrp
                obtain ⟨h1, hrp2⟩ := hrp
                rw [Prod.mk.injEq] at hrp2
                obtain ⟨h2, h3⟩ := hrp2
                subst h1
                subst h2
                simp only at hok ⊢
                have hg : g = ⟨fix_path q⟩ := by simpa using hok.symm
                subst hg
                have hns : f.path.isPrefixOf (fix_path q) = false :=
                  prefix_false_of_not _ _ (fun hh =>
                    hc.2.1 (List.isPrefixOf_iff_prefix.mpr hh))
                refine ⟨rfl, ?_, ?_⟩
                · rw [lookup_renameTree_dst fsm f.path _ hns]
                  exact hsrc1
                · exact lookup_renameTree_src_gone fsm f.path _ hns
                    (prefix_false_of_not _ _ hnd)
              · rw [if_neg hc, Prod.mk.injEq] at hrp
                obtain ⟨h1, hrp2⟩ := hrp
                subst h1
                simp at hok
            · rw [if_neg hsr] at hok ⊢
              have hne : ¬ f.path = fix_path q := by
                intro hh
                rw [hh] at hsr
                exact hsr (is_same_root_self (fix_path q))
              cases o with
              | dir ro =>
                  rw [copyP_run_dir fsm f.path (fix_path q) ro hsrc1]
                    at hok
                  simp at hok
              | file c ro =>
                  rw [copyP_run fsm f.path (fix_path q) c ro hsrc1] at hok ⊢
                  by_cases hpd : parentIsDir fsm (fix_path q) = true ∧
                      isDirFS fsm (fix_path q) = false
                  · rw [if_pos hpd] at hok ⊢
                    simp only at hok ⊢
                    have hfsc : lookupFS
                        (setFS fsm (fix_path q) (Node.file c ro)) f.path =
                        some (Node.file c ro) := by
                      rw [lookup_setFS]
                      simp [hne, hsrc1]
                    obtain ⟨hd1, hd2, hd3⟩ := _delete_file_run
                      (setFS fsm (fix_path q) (Node.file c ro)) f c ro hfsc
                    rcases hdf : _delete_file f
                        (setFS fsm (fix_path q) (Node.file c ro))
                      with ⟨r2, fsd, evd⟩
                    rw [hdf] at hd1 hd2 hok
                    cases r2 with
                    | error e => exact absurd hd1 (by simp)
                    | ok u =>
                        simp only at hok ⊢
                        have hg : g = ⟨fix_path q⟩ := by simpa using hok.symm
                        subst hg
                        refine ⟨rfl, ?_, ?_⟩
                        · rw [hd2 (fix_path q)]
                          rw [if_neg (fun hh => hne hh.symm)]
                          rw [lookup_setFS]
                          simp
                        · rw [hd2 f.path]
                          simp
                  · rw [if_neg hpd] at hok
                    simp at hok
  · intro evs1 hdel hcond hnd
    obtain ⟨wd, hwd⟩ := tryRecoverFuel_as_with os fuel
    rw [hwd, tryRecoverWith_moveFile_run]
    simp only [bind_run, Mbind_run]
    unfold remove_file_any
    rw [hdel]
    simp only
    rw [renameTry_run, if_pos hcond]
    simp only [if_true]
    have hns : f.path.isPrefixOf t = false :=
      prefix_false_of_not _ _ (fun hh =>
        hcond.2.1 (List.isPrefixOf_iff_prefix.mpr hh))
    refine ⟨rfl, ?_⟩
    exact lookup_renameTree_src_gone fs1 f.path t hns
      (prefix_false_of_not _ _ hnd)

end Fdir


namespace Fdir

theorem C3_witness :
    (tryRecoverFuel osT 0
      ⟨ErrKind.alreadyExists, some (Status.moveFile ⟨["/", "a"]⟩ ["/", "b"])⟩
      [(["/"], Node.dir false), (["/", "a"], Node.file [1] false),
       (["/", "b"], Node.file [2] false)]).1 =
      Except.ok (RecOut.movedFile ⟨["/", "a"]⟩) ∧
    lookupFS (tryRecoverFuel osT 0
      ⟨ErrKind.alreadyExists, some (Status.moveFile ⟨["/", "a"]⟩ ["/", "b"])⟩
      [(["/"], Node.dir false), (["/", "a"], Node.file [1] false),
       (["/", "b"], Node.file [2] false)]).2.1 ["/", "a"] = none := by
  have h := (C3_repoint_sync osT 0 ⟨["/", "a"]⟩ "x" [] ["/", "b"]
    [(["/"], Node.dir false), (["/", "a"], Node.file [1] false),
     (["/", "b"], Node.file [2] false)]
    [(["/"], Node.dir false), (["/", "a"], Node.file [1] false)]
    (Node.dir false)).2.2 [Ev.evRmF ["/", "b"]] (by rfl) (by decide)
    (by decide)
  exact h

end Fdir

namespace Fdir

theorem async_copy_new_eq : asyncFileCopyNew = FileInfo.copy_new := rfl

theorem async_copy_to_eq : asyncCopyTo = FileInfo.copy_to := rfl

theorem recFuel_eq_nondir (os : Os) (n : Nat) (e : ErrKind)
    (st : Option Status)
    (h : st = none ∨ (∃ f dest, st = some (Status.copyFile f dest)) ∨
      (∃ f dest, st = some (Status.moveFile f dest))) :
    asyncTryRecoverFuel os n ⟨e, st⟩ = tryRecoverFuel os n ⟨e, st⟩ := by
  rcases h with h | ⟨f, dest, h⟩ | ⟨f, dest, h⟩ <;> subst h <;> cases n <;> rfl

theorem orRecover_congr (rec1 rec2 : TRErr → M RecOut) (m : MR α)
    (h : ∀ fs tr, (m fs).1 = Except.error tr → rec1 tr = rec2 tr) :
    orRecover rec1 m = orRecover rec2 m := by
  funext fs
  unfold orRecover
  rcases hres : m fs with ⟨r, fs2, evs⟩
  cases r with
  | ok a => rfl
  | error tr =>
      simp only
      rw [h fs tr (by rw [hres])]

theorem asyncFileLoopC_eq (os : Os) (n : Nat) (p : Path) (fls : List Path) :
    asyncFileLoopWith (asyncTryRecoverFuel os n) os true p fls =
      fileLoopWith (tryRecoverFuel os n) os true p fls := by
  induction fls with
  | nil => rfl
  | cons fp rest ih =>
      simp only [asyncFileLoopWith, fileLoopWith, if_true, ih]
      congr 1
      rw [async_copy_to_eq]
      refine orRecover_congr _ _ _ ?_
      intro fs tr htr
      rcases tr with ⟨e, st⟩
      refine recFuel_eq_nondir os n e st ?_
      rcases copy_to_errors ⟨fp⟩ p fs ⟨e, st⟩ htr with hst | ⟨nm, _, htr2⟩
      · exact Or.inl hst
      · rw [TRErr.mk.injEq] at htr2
        exact Or.inr (Or.inl ⟨⟨fp⟩, fix_path (p ++ [nm]), htr2.2⟩)

theorem asyncWriteDirGoC_eq (os : Os) (n : Nat) :
    ∀ fuel : Nat, ∀ root dest : Path, ∀ queue : List Path,
      asyncWriteDirGoWith (asyncTryRecoverFuel os n) os fuel root dest true
          queue =
        writeDirGoWith (tryRecoverFuel os n) os fuel root dest true queue := by
  intro fuel
  induction fuel with
  | zero => intro root dest queue; rfl
  | succ fuel ih =>
      intro root dest queue
      cases queue with
      | nil => rfl
      | cons d rest =>
          simp only [asyncWriteDirGoWith, writeDirGoWith, asyncFileLoopC_eq,
            ih]

theorem async_write_dirC_eq (os : Os) (fuel : Nat) (d : DirectoryInfo)
    (dest : Path) :
    async_write_dir os fuel d dest true = _write_dir os fuel d dest true := by
  unfold async_write_dir _write_dir asyncWriteDirFullWith writeDirFullWith
  rw [asyncWriteDirGoC_eq]

theorem asyncDirCopyNew_eq (os : Os) (fuel : Nat) (d : DirectoryInfo)
    (p : Path) :
    asyncDirCopyNew os fuel d p = DirectoryInfo.copy_new os fuel d p := by
  unfold asyncDirCopyNew DirectoryInfo.copy_new
  simp only [async_write_dirC_eq]

end Fdir

namespace Fdir

theorem asyncMoveNew_conflict (os : Os) (f : FileInfo) (q : Path) (fs : FS)
    (hex : existsFS fs (fix_path q) = true) :
    asyncFileMoveNew os f q fs =
      (Except.error ⟨ErrKind.alreadyExists,
        some (Status.moveFile f (fix_path q))⟩, fs, []) := by
  unfold asyncFileMoveNew tryExistsP
  simp [hex]

theorem asyncMoveNew_noparent (os : Os) (f : FileInfo) (q : Path) (fs : FS)
    (hex : existsFS fs (fix_path q) = false)
    (hpar : rustParent (fix_path q) = none) :
    asyncFileMoveNew os f q fs =
      (Except.error ⟨ErrKind.invalidInput, none⟩, fs, []) := by
  unfold asyncFileMoveNew tryExistsP
  simp [hex, hpar]

theorem asyncMoveNew_cderr (os : Os) (f : FileInfo) (q : Path) (fs : FS)
    (par : Path) (e : ErrKind) (fs1 : FS) (evs1 : List Ev)
    (hex : existsFS fs (fix_path q) = false)
    (hpar : rustParent (fix_path q) = some par)
    (hmk : createDirAllP par fs = (Except.error e, fs1, evs1)) :
    asyncFileMoveNew os f q fs =
      (Except.error ⟨e, none⟩, fs1, evs1) := by
  unfold asyncFileMoveNew tryExistsP
  simp [hex, hpar, hmk]

theorem asyncMoveNew_run (os : Os) (f : FileInfo) (q : Path) (fs : FS)
    (hex : existsFS fs (fix_path q) = false)
    (par : Path) (hpar : rustParent (fix_path q) = some par)
    (fs1 : FS) (evs1 : List Ev)
    (hmk : createDirAllP par fs = (Except.ok (), fs1, evs1)) :
    asyncFileMoveNew os f q fs =
      if is_same_root f.path (fix_path q) = true then
        (match renameP os f.path (fix_path q) fs1 with
         | (Except.ok _, fs2, evs2) =>
             (Except.ok (⟨fix_path q⟩ : FileInfo), fs2, evs1 ++ evs2)
         | (Except.error e, fs2, evs2) =>
             (Except.error ⟨e, none⟩, fs2, evs1 ++ evs2))
      else
        (match copyP f.path (fix_path q) fs1 with
         | (Except.ok _, fs2, evs2) =>
             (match deleteP f.path fs2 with
              | (Except.ok _, fs3, evs3) =>
                  (Except.ok (⟨fix_path q⟩ : FileInfo), fs3,
                    evs1 ++ (evs2 ++ evs3))
              | (Except.error e, fs3, evs3) =>
                  (Except.error ⟨e, none⟩, fs3, evs1 ++ (evs2 ++ evs3)))
         | (Except.error e, fs2, evs2) =>
             (Except.error ⟨e, none⟩, fs2, evs1 ++ evs2)) := by
  unfold asyncFileMoveNew tryExistsP remove_file_any
  by_cases hsr : is_same_root f.path (fix_path q) = true
  · rcases hrp : renameP os f.path (fix_path q) fs1 with ⟨r2, fs2, evs2⟩
    cases r2 <;> simp [hex, hpar, hmk, hsr, hrp]
  · rcases hcp : copyP f.path (fix_path q) fs1 with ⟨r2, fs2, evs2⟩
    cases r2 with
    | error e => simp [hex, hpar, hmk, hsr, hcp]
    | ok a =>
        rcases hdf : deleteP f.path fs2 with ⟨r3, fs3, evs3⟩
        cases r3 <;> simp [hex, hpar, hmk, hsr, hcp, hdf]

theorem delete_helpers_obs (f : FileInfo) (fs : FS) (c : List Nat)
    (ro : Bool) (hf : lookupFS fs f.path = some (Node.file c ro)) :
    (deleteP f.path fs).1 = Except.ok () ∧
    (_delete_file f fs).1 = Except.ok () ∧
    ∀ r : Path, lookupFS (deleteP f.path fs).2.1 r =
      lookupFS (_delete_file f fs).2.1 r := by
  obtain ⟨ha1, ha2, -⟩ := deleteP_run_file fs f.path c ro hf
  obtain ⟨hb1, hb2, -⟩ := _delete_file_run fs f c ro hf
  refine ⟨ha1, hb1, ?_⟩
  intro r
  rw [ha2 r, hb2 r]

/-- The blocking and suspend-capable `move_new` agree on the result and
on the final filesystem contents (their event traces differ only in a
redundant permissions reset of the fallback's source deletion). -/
theorem async_move_new_obs (os : Os) (f : FileInfo) (q : Path) (fs : FS) :
    (asyncFileMoveNew os f q fs).1 = (FileInfo.move_new os f q fs).1 ∧
    ∀ r : Path, lookupFS (asyncFileMoveNew os f q fs).2.1 r =
      lookupFS (FileInfo.move_new os f q fs).2.1 r := by
  by_cases hex : existsFS fs (fix_path q) = true
  · rw [asyncMoveNew_conflict os f q fs hex, move_new_conflict os f q fs hex]
    exact ⟨rfl, fun r => rfl⟩
  · have hexf : existsFS fs (fix_path q) = false := by
      cases hxx : existsFS fs (fix_path q)
      · rfl
      · exact absurd hxx hex
    rcases hpar : rustParent (fix_path q) with _ | par
    · rw [asyncMoveNew_noparent os f q fs hexf hpar,
        move_new_noparent os f q fs hexf hpar]
      exact ⟨rfl, fun r => rfl⟩
    · rcases hmk : createDirAllP par fs with ⟨r0, fsm, evsm⟩
      cases r0 with
      | error e =>
          rw [asyncMoveNew_cderr os f q fs par e fsm evsm hexf hpar hmk,
            move_new_cderr os f q fs par e fsm evsm hexf hpar hmk]
          exact ⟨rfl, fun r => rfl⟩
      | ok a =>
          cases a
          rw [asyncMoveNew_run os f q fs hexf par hpar fsm evsm hmk,
            move_new_run os f q fs hexf par hpar fsm evsm hmk]
          by_cases hsr : is_same_root f.path (fix_path q) = true
          · rw [if_pos hsr, if_pos hsr]
            exact ⟨rfl, fun r => rfl⟩
          · rw [if_neg hsr, if_neg hsr]
            rcases hcp : copyP f.path (fix_path q) fsm with ⟨r2, fs2, evs2⟩
            cases r2 with
            | error e => exact ⟨rfl, fun r => rfl⟩
            | ok u =>
                simp only
                have hne : ¬ f.path = fix_path q := by
                  intro hh
                  rw [hh] at hsr
                  exact hsr (is_same_root_self (fix_path q))
                rcases hL : lookupFS fsm f.path with _ | n
                · rw [copyP_run_none fsm f.path (fix_path q) hL] at hcp
                  simp at hcp
                · cases n with
                  | dir ro =>
                      rw [copyP_run_dir fsm f.path (fix_path q) ro hL] at hcp
                      simp at hcp
                  | file c ro =>
                      rw [copyP_run fsm f.path (fix_path q) c ro hL] at hcp
                      by_cases hpd : parentIsDir fsm (fix_path q) = true ∧
                          isDirFS fsm (fix_path q) = false
                      · rw [if_pos hpd, Prod.mk.injEq] at hcp
                        obtain ⟨-, hcp2⟩ := hcp
                        rw [Prod.mk.injEq] at hcp2
                        obtain ⟨h2, -⟩ := hcp2
                        have hf2 : lookupFS fs2 f.path =
                            some (Node.file c ro) := by
                          rw [← h2, lookup_setFS]
                          simp [hne, hL]
                        obtain ⟨he1, he2, he3⟩ :=
                          delete_helpers_obs f fs2 c ro hf2
                        rcases hd1 : deleteP f.path fs2 with ⟨ra, fsa, eva⟩
                        rcases hd2 : _delete_file f fs2 with ⟨rb, fsb, evb⟩
                        rw [hd1] at he1 he3
                        rw [hd2] at he2 he3
                        simp only at he1 he2 he3
                        subst he1
                        subst he2
                        exact ⟨rfl, fun r => he3 r⟩
                      · rw [if_neg hpd] at hcp
                        simp at hcp

end Fdir

namespace Fdir

theorem async_move_to_obs (os : Os) (f : FileInfo) (p : Path) (fs : FS) :
    (asyncMoveTo os f p fs).1 = (FileInfo.move_to os f p fs).1 ∧
    ∀ r : Path, lookupFS (asyncMoveTo os f p fs).2.1 r =
      lookupFS (FileInfo.move_to os f p fs).2.1 r := by
  unfold asyncMoveTo FileInfo.move_to
  rcases hfn : push_file_name (fileNameR f.path) p with e | q
  · simp [hfn]
  · simp only [hfn]
    exact async_move_new_obs os f q fs

/-- C2 (amended): the blocking and suspend-capable forms agree
observably on the file copy operations (definitionally equal), on
conflict recovery for every status other than MoveDirectory, on the
whole copy-mode tree transfer and directory copy, and on the file move
operations up to the final filesystem contents (the traces differ only
in a redundant permissions reset in the fallback's source deletion);
the directory size query and the MoveDirectory recovery arm genuinely
differ between the two forms. -/
theorem C2_sync_async_agree (os : Os) (n fuel : Nat) (f : FileInfo)
    (d : DirectoryInfo) (p root dest : Path) (queue : List Path)
    (fs : FS) (e : ErrKind) (st : Option Status) :
    asyncFileCopyNew f p = FileInfo.copy_new f p ∧
    asyncCopyTo f p = FileInfo.copy_to f p ∧
    ((st = none ∨ (∃ g t, st = some (Status.copyFile g t)) ∨
        (∃ g t, st = some (Status.moveFile g t))) →
      asyncTryRecoverFuel os n ⟨e, st⟩ = tryRecoverFuel os n ⟨e, st⟩) ∧
    asyncWriteDirGoWith (asyncTryRecoverFuel os n) os fuel root dest true
        queue =
      writeDirGoWith (tryRecoverFuel os n) os fuel root dest true queue ∧
    asyncDirCopyNew os fuel d p = DirectoryInfo.copy_new os fuel d p ∧
    ((asyncFileMoveNew os f p fs).1 = (FileInfo.move_new os f p fs).1 ∧
      ∀ r : Path, lookupFS (asyncFileMoveNew os f p fs).2.1 r =
        lookupFS (FileInfo.move_new os f p fs).2.1 r) ∧
    ((asyncMoveTo os f p fs).1 = (FileInfo.move_to os f p fs).1 ∧
      ∀ r : Path, lookupFS (asyncMoveTo os f p fs).2.1 r =
        lookupFS (FileInfo.move_to os f p fs).2.1 r) := by
  refine ⟨rfl, rfl, fun h => recFuel_eq_nondir os n e st h,
    asyncWriteDirGoC_eq os n fuel root dest queue,
    asyncDirCopyNew_eq os fuel d p,
    async_move_new_obs os f p fs,
    async_move_to_obs os f p fs⟩

theorem C2_witness :
    asyncTryRecoverFuel osT 1 ⟨ErrKind.notFound, none⟩ =
      tryRecoverFuel osT 1 ⟨ErrKind.notFound, none⟩ := by
  exact (C2_sync_async_agree osT 1 1 ⟨["/", "a"]⟩ ⟨["/", "s"]⟩ ["/", "b"]
    [] [] [] [] ErrKind.notFound none).2.2.1 (Or.inl rfl)

end Fdir

namespace Fdir

theorem replaceIdx_of_pre (root q : Path) (h : root <+: q) :
    replaceIdx q root = root.length := by
  induction root generalizing q with
  | nil => cases q <;> rfl
  | cons b bs ih =>
      obtain ⟨tl, rfl⟩ := h
      show replaceIdx ((b :: bs) ++ tl) (b :: bs) = (b :: bs).length
      rw [List.cons_append]
      show (if b = b then replaceIdx (bs ++ tl) bs + 1 else 0) =
        bs.length + 1
      rw [if_pos rfl, ih (bs ++ tl) ⟨tl, rfl⟩]

theorem rootFreeTail_of_pre (p q : Path) (h : rootFreeTail p = true)
    (hq : q <+: p) : rootFreeTail q = true := by
  unfold rootFreeTail at *
  rw [List.all_eq_true] at *
  intro c hc
  obtain ⟨t, rfl⟩ := hq
  refine h c ?_
  cases q with
  | nil => simp at hc
  | cons a q' =>
      simp only [List.cons_append, List.drop_succ_cons, List.drop_zero] at hc ⊢
      exact List.mem_append_left t hc

theorem rootFreeTail_append (p : Path) (str : List String)
    (hp : rootFreeTail p = true) (hs : ∀ c ∈ str, ¬ c = "/") :
    rootFreeTail (p ++ str) = true := by
  unfold rootFreeTail at *
  rw [List.all_eq_true] at *
  intro c hc
  cases p with
  | nil =>
      simp only [List.nil_append] at hc
      have := List.drop_subset 1 str hc
      simp [hs c this]
  | cons a p' =>
      simp only [List.cons_append, List.drop_succ_cons, List.drop_zero] at hc
      rcases List.mem_append.mp hc with h | h
      · exact hp c (by simpa using h)
      · simp [hs c h]

theorem rootfree_suffix (root q : Path) (hr : 1 ≤ root.length)
    (hq : rootFreeTail q = true) :
    ∀ c ∈ q.drop root.length, ¬ c = "/" := by
  intro c hc
  unfold rootFreeTail at hq
  rw [List.all_eq_true] at hq
  obtain ⟨k, hk⟩ := Nat.exists_eq_add_of_le hr
  rw [hk, ← List.drop_drop] at hc
  have := List.drop_subset k (q.drop 1) hc
  simpa using hq c this

theorem replace_pre_eq (root q dest : Path) (hr : 1 ≤ root.length)
    (hpre : root <+: q) (hq : rootFreeTail q = true) :
    replace q root dest = dest ++ q.drop root.length := by
  unfold replace
  rw [replaceIdx_of_pre root q hpre]
  exact foldl_pushPB_rootfree _ dest (rootfree_suffix root q hr hq)

theorem rootFreeTail_of_lookup (fs : FS) (p : Path) (n : Node)
    (hfs : rootFreeFS fs = true) (h : lookupFS fs p = some n) :
    rootFreeTail p = true := by
  unfold rootFreeFS at hfs
  rw [List.all_eq_true] at hfs
  exact hfs (p, n) (lookupFS_mem fs p n h)

theorem rootFreeFS_setFS (fs : FS) (p : Path) (n : Node)
    (hfs : rootFreeFS fs = true) (hp : rootFreeTail p = true) :
    rootFreeFS (setFS fs p n) = true := by
  unfold setFS
  by_cases hex : existsFS fs p
  · simp only [hex, if_true]
    unfold rootFreeFS at *
    rw [List.all_eq_true] at *
    intro e he
    rw [List.mem_map] at he
    obtain ⟨e0, he0, heq⟩ := he
    by_cases h0 : e0.1 = p
    · simp [h0] at heq
      rw [← heq]
      exact hp
    · simp [h0] at heq
      rw [← heq]
      exact hfs e0 he0
  · simp only [hex, Bool.false_eq_true, if_false]
    unfold rootFreeFS at *
    rw [List.all_eq_true] at *
    intro e he
    rcases List.mem_append.mp he with h | h
    · exact hfs e h
    · simp at h
      rw [h]
      exact hp

theorem rootFreeFS_filter (fs : FS) (f : Path × Node → Bool)
    (hfs : rootFreeFS fs = true) : rootFreeFS (fs.filter f) = true := by
  unfold rootFreeFS at *
  rw [List.all_eq_true] at *
  exact fun e he => hfs e ((List.filter_sublist fs).subset he)

theorem rootFreeFS_removeEntry (fs : FS) (p : Path)
    (hfs : rootFreeFS fs = true) : rootFreeFS (removeEntry fs p) = true :=
  rootFreeFS_filter fs _ hfs

theorem rootFreeFS_removeSubtree (fs : FS) (p : Path)
    (hfs : rootFreeFS fs = true) : rootFreeFS (removeSubtree fs p) = true :=
  rootFreeFS_filter fs _ hfs

theorem rootFreeFS_setRO (fs : FS) (p : Path) (b : Bool)
    (hfs : rootFreeFS fs = true) : rootFreeFS (setRO fs p b) = true := by
  unfold setRO
  unfold rootFreeFS at *
  rw [List.all_eq_true] at *
  intro e he
  rw [List.mem_map] at he
  obtain ⟨e0, he0, heq⟩ := he
  have hn := hfs e0 he0
  by_cases h0 : e0.1 = p
  · simp only [h0, if_true] at heq
    rcases hh : e0.2 with c | d
    · rw [hh] at heq
      simp at heq
      rw [← heq]
      simpa [h0] using hn
    · rw [hh] at heq
      simp at heq
      rw [← heq]
      simpa [h0] using hn
  · simp [h0] at heq
    rw [← heq]
    exact hn

end Fdir

namespace Fdir

/-- The computation maps filesystems whose keys have the root marker
only in head position to filesystems with the same property. -/
def RootP (m : M α) : Prop :=
  ∀ fs : FS, rootFreeFS fs = true → rootFreeFS (m fs).2.1 = true

theorem RootP_bind {m : M α} {k : α → M β}
    (hm : RootP m) (hk : ∀ a, RootP (k a)) : RootP (m >>= k) := by
  intro fs hfs
  simp only [bind_run, Mbind_run]
  rcases hres : m fs with ⟨r, fs2, evs⟩
  have h2 := hm fs hfs
  rw [hres] at h2
  cases r with
  | ok a =>
      have h3 := hk a fs2 h2
      simpa using h3
  | error e => simpa using h2

theorem RootP_pure (a : α) : RootP (M.pure a) := fun _ h => h

theorem RootP_throw (e : ErrKind) : RootP (throwM e : M α) := fun _ h => h

theorem rootFree_of_childPaths (fs : FS) (d x : Path)
    (hfs : rootFreeFS fs = true) (hx : x ∈ childPaths fs d) :
    rootFreeTail x = true := by
  obtain ⟨_, _, n, hmem⟩ := childPaths_mem fs d x hx
  unfold rootFreeFS at hfs
  rw [List.all_eq_true] at hfs
  exact hfs (x, n) hmem

theorem getLast?_cons2 (a b : String) (t : List String) :
    (a :: b :: t).getLast? = (b :: t).getLast? := by
  rw [List.getLast?_eq_getLast _ (by simp),
    List.getLast?_eq_getLast (b :: t) (by simp)]
  simp [List.getLast_cons]

theorem fileNameR_rootfree (p : Path) (n : String)
    (hp : rootFreeTail p = true) (h : fileNameR p = some n) :
    ¬ n = "/" := by
  unfold fileNameR at h
  by_cases hl : p.length ≤ 1
  · simp [hl] at h
  · simp only [hl, if_false] at h
    cases p with
    | nil => simp at hl
    | cons a p' =>
        cases p' with
        | nil => simp at hl
        | cons b t =>
            rw [getLast?_cons2] at h
            have hmem : n ∈ b :: t := getLast?_mem_list (b :: t) n h
            unfold rootFreeTail at hp
            rw [List.all_eq_true] at hp
            simpa using hp n (by simpa using hmem)

theorem copyP_RootP (s d : Path) (hd : rootFreeTail d = true) :
    RootP (copyP s d) := by
  intro fs hfs
  rcases hn : lookupFS fs s with _ | n
  · rw [copyP_run_none fs s d hn]
    exact hfs
  · cases n with
    | file c ro =>
        rw [copyP_run fs s d c ro hn]
        by_cases hc : parentIsDir fs d = true ∧ isDirFS fs d = false
        · simp [hc]
          exact rootFreeFS_setFS fs d (Node.file c ro) hfs hd
        · simp [hc]
          exact hfs
    | dir ro =>
        rw [copyP_run_dir fs s d ro hn]
        exact hfs

theorem deleteP_RootP (p : Path) : RootP (deleteP p) := by
  intro fs hfs
  unfold deleteP
  rcases hn : lookupFS fs p with _ | n
  · simp [readOnlyP_run_none fs p hn]
    exact hfs
  · cases n with
    | file c ro =>
        cases ro with
        | false =>
            have hdd : isDirFS fs p = false := by unfold isDirFS; simp [hn]
            simp [readOnlyP_run_file fs p c false hn, hdd,
              removeFileP_run_file fs p c false hn]
            exact rootFreeFS_removeEntry fs p hfs
        | true =>
            have hex : existsFS fs p = true := by unfold existsFS; simp [hn]
            have h2 : lookupFS (setRO fs p false) p =
                some (Node.file c false) := by
              rw [lookup_setRO]; simp [hn, nodeWithRO]
            have hdd : isDirFS (setRO fs p false) p = false := by
              unfold isDirFS; simp [h2]
            simp [readOnlyP_run_file fs p c true hn,
              setReadonlyP_run_some fs p false hex, hdd,
              removeFileP_run_file (setRO fs p false) p c false h2]
            exact rootFreeFS_removeEntry _ p (rootFreeFS_setRO fs p false hfs)
    | dir ro =>
        cases ro with
        | false =>
            have hdd : isDirFS fs p = true := by unfold isDirFS; simp [hn]
            simp [readOnlyP_run_dir fs p false hn, hdd,
              removeDirAllP_run_dir fs p false hn]
            exact rootFreeFS_removeSubtree fs p hfs
        | true =>
            have hex : existsFS fs p = true := by unfold existsFS; simp [hn]
            have h2 : lookupFS (setRO fs p false) p =
                some (Node.dir false) := by
              rw [lookup_setRO]; simp [hn, nodeWithRO]
            have hdd : isDirFS (setRO fs p false) p = true := by
              unfold isDirFS; simp [h2]
            simp [readOnlyP_run_dir fs p true hn,
              setReadonlyP_run_some fs p false hex, hdd,
              removeDirAllP_run_dir (setRO fs p false) p false h2]
            exact rootFreeFS_removeSubtree _ p (rootFreeFS_setRO fs p false hfs)

theorem mkdirSeq_rootfree (l : List Path) (fs : FS)
    (hfs : rootFreeFS fs = true) (hl : ∀ q ∈ l, rootFreeTail q = true) :
    rootFreeFS (mkdirSeq l fs).2.1 = true := by
  induction l generalizing fs with
  | nil => simpa [mkdirSeq] using hfs
  | cons q rest ih =>
      rw [mkdirSeq_cons_run]
      rcases hn : lookupFS fs q with _ | n
      · simp only
        refine ih (setFS fs q (Node.dir false)) ?_
          (fun x hx => hl x (List.mem_cons_of_mem q hx))
        exact rootFreeFS_setFS fs q (Node.dir false) hfs
          (hl q (List.mem_cons_self q rest))
      · cases n with
        | file c ro => simpa using hfs
        | dir ro => exact ih fs hfs (fun x hx => hl x (List.mem_cons_of_mem q hx))

theorem recCF_RootP (wd : Path → Path → Bool → M Unit) (os : Os)
    (e : ErrKind) (f : FileInfo) (t : Path) (ht : rootFreeTail t = true) :
    RootP (tryRecoverWith wd os ⟨e, some (Status.copyFile f t)⟩) := by
  by_cases he : e = ErrKind.alreadyExists
  · subst he
    rw [tryRecoverWith_copyFile_run]
    refine RootP_bind (deleteP_RootP t) (fun _ => ?_)
    exact RootP_bind (copyP_RootP f.path t ht) (fun _ => RootP_pure _)
  · rw [tryRecoverWith_notAlready wd os e _ he]
    exact RootP_throw e

theorem orRecover_RootP (recover : TRErr → M RecOut) (m : MR α)
    (hm : ∀ fs : FS, rootFreeFS fs = true → rootFreeFS (m fs).2.1 = true)
    (hrec : ∀ fs fs2 : FS, ∀ tr, (m fs).1 = Except.error tr →
      rootFreeFS fs2 = true → rootFreeFS (recover tr fs2).2.1 = true) :
    RootP (orRecover recover m) := by
  intro fs hfs
  unfold orRecover
  rcases hres : m fs with ⟨rr, fs2, evs⟩
  have hm1 := hm fs hfs
  rw [hres] at hm1
  cases rr with
  | ok a => simpa using hm1
  | error tr =>
      rcases hrec2 : recover tr fs2 with ⟨r2, fs3, evs2⟩
      have h2 := hrec fs fs2 tr (by rw [hres]) hm1
      rw [hrec2] at h2
      simp only [hrec2]
      cases r2 with
      | ok b => simpa using h2
      | error e2 => simpa using h2

theorem copy_to_root (f : FileInfo) (p : Path) :
    ∀ fs : FS, rootFreeFS fs = true →
      (∀ name, fileNameR f.path = some name →
        rootFreeTail (fix_path (p ++ [name])) = true) →
      rootFreeFS (FileInfo.copy_to f p fs).2.1 = true := by
  intro fs hfs hn
  unfold FileInfo.copy_to
  rcases hfn : fileNameR f.path with _ | name
  · simp [push_file_name]
    exact hfs
  · rw [show push_file_name (some name) p = Except.ok (p ++ [name]) from rfl]
    unfold FileInfo.copy_new
    by_cases hex : existsFS fs (fix_path (p ++ [name]))
    · simp [hex]
      exact hfs
    · simp only [liftE_run, tryExistsP_run]
      simp [hex]
      rcases hc : copyP f.path (fix_path (p ++ [name])) fs with ⟨r2, fs2, evs2⟩
      have hrp := copyP_RootP f.path (fix_path (p ++ [name]))
        (hn name hfn) fs hfs
      rw [hc] at hrp
      cases r2 <;> simpa using hrp

/-- The per-file copy step keeps the root marker out of key tails. -/
theorem stepC_root (os : Os) (n : Nat) (fp d0 : Path)
    (hnp : normalPathB d0 = true) (hrd : rootFreeTail d0 = true)
    (hfp : normalPathB fp = true) (hrfp : rootFreeTail fp = true) :
    ∀ fs : FS, rootFreeFS fs = true →
      rootFreeFS ((orRecover (tryRecoverFuel os n)
        (FileInfo.copy_to ⟨fp⟩ d0)) fs).2.1 = true := by
  intro fs hfs
  obtain ⟨wd, hwd⟩ := tryRecoverFuel_as_with os n
  rw [hwd]
  have htarget : ∀ name, fileNameR fp = some name →
      rootFreeTail (fix_path (d0 ++ [name])) = true := by
    intro name hname
    have hnn := fileNameR_normal fp name hfp hname
    have hns := fileNameR_rootfree fp name hrfp hname
    rw [copy_target_eq d0 name hnp hnn]
    exact rootFreeTail_append d0 [name] hrd (by simpa using hns)
  refine orRecover_RootP _ _ ?_ ?_ fs hfs
  · intro fs2 hfs2
    exact copy_to_root ⟨fp⟩ d0 fs2 hfs2 htarget
  · intro fs2 fs3 tr htr hfs3
    rcases copy_to_errors ⟨fp⟩ d0 fs2 tr htr with hst | ⟨name, hname, htr2⟩
    · rcases tr with ⟨e, st⟩
      simp at hst
      subst hst
      rw [tryRecoverWith_none_run]
      simpa using hfs3
    · subst htr2
      exact recCF_RootP wd os ErrKind.alreadyExists ⟨fp⟩ _
        (htarget name hname) fs3 hfs3

end Fdir

namespace Fdir

/-- The copy-mode file loop keeps the root marker out of key tails. -/
theorem fileLoopC_root (os : Os) (n : Nat) (d0 : Path)
    (hnp : normalPathB d0 = true) (hrd : rootFreeTail d0 = true) :
    ∀ fls : List Path,
      (∀ fp ∈ fls, normalPathB fp = true ∧ rootFreeTail fp = true) →
      ∀ fs : FS, rootFreeFS fs = true →
        rootFreeFS ((fileLoopWith (tryRecoverFuel os n) os true d0 fls)
          fs).2.1 = true := by
  intro fls
  induction fls with
  | nil =>
      intro _ fs hfs
      simpa [fileLoopWith] using hfs
  | cons fp rest ih =>
      intro hall fs hfs
      obtain ⟨hfp, hrfp⟩ := hall fp (List.mem_cons_self fp rest)
      have hrest := fun q hq => hall q (List.mem_cons_of_mem fp hq)
      simp only [fileLoopWith, if_true, bind_run, Mbind_run]
      rcases hstep : orRecover (tryRecoverFuel os n)
          (FileInfo.copy_to ⟨fp⟩ d0) fs with ⟨r1, fs1, e1⟩
      have hr1 : rootFreeFS fs1 = true := by
        have := stepC_root os n fp d0 hnp hrd hfp hrfp fs hfs
        rw [hstep] at this
        exact this
      cases r1 with
      | error e => exact hr1
      | ok a => exact ih hrest fs1 hr1

/-- The copy-mode queue loop: preserves key normality and root-freedom,
leaves every entry under the source root untouched, and creates
directories only at ancestors of the rebasing of queue directories —
which are the root or actual directories of the entry filesystem. -/
theorem writeDirGoC_main (os : Os) (n : Nat) (root dest : Path)
    (hnd : normalPathB dest = true) (hrd : rootFreeTail dest = true)
    (hf1 : ¬ root <+: dest) (hf2 : ¬ dest <+: root)
    (hr1 : 1 ≤ root.length) :
    ∀ fuel : Nat, ∀ queue : List Path, ∀ fs : FS,
      normalFSB fs = true → rootFreeFS fs = true →
      (∀ q ∈ queue, root <+: q ∧ normalPathB q = true ∧
        rootFreeTail q = true ∧ (q = root ∨ isDirFS fs q = true)) →
      (normalFSB ((writeDirGoWith (tryRecoverFuel os n) os fuel root dest
          true queue) fs).2.1 = true ∧
       rootFreeFS ((writeDirGoWith (tryRecoverFuel os n) os fuel root dest
          true queue) fs).2.1 = true) ∧
      (∀ r : Path, root <+: r →
        lookupFS ((writeDirGoWith (tryRecoverFuel os n) os fuel root dest
          true queue) fs).2.1 r = lookupFS fs r) ∧
      (∀ ev ∈ ((writeDirGoWith (tryRecoverFuel os n) os fuel root dest
          true queue) fs).2.2, ∀ m : Path, ev = Ev.evMkdir m →
        ∃ d2 : Path, root <+: d2 ∧ (d2 = root ∨ isDirFS fs d2 = true) ∧
          m <+: replace d2 root dest) := by
  intro fuel
  induction fuel with
  | zero =>
      intro queue fs hfs hrfs hq
      by_cases h : queue = [] <;>
        simp [writeDirGoWith, h, hfs, hrfs]
  | succ fuel ih =>
      intro queue fs hfs hrfs hq
      cases queue with
      | nil => simp [writeDirGoWith, hfs, hrfs]
      | cons d rest =>
          obtain ⟨hroot, hdn, hrq, hdw⟩ := hq d (List.mem_cons_self d rest)
          have hdx : replace d root dest = dest ++ d.drop root.length :=
            replace_pre_eq root d dest hr1 hroot hrq
          have hdirn : normalPathB (replace d root dest) = true :=
            normalPathB_replace d root dest hdn hnd
          have hdirroot : rootFreeTail (replace d root dest) = true := by
            rw [hdx]
            exact rootFreeTail_append dest _ hrd
              (rootfree_suffix root d hr1 hrq)
          have hfls : ∀ fs1 : FS, normalFSB fs1 = true →
              rootFreeFS fs1 = true →
              ∀ fp ∈ List.filter (fun p => isFileFS fs1 p)
                (childPaths fs1 d),
                normalPathB fp = true ∧ rootFreeTail fp = true := by
            intro fs1 hn1 hro1 fp hmem
            exact ⟨normalPathB_of_childPaths fs1 d fp hn1
                (List.mem_of_mem_filter hmem),
              rootFree_of_childPaths fs1 d fp hro1
                (List.mem_of_mem_filter hmem)⟩
          have hmkOff : ∀ fs1 : FS, ∀ r : Path, root <+: r →
              lookupFS ((mkdirSeq (prefixesOf (replace d root dest)))
                fs1).2.1 r = lookupFS fs1 r := by
            intro fs1 r hrr
            refine mkdirSeq_lookup_off _ fs1 r ?_
            intro hmem
            have hpre := prefix_of_mem_prefixesOf _ _ hmem
            rw [hdx] at hpre
            exact not_root_prefix_of_prefix_destext root dest hf1 hf2 r _
              hpre hrr
          have hmkN : ∀ fs1 : FS, normalFSB fs1 = true →
              normalFSB ((mkdirSeq (prefixesOf (replace d root dest)))
                fs1).2.1 = true := by
            intro fs1 hn1
            refine mkdirSeq_normal _ fs1 hn1 ?_
            intro q hmem
            exact normalPathB_of_pre _ q hdirn
              (prefix_of_mem_prefixesOf _ _ hmem)
          have hmkR : ∀ fs1 : FS, rootFreeFS fs1 = true →
              rootFreeFS ((mkdirSeq (prefixesOf (replace d root dest)))
                fs1).2.1 = true := by
            intro fs1 hn1
            refine mkdirSeq_rootfree _ fs1 hn1 ?_
            intro q hmem
            exact rootFreeTail_of_pre _ q hdirroot
              (prefix_of_mem_prefixesOf _ _ hmem)
          have hmkEv : ∀ fs1 : FS,
              ∀ ev ∈ ((mkdirSeq (prefixesOf (replace d root dest)))
                fs1).2.2, ∀ m : Path, ev = Ev.evMkdir m →
              ∃ d2 : Path, root <+: d2 ∧
                (d2 = root ∨ isDirFS fs d2 = true) ∧
                m <+: replace d2 root dest := by
            intro fs1 ev hmem m hm
            obtain ⟨q, hql, hqe⟩ := mkdirSeq_events
              (prefixesOf (replace d root dest)) fs1 ev hmem
            rw [hm] at hqe
            have hqm : m = q := by
              cases hqe
              rfl
            subst hqm
            exact ⟨d, hroot, hdw, prefix_of_mem_prefixesOf _ _ hql⟩
          have hsubs : ∀ fs2 : FS,
              (∀ r : Path, root <+: r →
                lookupFS fs2 r = lookupFS fs r) →
              ∀ q ∈ rest ++
                List.filter (fun p => isDirFS fs p) (childPaths fs d),
                root <+: q ∧ normalPathB q = true ∧
                rootFreeTail q = true ∧
                (q = root ∨ isDirFS fs2 q = true) := by
            intro fs2 hpres q hmem
            have hdirT : ∀ q2 : Path, root <+: q2 →
                isDirFS fs q2 = true → isDirFS fs2 q2 = true := by
              intro q2 hp2 hd2
              unfold isDirFS at *
              rw [hpres q2 hp2]
              exact hd2
            rcases List.mem_append.mp hmem with h | h
            · obtain ⟨ha, hb, hc, hd3⟩ := hq q (List.mem_cons_of_mem d h)
              refine ⟨ha, hb, hc, ?_⟩
              rcases hd3 with h3 | h3
              · exact Or.inl h3
              · exact Or.inr (hdirT q ha h3)
            · have hc := List.mem_of_mem_filter h
              have hdq := List.of_mem_filter h
              have hpq : root <+: q :=
                hroot.trans (childPaths_mem fs d q hc).1
              refine ⟨hpq, normalPathB_of_childPaths fs d q hfs hc,
                rootFree_of_childPaths fs d q hrfs hc,
                Or.inr (hdirT q hpq (by simpa using hdq))⟩
          rcases hrun : writeDirGoWith (tryRecoverFuel os n) os (fuel + 1)
              root dest true (d :: rest) fs with ⟨rr, fsf, evf⟩
          simp only [writeDirGoWith, bind_run, Mbind_run] at hrun
          rw [directoriesP_run] at hrun
          rcases hL : lookupFS fs d with _ | nd
          · rw [hL] at hrun
            simp at hrun
            obtain ⟨-, h2, h3⟩ := hrun
            subst h2
            subst h3
            exact ⟨⟨hfs, hrfs⟩, fun r hrr => rfl, by simp⟩
          · cases nd with
            | file c ro =>
                rw [hL] at hrun
                simp at hrun
                obtain ⟨-, h2, h3⟩ := hrun
                subst h2
                subst h3
                exact ⟨⟨hfs, hrfs⟩, fun r hrr => rfl, by simp⟩
            | dir ro =>
                rw [hL] at hrun
                simp only [getFS_run, List.nil_append] at hrun
                by_cases hdir : isDirFS fs (replace d root dest) = true
                · simp only [hdir, not_true_eq_false, Bool.false_eq_true,
                    if_false, bind_run, Mbind_run, pure_run] at hrun
                  rw [filesP_run, hL] at hrun
                  simp only at hrun
                  rcases hfl : fileLoopWith (tryRecoverFuel os n) os true
                      (replace d root dest)
                      (List.filter (fun p => isFileFS fs p) (childPaths fs d))
                      fs with ⟨r2, fs2, e2⟩
                  rw [hfl] at hrun
                  obtain ⟨hn2, hoff2⟩ := fileLoopC_off_norm os n
                    (replace d root dest) root dest _ hdx hdirn hf1 hf2
                    (List.filter (fun p => isFileFS fs p) (childPaths fs d))
                    (fun fp hm => (hfls fs hfs hrfs fp hm).1) fs hfs
                  have hro2 := fileLoopC_root os n (replace d root dest)
                    hdirn hdirroot
                    (List.filter (fun p => isFileFS fs p) (childPaths fs d))
                    (hfls fs hfs hrfs) fs hrfs
                  rw [hfl] at hn2 hoff2 hro2
                  have hev2 : ∀ ev ∈ e2, ∀ m : Path,
                      ¬ ev = Ev.evMkdir m := by
                    intro ev hm m
                    exact fileLoopC_no_mkdir os n _ _ fs ev
                      (by rw [hfl]; simpa using hm) m
                  cases r2 with
                  | error e =>
                      simp at hrun
                      obtain ⟨-, h2, h3⟩ := hrun
                      subst h2
                      subst h3
                      refine ⟨⟨hn2, hro2⟩, hoff2, ?_⟩
                      intro ev hm m hmk
                      exact absurd hmk (hev2 ev hm m)
                  | ok a =>
                      simp only [Prod.mk.injEq] at hrun
                      obtain ⟨-, h2, h3⟩ := hrun
                      subst h2
                      subst h3
                      obtain ⟨⟨hn3, hro3⟩, hoff3, hev3⟩ := ih _ fs2 hn2 hro2
                        (hsubs fs2 hoff2)
                      refine ⟨⟨hn3, hro3⟩, fun r hrr =>
                        (hoff3 r hrr).trans (hoff2 r hrr), ?_⟩
                      intro ev hm m hmk
                      simp only [List.nil_append] at hm
                      rcases List.mem_append.mp hm with h | h
                      · exact absurd hmk (hev2 ev h m)
                      · obtain ⟨d2, ha, hb, hc2⟩ := hev3 ev h m hmk
                        refine ⟨d2, ha, ?_, hc2⟩
                        rcases hb with h3 | h3
                        · exact Or.inl h3
                        · refine Or.inr ?_
                          unfold isDirFS at h3 ⊢
                          rw [← hoff2 d2 ha]
                          exact h3
                · simp only [hdir, not_false_eq_true, Bool.false_eq_true,
                    if_true, bind_run, Mbind_run, createDirAllP] at hrun
                  rcases hmk : mkdirSeq (prefixesOf (replace d root dest)) fs
                    with ⟨r1, fs1, e1⟩
                  rw [hmk] at hrun
                  have hn1 : normalFSB fs1 = true := by
                    have := hmkN fs hfs
                    rw [hmk] at this
                    exact this
                  have hro1 : rootFreeFS fs1 = true := by
                    have := hmkR fs hrfs
                    rw [hmk] at this
                    exact this
                  have hoff1 : ∀ r : Path, root <+: r →
                      lookupFS fs1 r = lookupFS fs r := by
                    intro r hrr
                    have := hmkOff fs r hrr
                    rw [hmk] at this
                    exact this
                  have hev1 : ∀ ev ∈ e1, ∀ m : Path, ev = Ev.evMkdir m →
                      ∃ d2 : Path, root <+: d2 ∧
                        (d2 = root ∨ isDirFS fs d2 = true) ∧
                        m <+: replace d2 root dest := by
                    intro ev hm
                    exact hmkEv fs ev (by rw [hmk]; simpa using hm)
                  cases r1 with
                  | error e =>
                      simp at hrun
                      obtain ⟨-, h2, h3⟩ := hrun
                      subst h2
                      subst h3
                      exact ⟨⟨hn1, hro1⟩, hoff1, hev1⟩
                  | ok a =>
                      simp only at hrun
                      rw [filesP_run] at hrun
                      rcases hL2 : lookupFS fs1 d with _ | nd2
                      · rw [hL2] at hrun
                        simp at hrun
                        obtain ⟨-, h2, h3⟩ := hrun
                        subst h2
                        subst h3
                        exact ⟨⟨hn1, hro1⟩, hoff1, hev1⟩
                      · cases nd2 with
                        | file c2 ro2 =>
                            rw [hL2] at hrun
                            simp at hrun
                            obtain ⟨-, h2, h3⟩ := hrun
                            subst h2
                            subst h3
                            exact ⟨⟨hn1, hro1⟩, hoff1, hev1⟩
                        | dir ro2 =>
                            rw [hL2] at hrun
                            simp only at hrun
                            rcases hfl : fileLoopWith (tryRecoverFuel os n) os
                                true (replace d root dest)
                                (List.filter (fun p => isFileFS fs1 p)
                                  (childPaths fs1 d)) fs1
                              with ⟨r2, fs2, e2⟩
                            rw [hfl] at hrun
                            obtain ⟨hn2, hoff2⟩ := fileLoopC_off_norm os n
                              (replace d root dest) root dest _ hdx hdirn
                              hf1 hf2
                              (List.filter (fun p => isFileFS fs1 p)
                                (childPaths fs1 d))
                              (fun fp hm => (hfls fs1 hn1 hro1 fp hm).1)
                              fs1 hn1
                            have hro2 := fileLoopC_root os n
                              (replace d root dest) hdirn hdirroot
                              (List.filter (fun p => isFileFS fs1 p)
                                (childPaths fs1 d))
                              (hfls fs1 hn1 hro1) fs1 hro1
                            rw [hfl] at hn2 hoff2 hro2
                            have hev2 : ∀ ev ∈ e2, ∀ m : Path,
                                ¬ ev = Ev.evMkdir m := by
                              intro ev hm m
                              exact fileLoopC_no_mkdir os n _ _ fs1 ev
                                (by rw [hfl]; simpa using hm) m
                            have hoff12 : ∀ r : Path, root <+: r →
                                lookupFS fs2 r = lookupFS fs r := by
                              intro r hrr
                              exact (hoff2 r hrr).trans (hoff1 r hrr)
                            cases r2 with
                            | error e =>
                                simp at hrun
                                obtain ⟨-, h2, h3⟩ := hrun
                                subst h2
                                subst h3
                                refine ⟨⟨hn2, hro2⟩, hoff12, ?_⟩
                                intro ev hm m hmk
                                rcases List.mem_append.mp hm with h | h
                                · exact hev1 ev h m hmk
                                · exact absurd hmk (hev2 ev h m)
                            | ok a2 =>
                                simp only [Prod.mk.injEq] at hrun
                                obtain ⟨-, h2, h3⟩ := hrun
                                subst h2
                                subst h3
                                obtain ⟨⟨hn3, hro3⟩, hoff3, hev3⟩ :=
                                  ih _ fs2 hn2 hro2 (hsubs fs2 hoff12)
                                refine ⟨⟨hn3, hro3⟩, fun r hrr =>
                                  (hoff3 r hrr).trans (hoff12 r hrr), ?_⟩
                                intro ev hm m hmk
                                simp only [List.nil_append] at hm
                                rcases List.mem_append.mp hm with h | h
                                · exact hev1 ev h m hmk
                                · rcases List.mem_append.mp h with h4 | h4
                                  · exact absurd hmk (hev2 ev h4 m)
                                  · obtain ⟨d2, ha, hb, hc2⟩ :=
                                      hev3 ev h4 m hmk
                                    refine ⟨d2, ha, ?_, hc2⟩
                                    rcases hb with h3 | h3
                                    · exact Or.inl h3
                                    · refine Or.inr ?_
                                      unfold isDirFS at h3 ⊢
                                      rw [← hoff12 d2 ha]
                                      exact h3

end Fdir

namespace Fdir

/-- A copy-mode `_write_dir` over a well-formed filesystem (root marker
only in head position) with non-overlapping normal roots: leaves every
entry under the source root untouched, and creates directories only at
ancestors of the rebasing of the source root or of an actual directory
of the source subtree. -/
theorem write_dir_copy_main (os : Os) (fuel : Nat) (d : DirectoryInfo)
    (dest : Path) (fs : FS)
    (hnd : normalPathB dest = true) (hrd : rootFreeTail dest = true)
    (hdn : normalPathB d.path = true) (hrq : rootFreeTail d.path = true)
    (hf1 : ¬ d.path <+: dest) (hf2 : ¬ dest <+: d.path)
    (hr1 : 1 ≤ d.path.length)
    (hfs : normalFSB fs = true) (hrfs : rootFreeFS fs = true) :
    (∀ r : Path, d.path <+: r →
      lookupFS ((_write_dir os fuel d dest true) fs).2.1 r =
        lookupFS fs r) ∧
    (∀ ev ∈ ((_write_dir os fuel d dest true) fs).2.2, ∀ m : Path,
      ev = Ev.evMkdir m → ∃ q : Path, d.path <+: q ∧
        (q = d.path ∨ isDirFS fs q = true) ∧
        m <+: replace q d.path dest) := by
  have hq : ∀ q ∈ [d.path], d.path <+: q ∧ normalPathB q = true ∧
      rootFreeTail q = true ∧ (q = d.path ∨ isDirFS fs q = true) := by
    intro q hmem
    simp at hmem
    subst hmem
    exact ⟨List.prefix_refl _, hdn, hrq, Or.inl rfl⟩
  have hgo := writeDirGoC_main os fuel d.path dest hnd hrd hf1 hf2 hr1 fuel
    [d.path] fs hfs hrfs hq
  unfold _write_dir writeDirFullWith
  rcases hrun : writeDirGoWith (tryRecoverFuel os fuel) os fuel d.path dest
      true [d.path] fs with ⟨rr, fs2, evs⟩
  rw [hrun] at hgo
  obtain ⟨-, hoff2, hev2⟩ := hgo
  simp only [bind_run, Mbind_run, hrun]
  cases rr with
  | error e => exact ⟨hoff2, hev2⟩
  | ok a =>
      refine ⟨?_, ?_⟩
      · intro r hr
        simpa using hoff2 r hr
      · intro ev hm m hmk
        refine hev2 ev ?_ m hmk
        simpa using hm

/-- C6: each of the four transfer constructors fails with the Conflict
error — underlying kind already-exists, carrying the entity and the
normalized destination path in the matching CopyFile / MoveFile /
CopyDirectory / MoveDirectory case — exactly when the normalized
destination already exists; when it does not, a file copy installs the
source file's bytes at the destination while leaving every other path
(the source in particular) untouched, and a directory copy leaves the
whole source subtree untouched. -/
theorem C6_conflict_exact (os : Os) (fuel : Nat) (f : FileInfo)
    (d : DirectoryInfo) (p : Path) (fs : FS) :
    ((FileInfo.copy_new f p fs).1 = Except.error ⟨ErrKind.alreadyExists,
        some (Status.copyFile f (fix_path p))⟩ ↔
      existsFS fs (fix_path p) = true) ∧
    ((FileInfo.move_new os f p fs).1 = Except.error ⟨ErrKind.alreadyExists,
        some (Status.moveFile f (fix_path p))⟩ ↔
      existsFS fs (fix_path p) = true) ∧
    ((DirectoryInfo.copy_new os fuel d p fs).1 =
        Except.error ⟨ErrKind.alreadyExists,
          some (Status.copyDirectory d (fix_path p))⟩ ↔
      existsFS fs (fix_path p) = true) ∧
    ((DirectoryInfo.move_new os fuel d p fs).1 =
        Except.error ⟨ErrKind.alreadyExists,
          some (Status.moveDirectory d (fix_path p))⟩ ↔
      existsFS fs (fix_path p) = true) ∧
    (∀ r : Path, ¬ r = fix_path p →
      lookupFS ((FileInfo.copy_new f p) fs).2.1 r = lookupFS fs r) ∧
    ((FileInfo.copy_new f p fs).1 = Except.ok () →
      ∃ c : List Nat, ∃ ro : Bool,
        lookupFS fs f.path = some (Node.file c ro) ∧
        lookupFS (FileInfo.copy_new f p fs).2.1 (fix_path p) =
          some (Node.file c ro)) ∧
    (existsFS fs (fix_path p) = false → normalFSB fs = true →
      rootFreeFS fs = true →
      normalPathB d.path = true → rootFreeTail d.path = true →
      normalPathB (fix_path p) = true →
      rootFreeTail (fix_path p) = true → 1 ≤ d.path.length →
      ¬ d.path <+: fix_path p → ¬ fix_path p <+: d.path →
      ∀ r : Path, d.path <+: r →
        lookupFS ((DirectoryInfo.copy_new os fuel d p) fs).2.1 r =
          lookupFS fs r) := by
  refine ⟨copy_new_conflict_iff f p fs, move_new_conflict_iff os f p fs,
    dir_copy_new_conflict_iff os fuel d p fs,
    dir_move_new_conflict_iff os fuel d p fs,
    fun r hr => copy_new_off f p fs r hr,
    copy_new_ok_effect f p fs, ?_⟩
  intro hex hn hrfs hdn hrq hpn hrp hr1 hs1 hs2 r hr
  unfold DirectoryInfo.copy_new
  simp only [bindMR_run, MRbind_run, liftE_run, tryExistsP_run]
  simp only [hex, Bool.false_eq_true, if_false]
  rw [liftE_run]
  rcases hw : _write_dir os fuel d (fix_path p) true fs with ⟨rr, fs2, evs⟩
  have hoff := (write_dir_copy_main os fuel d (fix_path p) fs hpn hrp
    hdn hrq hs1 hs2 hr1 hn hrfs).1 r hr
  rw [hw] at hoff
  cases rr <;> simpa using hoff

theorem C6_witness :
    lookupFS ((DirectoryInfo.copy_new osT 1 ⟨["/", "s"]⟩ ["/", "t"])
        fsW).2.1 ["/", "s", "a"] = lookupFS fsW ["/", "s", "a"] := by
  have h := (C6_conflict_exact osT 1 ⟨["/", "s", "a"]⟩ ⟨["/", "s"]⟩
    ["/", "t"] fsW).2.2.2.2.2.2
  exact h (by decide) (by decide) (by decide) (by decide) (by decide)
    (by decide) (by decide) (by decide) (by decide) (by decide)
    ["/", "s", "a"] (by decide)

/-- C7 (amended): over a well-formed filesystem with non-overlapping
normal roots, the copy-mode walk creates directories only inside the
destination mirror of the source subtree: every created directory is an
ancestor of the rebasing of the source root itself or of an actual
directory of the source subtree. The removal half of the claim is
false: recovering from a file-copy conflict deletes whatever occupies
the colliding destination path, here the existing directory `/d/a`,
which mirrors no source directory. -/
theorem C7_walk_mkdir_mirror :
    (∀ os : Os, ∀ fuel : Nat, ∀ d : DirectoryInfo, ∀ dest : Path,
      ∀ fs : FS,
      normalPathB dest = true → rootFreeTail dest = true →
      normalPathB d.path = true → rootFreeTail d.path = true →
      ¬ d.path <+: dest → ¬ dest <+: d.path → 1 ≤ d.path.length →
      normalFSB fs = true → rootFreeFS fs = true →
      ∀ ev ∈ (_write_dir os fuel d dest true fs).2.2,
        ∀ m : Path, ev = Ev.evMkdir m →
          ∃ q : Path, d.path <+: q ∧
            (q = d.path ∨ isDirFS fs q = true) ∧
            m <+: replace q d.path dest) ∧
    Ev.evRmTree ["/", "d", "a"] ∈
      (_write_dir osT 2 ⟨["/", "s"]⟩ ["/", "d"] true fsC7).2.2 ∧
    isDirFS fsC7 ["/", "d", "a"] = true ∧
    ¬ ["/", "d", "a"] <+: replace ["/", "s"] ["/", "s"] ["/", "d"] := by
  refine ⟨?_, by decide, by decide, by decide⟩
  intro os fuel d dest fs hnd hrd hdn hrq hf1 hf2 hr1 hfs hrfs ev hev m hm
  exact (write_dir_copy_main os fuel d dest fs hnd hrd hdn hrq hf1 hf2
    hr1 hfs hrfs).2 ev hev m hm

theorem C7_witness :
    ∃ q : Path, ["/", "s"] <+: q ∧
      (q = ["/", "s"] ∨ isDirFS fsW q = true) ∧
      ["/", "d"] <+: replace q ["/", "s"] ["/", "d"] := by
  exact C7_walk_mkdir_mirror.1 osT 2 ⟨["/", "s"]⟩ ["/", "d"] fsW
    (by decide) (by decide) (by decide) (by decide) (by decide) (by decide)
    (by decide) (by decide) (by decide)
    (Ev.evMkdir ["/", "d"]) (by decide) ["/", "d"] rfl

end Fdir
